import Mathlib

/-!
# go_graph: traversal animation of a tree-shaped graph

A shallow embedding of `main.go`.

* `Graph` is the Go `map[int][]GraphLine`, kept as a finite association list;
  `Graph.get` is the map lookup `(*g)[v]` (the empty slice for an absent key).
* An image is kept as the log of the primitive drawing calls (`drawPoint`,
  `drawLine`) made on it, in call order, with their arguments; the pixels that
  `drawLine` derives from them in `float64` arithmetic are not modelled.
* The animation `GIF` holds the two slices `Image` and `Delay`.
* Go `int` is modelled by `Int` (all coordinates stay between `-pointSize` and
  `canvSize + pointSize`, levels are bounded by the recursion depth); `/` on
  Go integers is `Int.tdiv` (truncation toward zero).
* Recursion and the unbounded `for` of `bfs` take a fuel argument; running out
  of fuel, an index out of range and an integer division by zero are reported
  as a `Fault`.
-/

namespace GoGraph

/-! ## Constants and data model -/

def pointSize : Int := 12

def canvSize : Int := 400

structure GraphLine where
  Num : Int
  Color : Nat
deriving DecidableEq, Repr

/-- Method `Visit`: the colour becomes 2. -/
def GraphLine.Visit (l : GraphLine) : GraphLine := ⟨l.Num, 2⟩

/-- Method `Visited`: the colour is 2. -/
def GraphLine.Visited (l : GraphLine) : Bool := l.Color == 2

abbrev Graph := List (Int × List GraphLine)

/-- Map lookup `(*g)[v]`; an absent key gives the empty slice. -/
def Graph.get : Graph → Int → List GraphLine
  | [], _ => []
  | (k, l) :: rest, v => if k = v then l else Graph.get rest v

/-- Map lookup with presence flag, `val, ok := (*g)[src]`. -/
def Graph.find : Graph → Int → Option (List GraphLine)
  | [], _ => none
  | (k, l) :: rest, v => if k = v then some l else Graph.find rest v

/-- Map store `(*g)[v] = l`. -/
def Graph.set : Graph → Int → List GraphLine → Graph
  | [], v, l => [(v, l)]
  | (k, l0) :: rest, v, l => if k = v then (k, l) :: rest else (k, l0) :: Graph.set rest v l

/-- Method `append` of `Graph`. -/
def Graph.append (g : Graph) (src dst : Int) : Graph :=
  match g.find src with
  | none => g.set src [⟨dst, 1⟩]
  | some val => g.set src (val ++ [⟨dst, 1⟩])

inductive Fault where
  | outOfFuel
  | indexOutOfRange
  | divideByZero
deriving DecidableEq, Repr

/-- Statement `(*g)[v][i].Visit()`: the element is changed in place in the
slice stored under `v`; an index outside the slice is a run-time fault. -/
def Graph.visit (g : Graph) (v : Int) (i : Nat) : Except Fault Graph :=
  if i < (g.get v).length then
    .ok (g.set v ((g.get v).modify GraphLine.Visit i))
  else .error .indexOutOfRange

/-- Expression `(*g)[v][i].Visited()`. -/
def Graph.visited (g : Graph) (v : Int) (i : Nat) : Except Fault Bool :=
  match (g.get v)[i]? with
  | some l => .ok l.Visited
  | none => .error .indexOutOfRange

/-! ## Drawing -/

inductive DrawOp where
  | point (x y : Int) (ci : Nat)
  | line (x1 y1 x2 y2 : Int) (ci : Nat)
deriving DecidableEq, Repr

abbrev Image := List DrawOp

def drawPoint (x y : Int) (img : Image) (ci : Nat) : Image :=
  img ++ [DrawOp.point x y ci]

def drawLine (x1 y1 x2 y2 : Int) (img : Image) (ci : Nat) : Image :=
  img ++ [DrawOp.line x1 y1 x2 y2 ci]

/-- The integers `lo, lo + 1, ..., hi - 1`: the values of the counter of a
loop `for i := lo; i < hi; i++`. -/
def intRange (lo hi : Int) : List Int :=
  (List.range (hi - lo).toNat).map (fun (n : Nat) => lo + (n : Int))

/-- The pixels `(i, j)` on which the two loops of `drawPoint` call
`SetColorIndex`, in call order. -/
def pointPixels (x y : Int) : List (Int × Int) :=
  (intRange (x - pointSize.tdiv 2) (x + pointSize.tdiv 2)).flatMap
    (fun i => (intRange (y - pointSize.tdiv 2) (y + pointSize.tdiv 2)).map (fun j => (i, j)))

/-- Local `rootX` of `drawVertext`. -/
def rootX (x1 x2 : Int) : Int := x1 + (x2 - x1 - pointSize).tdiv 2

/-- Local `rootY` of `drawVertext`. -/
def rootY (level : Int) : Int := 10 + 50 * level

/-- Local `stepX` of `drawVertext`, for `n = len(childs)`. -/
def stepX (x1 x2 : Int) (n : Nat) : Except Fault Int :=
  if n = 0 then .error .divideByZero else .ok ((x2 - x1).tdiv n)

/-- Local `childX1` of `drawVertext`. -/
def childX1 (x1 step : Int) (i : Nat) : Int := x1 + i * step

/-- Local `childX2` of `drawVertext`. -/
def childX2 (x1 step : Int) (i : Nat) : Int := x1 + (i + 1) * step

/-- The `for i, vertex := range childs` loop of `drawVertext`, from index `i`
on, with `self` the recursive call. -/
def drawChilds (self : Int → Int → Int → Int → Image → Int → Int → Nat → Except Fault Image)
    (x1 step level px py : Int) : Nat → List GraphLine → Image → Except Fault Image
  | _, [], img => .ok img
  | i, vertex :: rest, img =>
    match self vertex.Num (childX1 x1 step i) (childX2 x1 step i) (level + 1) img px py
        vertex.Color with
    | .error e => .error e
    | .ok img1 => drawChilds self x1 step level px py (i + 1) rest img1

def drawVertext : Nat → Graph → Int → Int → Int → Int → Image → Int → Int → Nat →
    Except Fault Image
  | 0, _, _, _, _, _, _, _, _, _ => .error .outOfFuel
  | fuel + 1, g, v, x1, x2, level, img, parentX, parentY, color =>
    let childs := g.get v
    let img1 := drawPoint (rootX x1 x2) (rootY level) img color
    let img2 := if parentX ≠ -1 then
        drawLine parentX parentY (rootX x1 x2) (rootY level) img1 color
      else img1
    if childs.length = 0 then .ok img2
    else
      match stepX x1 x2 childs.length with
      | .error e => .error e
      | .ok step =>
        drawChilds (drawVertext fuel g) x1 step level (rootX x1 x2) (rootY level) 0 childs img2

structure GIF where
  Image : List Image
  Delay : List Int
deriving DecidableEq, Repr

/-- The image built by `draw`: a fresh image handed to the root call
`g.drawVertext(0, 0, canvSize, 0, img, -1, -1, 2)`. -/
def frameOf (dfuel : Nat) (g : Graph) : Except Fault Image :=
  drawVertext dfuel g 0 0 canvSize 0 [] (-1) (-1) 2

/-- Method `draw` of `Graph`; `dfuel` bounds the depth of the rendering. -/
def draw (dfuel : Nat) (g : Graph) (anim : GIF) : Except Fault GIF :=
  match frameOf dfuel g with
  | .error e => .error e
  | .ok img => .ok ⟨anim.Image ++ [img], anim.Delay ++ [50]⟩

/-! ## Depth-first traversal -/

/-- The `for i, vertex := range childs` loop of `dfs`, from index `i` on,
with `self` the recursive call. -/
def dfsChilds (self : Graph → GIF → Int → Except Fault (Graph × GIF)) (v : Int) :
    Nat → List GraphLine → Graph → GIF → Except Fault (Graph × GIF)
  | _, [], g, anim => .ok (g, anim)
  | i, vertex :: rest, g, anim =>
    match g.visit v i with
    | .error e => .error e
    | .ok g1 =>
      match self g1 anim vertex.Num with
      | .error e => .error e
      | .ok (g2, anim2) => dfsChilds self v (i + 1) rest g2 anim2

def dfs (dfuel : Nat) : Nat → Graph → GIF → Int → Except Fault (Graph × GIF)
  | 0, _, _, _ => .error .outOfFuel
  | fuel + 1, g, anim, v =>
    match draw dfuel g anim with
    | .error e => .error e
    | .ok anim1 => dfsChilds (dfs dfuel fuel) v 0 (g.get v) g anim1

/-! ## Breadth-first traversal -/

/-- The loop `for i, child := range (*g)[vertex]` of `bfs`, from index `i` on;
`queue` and `done` are the locals of `bfs`. -/
def bfsEdges (dfuel : Nat) (vertex : Int) :
    Nat → List GraphLine → Graph → GIF → List Int → Bool →
      Except Fault (Graph × GIF × List Int × Bool)
  | _, [], g, anim, queue, done => .ok (g, anim, queue, done)
  | i, child :: rest, g, anim, queue, done =>
    match g.visited vertex i with
    | .error e => .error e
    | .ok true => bfsEdges dfuel vertex (i + 1) rest g anim queue done
    | .ok false =>
      match g.visit vertex i with
      | .error e => .error e
      | .ok g1 =>
        match draw dfuel g1 anim with
        | .error e => .error e
        | .ok anim1 => bfsEdges dfuel vertex (i + 1) rest g1 anim1 (queue ++ [child.Num]) false

/-- The loop `for _, vertex := range queue` of `bfs` over the elements of the
queue as it was when the loop started. -/
def bfsScan (dfuel : Nat) :
    List Int → Graph → GIF → List Int → Bool → Except Fault (Graph × GIF × List Int × Bool)
  | [], g, anim, queue, done => .ok (g, anim, queue, done)
  | vertex :: rest, g, anim, queue, done =>
    match bfsEdges dfuel vertex 0 (g.get vertex) g anim queue done with
    | .error e => .error e
    | .ok (g1, anim1, queue1, done1) => bfsScan dfuel rest g1 anim1 queue1 done1

/-- The outer `for` of `bfs`: scan the queue until a scan visits no edge. -/
def bfsLoop (dfuel : Nat) : Nat → Graph → GIF → List Int → Except Fault (Graph × GIF × List Int)
  | 0, _, _, _ => .error .outOfFuel
  | fuel + 1, g, anim, queue =>
    match bfsScan dfuel queue g anim queue true with
    | .error e => .error e
    | .ok (g1, anim1, queue1, done) =>
      if done then .ok (g1, anim1, queue1) else bfsLoop dfuel fuel g1 anim1 queue1

/-- The loop `for i, _ := range ... { (*g)[v][i].Visit(); g.draw(anim) }`, from
index `i` on. -/
def remark (dfuel : Nat) (v : Int) :
    Nat → List GraphLine → Graph → GIF → Except Fault (Graph × GIF)
  | _, [], g, anim => .ok (g, anim)
  | i, _ :: rest, g, anim =>
    match g.visit v i with
    | .error e => .error e
    | .ok g1 =>
      match draw dfuel g1 anim with
      | .error e => .error e
      | .ok anim1 => remark dfuel v (i + 1) rest g1 anim1

/-- The last loop of `bfs`: for every child of the start node, the edges of
the child are marked again. -/
def remarkChilds (dfuel : Nat) : List GraphLine → Graph → GIF → Except Fault (Graph × GIF)
  | [], g, anim => .ok (g, anim)
  | vertex :: rest, g, anim =>
    match remark dfuel vertex.Num 0 (g.get vertex.Num) g anim with
    | .error e => .error e
    | .ok (g1, anim1) => remarkChilds dfuel rest g1 anim1

/-- Lines 114 to 136 of `bfs`: the first frame and the queue-driven loop. -/
def bfsQueue (dfuel fuel : Nat) (g : Graph) (anim : GIF) (v : Int) :
    Except Fault (Graph × GIF × List Int) :=
  match draw dfuel g anim with
  | .error e => .error e
  | .ok anim1 => bfsLoop dfuel fuel g anim1 [v]

/-- Lines 138 to 150 of `bfs`: the two trailing passes. -/
def bfsTrailing (dfuel : Nat) (g : Graph) (anim : GIF) (v : Int) : Except Fault (Graph × GIF) :=
  let childs := g.get v
  match remark dfuel v 0 childs g anim with
  | .error e => .error e
  | .ok (g1, anim1) => remarkChilds dfuel childs g1 anim1

def bfs (dfuel fuel : Nat) (g : Graph) (anim : GIF) (v : Int) : Except Fault (Graph × GIF) :=
  match bfsQueue dfuel fuel g anim v with
  | .error e => .error e
  | .ok (g1, anim1, _) => bfsTrailing dfuel g1 anim1 v

/-! ## Tree-shaped graphs

A forest in first-child / next-sibling form: `cons v kids rest` is a tree with
root `v` and children `kids`, followed by its right siblings `rest`. -/

inductive Forest where
  | nil : Forest
  | cons (id : Int) (kids : Forest) (rest : Forest) : Forest
deriving DecidableEq, Repr

/-- The roots of the trees of a forest, left to right. -/
def Forest.roots : Forest → List Int
  | .nil => []
  | .cons v _ rest => v :: rest.roots

/-- All nodes of a forest, in pre-order. -/
def Forest.ids : Forest → List Int
  | .nil => []
  | .cons v kids rest => v :: (kids.ids ++ rest.ids)

/-- Number of nodes of a forest. -/
def Forest.size : Forest → Nat
  | .nil => 0
  | .cons _ kids rest => 1 + kids.size + rest.size

/-- Number of levels of a forest. -/
def Forest.height : Forest → Nat
  | .nil => 0
  | .cons _ kids rest => max (kids.height + 1) rest.height

/-- Targets of the edges leaving `v`, in insertion order. -/
def topo (g : Graph) (v : Int) : List Int := (g.get v).map GraphLine.Num

/-- Two graphs with the same targets in the same order under every key. -/
def SameTopo (g g2 : Graph) : Prop := ∀ v, topo g v = topo g2 v

/-- The adjacency lists of `g` at the nodes of the forest are those of the
forest. -/
def Unfolds (g : Graph) : Forest → Prop
  | .nil => True
  | .cons v kids rest => topo g v = kids.roots ∧ Unfolds g kids ∧ Unfolds g rest

instance Unfolds.dec (g : Graph) : (F : Forest) → Decidable (Unfolds g F)
  | .nil => isTrue trivial
  | .cons v kids rest =>
    have := Unfolds.dec g kids
    have := Unfolds.dec g rest
    inferInstanceAs (Decidable (topo g v = kids.roots ∧ Unfolds g kids ∧ Unfolds g rest))

/-- Graph `g` is the tree with root `root` whose children subtrees are `kids`:
no node occurs twice, every node has the adjacency list of the tree, and no
other key has edges. -/
structure IsTree (g : Graph) (root : Int) (kids : Forest) : Prop where
  nodup : (Forest.cons root kids Forest.nil).ids.Nodup
  shape : Unfolds g (Forest.cons root kids Forest.nil)
  cover : ∀ v, v ∉ (Forest.cons root kids Forest.nil).ids → g.get v = []

/-- Every edge of the graph is Unvisited. -/
def AllUnvisited (g : Graph) : Prop := ∀ v, ∀ l ∈ g.get v, l.Visited = false

/-- Every edge of the graph is Visited. -/
def AllVisited (g : Graph) : Prop := ∀ v, ∀ l ∈ g.get v, l.Visited = true

/-- The edge with index `e.2` under key `e.1` set to Visited (nothing when
there is no such edge). -/
def Graph.mark (g : Graph) (e : Int × Nat) : Graph :=
  if e.2 < (g.get e.1).length then g.set e.1 ((g.get e.1).modify GraphLine.Visit e.2) else g

/-- The edges `es` set to Visited, one after the other. -/
def Graph.marks (g : Graph) (es : List (Int × Nat)) : Graph := es.foldl Graph.mark g

/-- The frames of the graph states reached while the edges `es` are set to
Visited one after the other: one frame after each edge. -/
def trail (dfuel : Nat) : Graph → List (Int × Nat) → List (Except Fault Image)
  | _, [] => []
  | g, e :: es => frameOf dfuel (g.mark e) :: trail dfuel (g.mark e) es

/-- Whether edge number `j` of `v` exists and is Visited. -/
def Graph.isVisited (g : Graph) (v : Int) (j : Nat) : Bool :=
  match (g.get v)[j]? with
  | some l => l.Visited
  | none => false

/-- Pre-order edge sequence of the children `F` of `v`, the first of them
being edge number `i` of `v`: for each child in order, the edge to the child,
then the edges of the child's subtree. -/
def preEdges (v : Int) : Nat → Forest → List (Int × Nat)
  | _, .nil => []
  | i, .cons c kids rest => (v, i) :: (preEdges c 0 kids ++ preEdges v (i + 1) rest)

/-- Forest `a` followed by forest `b`. -/
def Forest.append : Forest → Forest → Forest
  | .nil, b => b
  | .cons v kids rest, b => .cons v kids (Forest.append rest b)

/-- The next level: the children subtrees of all roots, left to right. -/
def Forest.next : Forest → Forest
  | .nil => .nil
  | .cons _ kids rest => Forest.append kids (Forest.next rest)

/-- Level `d` of a forest: the subtrees whose roots are at depth `d`. -/
def Forest.level : Nat → Forest → Forest
  | 0, F => F
  | d + 1, F => Forest.level d F.next

/-- The edges `(v, 0), ..., (v, n - 1)` of a node `v` with `n` children. -/
def edgesOf (v : Int) (n : Nat) : List (Int × Nat) := (List.range n).map (fun j => (v, j))

/-- The edges leaving the roots of a forest: root by root, and for one root in
insertion order. -/
def rootEdges : Forest → List (Int × Nat)
  | .nil => []
  | .cons v kids rest => edgesOf v kids.roots.length ++ rootEdges rest

/-- The edges of the first `n` levels of a forest, level by level. -/
def levelEdges : Nat → Forest → List (Int × Nat)
  | 0, _ => []
  | n + 1, F => rootEdges F ++ levelEdges n F.next

/-- Level-order edge sequence of a forest: for every depth `d` in increasing
order, the edges leaving the nodes at depth `d` (so those whose target is at
depth `d + 1`), parent by parent from left to right, the edges of one parent
in insertion order. -/
def levelOrder (F : Forest) : List (Int × Nat) :=
  (List.range F.height).flatMap (fun d => rootEdges (Forest.level d F))

/-- Node `x` has no Visited edge. -/
def Fresh (g : Graph) (x : Int) : Prop := ∀ j, Graph.isVisited g x j = false

/-- Every edge of node `x` is Visited. -/
def Done (g : Graph) (x : Int) : Prop := ∀ j, j < (Graph.get g x).length → Graph.isVisited g x j = true

/-- Every graph with the topology of `g` can be rendered with `dfuel`. -/
def Renders (dfuel : Nat) (g : Graph) : Prop :=
  ∀ g2, SameTopo g g2 → ∃ img, frameOf dfuel g2 = .ok img

/-- A drawing call without its colour: what is drawn where. -/
def DrawOp.geometry : DrawOp → DrawOp
  | .point x y _ => .point x y 0
  | .line x1 y1 x2 y2 _ => .line x1 y1 x2 y2 0

/-- The positions of all points and lines of an image, in drawing order. -/
def geometry (img : Image) : Image := img.map DrawOp.geometry

/-- Every edge carries colour 1 (as set by `append`) or 2 (as set by `Visit`). -/
def ColourOK (g : Graph) : Prop := ∀ v, ∀ l ∈ Graph.get g v, l.Color = 1 ∨ l.Color = 2

/-- Colour index that stands for an edge state: 2 for Visited, 1 for Unvisited. -/
def stateColour (visited : Bool) : Nat := if visited then 2 else 1

/-- What the frames are to show for the children `F` of node `v`, the first of them being
child number `i`: every child, being a non-root node, gets its square and the line that
joins it to its parent at `(px, py)`, both in the colour of the state of its incoming edge
`(v, i)`; then its own children follow, laid out in its interval. -/
def specKids (g : Graph) (v : Int) (x1 step level px py : Int) : Nat → Forest → Image
  | _, .nil => []
  | i, .cons c kids rest =>
    [DrawOp.point (rootX (childX1 x1 step i) (childX2 x1 step i)) (rootY (level + 1))
        (stateColour (Graph.isVisited g v i)),
      DrawOp.line px py (rootX (childX1 x1 step i) (childX2 x1 step i)) (rootY (level + 1))
        (stateColour (Graph.isVisited g v i))]
    ++ specKids g c (childX1 x1 step i)
        ((childX2 x1 step i - childX1 x1 step i).tdiv kids.roots.length) (level + 1)
        (rootX (childX1 x1 step i) (childX2 x1 step i)) (rootY (level + 1)) 0 kids
    ++ specKids g v x1 step level px py (i + 1) rest

/-- What the frames are to show for the tree with root 0 and children `kids`: the root
square in colour 2 and no line for it, then the children. -/
def specFrame (g : Graph) (kids : Forest) : Image :=
  DrawOp.point (rootX 0 canvSize) (rootY 0) 2 ::
    specKids g 0 0 ((canvSize - 0).tdiv kids.roots.length) 0 (rootX 0 canvSize) (rootY 0) 0 kids

/-- No node of the forest that has children is drawn at x `-1`, the value that
`drawVertext` reads as "no parent"; the forest is laid out as the children of a node whose
interval starts at `x1` and is cut in steps of `step`, its first tree being child number
`i`. -/
def OffSentinel (x1 step : Int) : Nat → Forest → Prop
  | _, .nil => True
  | i, .cons _ kids rest =>
    (kids ≠ Forest.nil → rootX (childX1 x1 step i) (childX2 x1 step i) ≠ -1)
    ∧ OffSentinel (childX1 x1 step i)
        ((childX2 x1 step i - childX1 x1 step i).tdiv kids.roots.length) 0 kids
    ∧ OffSentinel x1 step (i + 1) rest

instance OffSentinel.dec : (F : Forest) → (x1 step : Int) → (i : Nat) →
    Decidable (OffSentinel x1 step i F)
  | .nil, _, _, _ => isTrue trivial
  | .cons _ kids rest, x1, step, i =>
    have := OffSentinel.dec kids (childX1 x1 step i)
      ((childX2 x1 step i - childX1 x1 step i).tdiv kids.roots.length) 0
    have := OffSentinel.dec rest x1 step (i + 1)
    inferInstanceAs (Decidable
      ((kids ≠ Forest.nil → rootX (childX1 x1 step i) (childX2 x1 step i) ≠ -1)
      ∧ OffSentinel (childX1 x1 step i)
          ((childX2 x1 step i - childX1 x1 step i).tdiv kids.roots.length) 0 kids
      ∧ OffSentinel x1 step (i + 1) rest))

/-- The forest of the childless nodes `vs`, left to right. -/
def leaves (vs : List Int) : Forest :=
  vs.foldr (fun v rest => Forest.cons v Forest.nil rest) Forest.nil

/-- The row in which a drawing call ends: the y of a point, the `y2` of a line. -/
def DrawOp.endRow : DrawOp → Int
  | .point _ y _ => y
  | .line _ _ _ y2 _ => y2

/-- The drawing calls of an image that end in row `y`, in drawing order. -/
def rowOps (y : Int) (img : Image) : Image := img.filter (fun op => decide (op.endRow = y))

/-- Every line of the image directly follows a point drawn at the line's end `(x, y)` in the
line's colour. -/
def LinesFollowPoints (img : Image) : Prop :=
  ∀ (a b : Image) (px py x y : Int) (c : Nat),
    img = a ++ DrawOp.line px py x y c :: b → ∃ a2, a = a2 ++ [DrawOp.point x y c]

/-- The graph of the single edge `0 -> 1`. -/
def oneEdge : Graph := Graph.append [] 0 1

/-- The graph of the two edges `0 -> 1`, `0 -> 2`. -/
def twoEdges : Graph := Graph.append (Graph.append [] 0 1) 0 2

/-- The children of the root of `twoEdges`. -/
def twoKids : Forest := Forest.cons 1 Forest.nil (Forest.cons 2 Forest.nil Forest.nil)

/-- The keys of the map, in the order of the association list. -/
def Graph.keys (g : Graph) : List Int := g.map Prod.fst

/-- The graph built from the empty map by one `append` call per pair, in order. -/
def build (es : List (Int × Int)) : Graph :=
  es.foldl (fun g e => Graph.append g e.1 e.2) []

/-- Number of Unvisited edges stored in the graph. -/
def Graph.unvisited (g : Graph) : Nat :=
  (g.map (fun p => p.2.countP (fun l => !l.Visited))).sum

/-- A stretch of a run that takes graph `g` and animation `anim` to `g2` and `anim2` by a
sequence `es` of `Visit` calls on existing edges, each followed by one `draw`. -/
def Traces (dfuel : Nat) (g : Graph) (anim : GIF) (g2 : Graph) (anim2 : GIF) : Prop :=
  ∃ es : List (Int × Nat), (∀ e ∈ es, e.2 < (Graph.get g e.1).length)
    ∧ g2 = Graph.marks g es
    ∧ anim2.Image.map Except.ok = anim.Image.map Except.ok ++ trail dfuel g es
    ∧ anim2.Delay = anim.Delay ++ List.replicate es.length 50

/-- The only failure of a result is running out of fuel. -/
def NoFault {α : Type} (r : Except Fault α) : Prop := ∀ e, r = .error e → e = Fault.outOfFuel

/-- Outcome of a whole `dfs` or `bfs` call: it fails only for lack of fuel, and when it
returns it has made one `draw` of the initial graph and then a stretch of marks and draws. -/
def RunOutcome (dfuel : Nat) (g : Graph) (anim : GIF) (r : Except Fault (Graph × GIF)) : Prop :=
  match r with
  | .ok (g2, anim2) => ∃ img, frameOf dfuel g = .ok img
      ∧ Traces dfuel g ⟨anim.Image ++ [img], anim.Delay ++ [50]⟩ g2 anim2
  | .error e => e = Fault.outOfFuel

/-- Outcome of a loop of a run: it fails only for lack of fuel, and when it returns it has
made a stretch of marks and draws. -/
def LoopOutcome (dfuel : Nat) (g : Graph) (anim : GIF) (r : Except Fault (Graph × GIF)) : Prop :=
  match r with
  | .ok (g2, anim2) => Traces dfuel g anim g2 anim2
  | .error e => e = Fault.outOfFuel

/-- Outcome of a scan in `bfs` started with flag `done`: it fails only when a rendering
runs out of fuel; when it returns it has made a stretch of marks and draws, the number of
Unvisited edges has not grown, and the flag is cleared only if it was already clear or an
Unvisited edge has been marked. -/
def ScanOutcome (dfuel : Nat) (g : Graph) (anim : GIF) (done : Bool)
    (r : Except Fault (Graph × GIF × List Int × Bool)) : Prop :=
  match r with
  | .ok (g2, anim2, _, d2) => Traces dfuel g anim g2 anim2
      ∧ Graph.unvisited g2 ≤ Graph.unvisited g
      ∧ (d2 = false → done = false ∨ Graph.unvisited g2 < Graph.unvisited g)
  | .error e => e = Fault.outOfFuel ∧ ¬ Renders dfuel g

/-- Outcome of a trailing pass of `bfs`: it fails only when a rendering runs out of fuel,
and when it returns it has made a stretch of marks and draws. -/
def PassOutcome (dfuel : Nat) (g : Graph) (anim : GIF) (r : Except Fault (Graph × GIF)) : Prop :=
  match r with
  | .ok (g2, anim2) => Traces dfuel g anim g2 anim2
  | .error e => e = Fault.outOfFuel ∧ ¬ Renders dfuel g

/-- A drawing call that fits the rows of the layout: a point at the row `10 + 50 * n` of some
depth `n`, a line from the row of some depth `n` to the row of depth `n + 1`. -/
def DrawOp.onGrid : DrawOp → Prop
  | .point _ y _ => ∃ n : Nat, y = rootY n
  | .line _ y1 _ y2 _ => ∃ n : Nat, y1 = rootY n ∧ y2 = rootY (n + 1)

/-- The vertical coordinates of the points of an image, in drawing order. -/
def pointYs (img : Image) : List Int :=
  img.filterMap (fun op => match op with
    | .point _ y _ => some y
    | .line _ _ _ _ _ => none)

/-- The rows of the nodes of a forest whose roots are at depth `level`, in pre-order: a
node at depth `d` has row `10 + 50 * d`. -/
def Forest.ys : Int → Forest → List Int
  | _, .nil => []
  | level, .cons _ kids rest => rootY level :: (Forest.ys (level + 1) kids ++ Forest.ys level rest)

/-- The targets of all edges of the graph. -/
def Graph.targets (g : Graph) : List Int := g.flatMap (fun p => p.2.map GraphLine.Num)

/-- Number of edges stored in the graph. -/
def Graph.edgeCount (g : Graph) : Nat := (g.map (fun p => p.2.length)).sum

/-- Function `makeGraph`: the empty map followed by its 23 `append` calls, in order. -/
def makeGraph : Graph :=
  build [(0, 1), (0, 2), (1, 3), (1, 4), (2, 20), (20, 200), (20, 201), (200, 2000),
    (200, 2001), (2001, 20010), (201, 2010), (201, 2011), (2010, 20100), (20100, 201000),
    (20100, 201001), (201001, 2010010), (4, 5), (4, 6), (4, 7), (5, 50), (5, 51), (51, 510),
    (510, 5100)]

/-- The subtrees below node 0 of the graph of `makeGraph`. -/
def makeKids : Forest :=
  .cons 1
    (.cons 3 .nil
      (.cons 4
        (.cons 5
          (.cons 50 .nil (.cons 51 (.cons 510 (.cons 5100 .nil .nil) .nil) .nil))
          (.cons 6 .nil (.cons 7 .nil .nil)))
        .nil))
    (.cons 2
      (.cons 20
        (.cons 200
          (.cons 2000 .nil (.cons 2001 (.cons 20010 .nil .nil) .nil))
          (.cons 201
            (.cons 2010
              (.cons 20100
                (.cons 201000 .nil (.cons 201001 (.cons 2010010 .nil .nil) .nil))
                .nil)
              (.cons 2011 .nil .nil))
            .nil))
        .nil)
      .nil)

/-- The graph built by the calls `append(0, 1)`, ..., `append(0, 40)`, `append(1, 41)`,
`append(1, 42)`: node 0 with 40 children, the first of which has two children. -/
def starGraph : Graph :=
  build ((List.range 40).map (fun (n : Nat) => ((0 : Int), (n : Int) + 1)) ++ [(1, 41), (1, 42)])

/-- The subtrees below node 0 of `starGraph`. -/
def starKids : Forest :=
  Forest.cons 1 (leaves [41, 42]) (leaves ((List.range 39).map (fun (n : Nat) => (n : Int) + 2)))

/-! ## Lookup after a store, and what a mark changes -/

theorem Graph.get_set (g : Graph) (v : Int) (l : List GraphLine) (w : Int) :
    Graph.get (Graph.set g v l) w = if w = v then l else Graph.get g w := by
  induction g with
  | nil =>
    by_cases h : w = v
    · simp [Graph.set, Graph.get, h]
    · have h2 : ¬ v = w := fun e => h e.symm
      simp [Graph.set, Graph.get, h, h2]
  | cons p rest ih =>
    obtain ⟨k, l0⟩ := p
    by_cases hk : k = v
    · by_cases h : w = v
      · simp [Graph.set, Graph.get, hk, h]
      · have h2 : ¬ v = w := fun e => h e.symm
        simp [Graph.set, Graph.get, hk, h, h2]
    · by_cases h : w = v
      · subst h
        simp [Graph.set, Graph.get, hk, ih]
      · by_cases hkw : k = w
        · simp [Graph.set, Graph.get, hk, h, hkw]
        · simp [Graph.set, Graph.get, hk, h, hkw, ih]

theorem Graph.get_mark (g : Graph) (e : Int × Nat) (w : Int) :
    Graph.get (Graph.mark g e) w
      = if w = e.1 then (Graph.get g e.1).modify GraphLine.Visit e.2 else Graph.get g w := by
  unfold Graph.mark
  by_cases h : e.2 < (Graph.get g e.1).length
  · simp only [h, if_true, Graph.get_set]
  · simp only [h, if_false]
    by_cases hw : w = e.1
    · have hm : (Graph.get g e.1).modify GraphLine.Visit e.2 = Graph.get g e.1 := by
        apply List.ext_getElem?
        intro m
        rw [List.getElem?_modify]
        by_cases hm : e.2 = m
        · subst hm
          have : (Graph.get g e.1)[e.2]? = none := by
            rw [List.getElem?_eq_none_iff]; omega
          simp [this]
        · simp [hm]
      simp [hw, hm]
    · simp [hw]

theorem Graph.visit_eq (g : Graph) (v : Int) (i : Nat) (h : i < (Graph.get g v).length) :
    Graph.visit g v i = .ok (Graph.mark g (v, i)) := by
  simp [Graph.visit, Graph.mark, h]

theorem map_Num_modify (l : List GraphLine) (i : Nat) :
    (l.modify GraphLine.Visit i).map GraphLine.Num = l.map GraphLine.Num := by
  apply List.ext_getElem?
  intro m
  simp only [List.getElem?_map, List.getElem?_modify]
  cases l[m]? with
  | none => rfl
  | some a => by_cases h : i = m <;> simp [h, GraphLine.Visit]

theorem topo_mark (g : Graph) (e : Int × Nat) (w : Int) : topo (Graph.mark g e) w = topo g w := by
  unfold topo
  rw [Graph.get_mark]
  by_cases h : w = e.1
  · simp [h, map_Num_modify]
  · simp [h]

theorem sameTopo_refl (g : Graph) : SameTopo g g := fun _ => rfl

theorem sameTopo_trans {a b c : Graph} (h1 : SameTopo a b) (h2 : SameTopo b c) : SameTopo a c :=
  fun v => (h1 v).trans (h2 v)

theorem sameTopo_symm {a b : Graph} (h : SameTopo a b) : SameTopo b a := fun v => (h v).symm

theorem sameTopo_mark (g : Graph) (e : Int × Nat) : SameTopo g (Graph.mark g e) :=
  fun w => (topo_mark g e w).symm

theorem sameTopo_marks (es : List (Int × Nat)) (g : Graph) : SameTopo g (Graph.marks g es) := by
  induction es generalizing g with
  | nil => exact sameTopo_refl g
  | cons e es ih => exact sameTopo_trans (sameTopo_mark g e) (ih (Graph.mark g e))

theorem sameTopo_length {a b : Graph} (h : SameTopo a b) (v : Int) :
    (Graph.get a v).length = (Graph.get b v).length := by
  have := congrArg List.length (h v)
  simpa [topo] using this

theorem unfolds_of_sameTopo {a b : Graph} (h : SameTopo a b) (F : Forest) (hu : Unfolds a F) :
    Unfolds b F := by
  induction F with
  | nil => trivial
  | cons v kids rest ih1 ih2 =>
    obtain ⟨h1, h2, h3⟩ := hu
    exact ⟨(h v).symm.trans h1, ih1 h2, ih2 h3⟩

/-! ## Rendering a tree-shaped graph succeeds -/

theorem drawChilds_ok (g : Graph) (F : Forest) :
    ∀ (fuel : Nat), Unfolds g F → F.height ≤ fuel →
    ∀ (l : List GraphLine), l.map GraphLine.Num = F.roots →
    ∀ (x1 step level px py : Int) (i : Nat) (img : Image),
      ∃ img2, drawChilds (drawVertext fuel g) x1 step level px py i l img = .ok img2 := by
  induction F with
  | nil =>
    intro fuel _ _ l hl x1 step level px py i img
    have : l = [] := by simpa [Forest.roots] using hl
    subst this
    exact ⟨img, rfl⟩
  | cons v kids rest ih1 ih2 =>
    intro fuel hu hh l hl x1 step level px py i img
    obtain ⟨hv, hk, hr⟩ := hu
    simp only [Forest.height] at hh
    cases l with
    | nil => simp [Forest.roots] at hl
    | cons vertex l2 =>
      simp only [List.map_cons, Forest.roots, List.cons.injEq] at hl
      obtain ⟨hn, hl2⟩ := hl
      cases fuel with
      | zero => omega
      | succ f =>
        have hself : ∀ (a b lv : Int) (im : Image) (qx qy : Int) (c : Nat),
            ∃ im2, drawVertext (f + 1) g vertex.Num a b lv im qx qy c = .ok im2 := by
          intro a b lv im qx qy c
          rw [hn]
          simp only [drawVertext]
          by_cases h0 : (Graph.get g v).length = 0
          · simp [h0]
          · simp only [h0, if_false, stepX]
            exact ih1 f hk (by omega) (Graph.get g v) hv _ _ _ _ _ _ _
        obtain ⟨im2, him2⟩ := hself (childX1 x1 step i) (childX2 x1 step i) (level + 1) img px py
          vertex.Color
        obtain ⟨im3, him3⟩ := ih2 (f + 1) hr (by omega) l2 hl2 x1 step level px py (i + 1) im2
        refine ⟨im3, ?_⟩
        simp only [drawChilds, him2, him3]

theorem frameOf_ok (g : Graph) (kids : Forest) (dfuel : Nat)
    (hu : Unfolds g (Forest.cons 0 kids Forest.nil)) (hd : kids.height + 1 ≤ dfuel) :
    ∃ img, frameOf dfuel g = .ok img := by
  have h := drawChilds_ok g (Forest.cons 0 kids Forest.nil) dfuel hu
    (by simp [Forest.height]; omega) [⟨0, 2⟩] (by simp [Forest.roots])
    0 canvSize (-1) (-1) (-1) 0 []
  obtain ⟨img, himg⟩ := h
  simp only [drawChilds, childX1, childX2] at himg
  unfold frameOf
  revert himg
  simp only [Nat.cast_zero, zero_mul, add_zero, zero_add, one_mul, neg_add_cancel]
  cases hq : drawVertext dfuel g 0 0 canvSize 0 [] (-1) (-1) 2 with
  | error e => simp
  | ok im => intro _; exact ⟨im, rfl⟩

/-! ## Depth-first traversal of a tree-shaped graph -/

theorem renders_of_sameTopo {dfuel : Nat} {a b : Graph} (h : Renders dfuel a)
    (hab : SameTopo a b) : Renders dfuel b :=
  fun g2 h2 => h g2 (sameTopo_trans hab h2)

theorem renders_of_unfolds (g : Graph) (kids : Forest) (dfuel : Nat)
    (hu : Unfolds g (Forest.cons 0 kids Forest.nil)) (hd : kids.height + 1 ≤ dfuel) :
    Renders dfuel g :=
  fun g2 h2 => frameOf_ok g2 kids dfuel (unfolds_of_sameTopo h2 _ hu) hd

theorem marks_append (g : Graph) (a b : List (Int × Nat)) :
    Graph.marks g (a ++ b) = Graph.marks (Graph.marks g a) b := by
  simp [Graph.marks, List.foldl_append]

theorem marks_cons (g : Graph) (e : Int × Nat) (a : List (Int × Nat)) :
    Graph.marks g (e :: a) = Graph.marks (Graph.mark g e) a := rfl

theorem trail_append (dfuel : Nat) (a b : List (Int × Nat)) (g : Graph) :
    trail dfuel g (a ++ b) = trail dfuel g a ++ trail dfuel (Graph.marks g a) b := by
  induction a generalizing g with
  | nil => rfl
  | cons e a ih => simp [trail, marks_cons, ih]

theorem length_preEdges (F : Forest) : ∀ (v : Int) (i : Nat), (preEdges v i F).length = F.size := by
  induction F with
  | nil => intro v i; rfl
  | cons c kids rest ih1 ih2 =>
    intro v i
    simp [preEdges, Forest.size, ih1, ih2]
    omega

theorem dfsChilds_forest (dfuel : Nat) (F : Forest) :
    ∀ (fuel : Nat), F.height ≤ fuel →
    ∀ (g : Graph) (anim : GIF) (v : Int) (i : Nat) (l : List GraphLine),
      Renders dfuel g → Unfolds g F → l.map GraphLine.Num = F.roots →
      i + l.length = (Graph.get g v).length →
      ∃ anim2, dfsChilds (dfs dfuel fuel) v i l g anim
          = .ok (Graph.marks g (preEdges v i F), anim2)
        ∧ anim2.Image.map Except.ok = anim.Image.map Except.ok ++ trail dfuel g (preEdges v i F)
        ∧ anim2.Delay = anim.Delay ++ List.replicate F.size 50 := by
  induction F with
  | nil =>
    intro fuel _ g anim v i l _ _ hl _
    have : l = [] := by simpa [Forest.roots] using hl
    subst this
    exact ⟨anim, rfl, by simp [preEdges, trail], by simp [Forest.size]⟩
  | cons c kids rest ih1 ih2 =>
    intro fuel hh g anim v i l hR hu hl hi
    obtain ⟨hv, hk, hr⟩ := hu
    simp only [Forest.height] at hh
    cases l with
    | nil => simp [Forest.roots] at hl
    | cons vertex l2 =>
      simp only [List.map_cons, Forest.roots, List.cons.injEq] at hl
      obtain ⟨hn, hl2⟩ := hl
      simp only [List.length_cons] at hi
      cases fuel with
      | zero => omega
      | succ f =>
        have hvis : Graph.visit g v i = .ok (Graph.mark g (v, i)) :=
          Graph.visit_eq g v i (by omega)
        have hT1 : SameTopo g (Graph.mark g (v, i)) := sameTopo_mark g (v, i)
        obtain ⟨img, himg⟩ := hR _ hT1
        have hR1 := renders_of_sameTopo hR hT1
        obtain ⟨a2, ha2, hi2, hd2⟩ := ih1 f (by omega) (Graph.mark g (v, i))
          ⟨anim.Image ++ [img], anim.Delay ++ [50]⟩ c 0 (Graph.get (Graph.mark g (v, i)) c) hR1
          (unfolds_of_sameTopo hT1 _ hk) ((hT1 c).symm.trans hv) (by simp)
        have hT2 : SameTopo g (Graph.marks (Graph.mark g (v, i)) (preEdges c 0 kids)) :=
          sameTopo_trans hT1 (sameTopo_marks _ _)
        obtain ⟨a3, ha3, hi3, hd3⟩ := ih2 (f + 1) (by omega)
          (Graph.marks (Graph.mark g (v, i)) (preEdges c 0 kids)) a2 v (i + 1) l2
          (renders_of_sameTopo hR hT2) (unfolds_of_sameTopo hT2 _ hr) hl2
          (by rw [← sameTopo_length hT2 v]; omega)
        have hdfs : dfs dfuel (f + 1) (Graph.mark g (v, i)) anim vertex.Num
            = .ok (Graph.marks (Graph.mark g (v, i)) (preEdges c 0 kids), a2) := by
          rw [dfs]
          simp only [draw, himg]
          rw [hn]
          exact ha2
        refine ⟨a3, ?_, ?_, ?_⟩
        · rw [dfsChilds]
          simp only [hvis, hdfs]
          rw [ha3]
          simp only [preEdges, marks_cons, marks_append]
        · rw [hi3, hi2]
          simp only [preEdges, trail, trail_append, himg, List.map_append, List.map_cons,
            List.map_nil, List.append_assoc, List.cons_append, List.nil_append]
        · rw [hd3, hd2]
          simp only [Forest.size, List.append_assoc]
          rw [show 1 + kids.size + rest.size = 1 + (kids.size + rest.size) by omega,
            List.replicate_add, List.replicate_add]
          rfl

theorem dfs_tree (dfuel fuel : Nat) (g : Graph) (anim : GIF) (kids : Forest)
    (hu : Unfolds g (Forest.cons 0 kids Forest.nil))
    (hd : kids.height + 1 ≤ dfuel) (hf : kids.height + 1 ≤ fuel) :
    ∃ anim2, dfs dfuel fuel g anim 0 = .ok (Graph.marks g (preEdges 0 0 kids), anim2)
      ∧ anim2.Image.map Except.ok
          = anim.Image.map Except.ok ++ frameOf dfuel g :: trail dfuel g (preEdges 0 0 kids)
      ∧ anim2.Delay = anim.Delay ++ List.replicate (kids.size + 1) 50 := by
  have hR := renders_of_unfolds g kids dfuel hu hd
  obtain ⟨img, himg⟩ := hR g (sameTopo_refl g)
  cases fuel with
  | zero => omega
  | succ f =>
    obtain ⟨a2, ha2, hi2, hd2⟩ := dfsChilds_forest dfuel kids f (by omega) g
      ⟨anim.Image ++ [img], anim.Delay ++ [50]⟩ 0 0 (Graph.get g 0) hR hu.2.1 hu.1 (by simp)
    refine ⟨a2, ?_, ?_, ?_⟩
    · rw [dfs]
      simp only [draw, himg]
      exact ha2
    · rw [hi2, himg]
      simp only [List.map_append, List.map_cons, List.map_nil, List.append_assoc,
        List.cons_append, List.nil_append]
    · rw [hd2]
      simp only [List.append_assoc]
      rw [show kids.size + 1 = 1 + kids.size by omega, List.replicate_add]
      rfl

theorem trail_eq_range (dfuel : Nat) (es : List (Int × Nat)) (g : Graph) :
    trail dfuel g es
      = (List.range es.length).map (fun k => frameOf dfuel (Graph.marks g (es.take (k + 1)))) := by
  induction es generalizing g with
  | nil => rfl
  | cons e es ih =>
    rw [trail, ih, List.length_cons, List.range_succ_eq_map, List.map_cons, List.map_map]
    simp only [List.take_succ_cons, marks_cons, List.take_zero, Graph.marks, List.foldl_nil]
    rfl

theorem frames_eq_range (dfuel : Nat) (es : List (Int × Nat)) (g : Graph) :
    frameOf dfuel g :: trail dfuel g es
      = (List.range (es.length + 1)).map (fun k => frameOf dfuel (Graph.marks g (es.take k))) := by
  rw [trail_eq_range, List.range_succ_eq_map, List.map_cons, List.map_map]
  rfl

/-! ## Which edges are Visited after marking -/

theorem isVisited_mark (g : Graph) (e : Int × Nat) (v : Int) (j : Nat) :
    Graph.isVisited (Graph.mark g e) v j
      = (Graph.isVisited g v j || (decide ((v, j) = e) && decide (j < (Graph.get g v).length))) := by
  unfold Graph.isVisited
  rw [Graph.get_mark]
  by_cases hv : v = e.1
  · simp only [hv, if_true, List.getElem?_modify]
    by_cases hj : e.2 = j
    · subst hj
      cases h : (Graph.get g e.1)[e.2]? with
      | none =>
        have := List.getElem?_eq_none_iff.mp h
        simp
        omega
      | some l =>
        have : e.2 < (Graph.get g e.1).length := (List.getElem?_eq_some_iff.mp h).1
        simp [GraphLine.Visit, GraphLine.Visited, this]
    · have hne : ¬ ((e.1, j) = e) := by
        intro h
        apply hj
        rw [← h]
      cases h : (Graph.get g e.1)[j]? with
      | none => simp [hj, hne]
      | some l => simp [hj, hne]
  · have hne : ¬ ((v, j) = e) := by
      intro h
      apply hv
      rw [← h]
    simp [hv, hne]

theorem isVisited_marks (es : List (Int × Nat)) (g : Graph) (v : Int) (j : Nat) :
    Graph.isVisited (Graph.marks g es) v j
      = (Graph.isVisited g v j || (decide ((v, j) ∈ es) && decide (j < (Graph.get g v).length))) := by
  induction es generalizing g with
  | nil => simp [Graph.marks]
  | cons e es ih =>
    rw [marks_cons, ih, isVisited_mark, ← sameTopo_length (sameTopo_mark g e) v]
    by_cases h1 : (v, j) = e
    · simp only [h1, List.mem_cons, true_or, decide_True, Bool.true_and]
      cases Graph.isVisited g v j <;> cases decide (j < (Graph.get g v).length) <;> simp
    · have h2 : ¬ (e = (v, j)) := fun h => h1 h.symm
      by_cases h3 : (v, j) ∈ es <;> simp [h1, h3]

theorem isVisited_of_allUnvisited (g : Graph) (h : AllUnvisited g) (v : Int) (j : Nat) :
    Graph.isVisited g v j = false := by
  unfold Graph.isVisited
  cases hq : (Graph.get g v)[j]? with
  | none => rfl
  | some l => exact h v l (List.mem_iff_getElem?.mpr ⟨j, hq⟩)

/-! ## The pre-order edge sequence -/

theorem source_preEdges (F : Forest) :
    ∀ (v : Int) (i : Nat) (e : Int × Nat), e ∈ preEdges v i F →
      (e.1 = v ∧ i ≤ e.2) ∨ e.1 ∈ F.ids := by
  induction F with
  | nil => intro v i e h; simp [preEdges] at h
  | cons c kids rest ih1 ih2 =>
    intro v i e h
    simp only [preEdges, List.mem_cons, List.mem_append] at h
    simp only [Forest.ids, List.mem_cons, List.mem_append]
    rcases h with h | h | h
    · subst h; left; exact ⟨rfl, le_refl _⟩
    · rcases ih1 c 0 e h with h2 | h2
      · right; left; exact h2.1
      · right; right; left; exact h2
    · rcases ih2 v (i + 1) e h with h2 | h2
      · left; exact ⟨h2.1, by omega⟩
      · right; right; right; exact h2

theorem nodup_preEdges (F : Forest) :
    ∀ (v : Int) (i : Nat), (v :: F.ids).Nodup → (preEdges v i F).Nodup := by
  induction F with
  | nil => intro v i _; simp [preEdges]
  | cons c kids rest ih1 ih2 =>
    intro v i h
    simp only [Forest.ids, List.nodup_cons, List.mem_cons, List.mem_append, List.nodup_append,
      not_or] at h
    obtain ⟨⟨hvc, hvk, hvr⟩, ⟨hck, hcr⟩, hnk, hnr, hdis⟩ := h
    simp only [preEdges, List.nodup_cons, List.mem_append, List.nodup_append, not_or]
    refine ⟨⟨?_, ?_⟩, ih1 c 0 (List.nodup_cons.mpr ⟨hck, hnk⟩),
      ih2 v (i + 1) (List.nodup_cons.mpr ⟨hvr, hnr⟩), ?_⟩
    · intro hm
      rcases source_preEdges kids c 0 _ hm with h2 | h2
      · exact hvc h2.1
      · exact hvk h2
    · intro hm
      rcases source_preEdges rest v (i + 1) _ hm with h2 | h2
      · have := h2.2
        simp at this
      · exact hvr h2
    · intro e he1 he2
      rcases source_preEdges kids c 0 _ he1 with h1 | h1 <;>
        rcases source_preEdges rest v (i + 1) _ he2 with h2 | h2
      · exact hvc (h2.1.symm.trans h1.1)
      · exact hcr (h1.1 ▸ h2)
      · exact hvk (h2.1 ▸ h1)
      · exact hdis h1 h2

theorem inBounds_preEdges (g : Graph) (F : Forest) :
    ∀ (v : Int) (i : Nat), Unfolds g F → i + F.roots.length ≤ (Graph.get g v).length →
      ∀ e ∈ preEdges v i F, e.2 < (Graph.get g e.1).length := by
  induction F with
  | nil => intro v i _ _ e h; simp [preEdges] at h
  | cons c kids rest ih1 ih2 =>
    intro v i hu hb e h
    obtain ⟨hv, hk, hr⟩ := hu
    simp only [Forest.roots, List.length_cons] at hb
    simp only [preEdges, List.mem_cons, List.mem_append] at h
    rcases h with h | h | h
    · subst h; simp only; omega
    · refine ih1 c 0 hk ?_ e h
      have := congrArg List.length hv
      simp only [topo, List.length_map] at this
      omega
    · exact ih2 v (i + 1) hr (by omega) e h

theorem mem_preEdges (g : Graph) (F : Forest) :
    ∀ (v : Int) (i : Nat), Unfolds g F → i + F.roots.length = (Graph.get g v).length →
      (∀ j, i ≤ j → j < (Graph.get g v).length → (v, j) ∈ preEdges v i F)
      ∧ (∀ w ∈ F.ids, ∀ j, j < (Graph.get g w).length → (w, j) ∈ preEdges v i F) := by
  induction F with
  | nil =>
    intro v i _ hb
    simp only [Forest.roots, List.length_nil] at hb
    refine ⟨fun j h1 h2 => by omega, fun w hw => by simp [Forest.ids] at hw⟩
  | cons c kids rest ih1 ih2 =>
    intro v i hu hb
    obtain ⟨hv, hk, hr⟩ := hu
    simp only [Forest.roots, List.length_cons] at hb
    have hc : 0 + kids.roots.length = (Graph.get g c).length := by
      have := congrArg List.length hv
      simp only [topo, List.length_map] at this
      omega
    obtain ⟨a1, a2⟩ := ih1 c 0 hk hc
    obtain ⟨b1, b2⟩ := ih2 v (i + 1) hr (by omega)
    simp only [preEdges, List.mem_cons, List.mem_append, Forest.ids]
    constructor
    · intro j h1 h2
      by_cases hj : j = i
      · left; rw [hj]
      · right; right; exact b1 j (by omega) h2
    · intro w hw j hj
      rcases hw with hw | hw | hw
      · right; left; rw [hw]; exact a1 j (Nat.zero_le _) (by rw [← hw]; exact hj)
      · right; left; exact a2 w hw j hj
      · right; right; exact b2 w hw j hj

theorem isTree_twoEdges : IsTree twoEdges 0 twoKids := by
  refine ⟨by decide, by decide, ?_⟩
  intro v hv
  simp only [twoKids, Forest.ids, List.mem_cons, List.append_nil, List.nil_append, not_or] at hv
  have h0 : ¬ (0 : Int) = v := fun h => hv.1 h.symm
  simp [twoEdges, Graph.append, Graph.find, Graph.set, Graph.get, h0]

theorem allUnvisited_twoEdges : AllUnvisited twoEdges := by
  intro v l hl
  by_cases h0 : (0 : Int) = v
  · subst h0
    simp [twoEdges, Graph.append, Graph.find, Graph.set, Graph.get] at hl
    rcases hl with h | h <;> subst h <;> rfl
  · simp [twoEdges, Graph.append, Graph.find, Graph.set, Graph.get, h0] at hl

theorem roots_eq_nil (F : Forest) (h : F.roots = []) : F = Forest.nil := by
  cases F with
  | nil => rfl
  | cons v kids rest => simp [Forest.roots] at h

theorem tree_edges (g : Graph) (r : Int) (kids : Forest) (ht : IsTree g r kids) :
    (preEdges r 0 kids).Nodup ∧ (preEdges r 0 kids).length = kids.size
      ∧ ∀ v j, j < (Graph.get g v).length ↔ (v, j) ∈ preEdges r 0 kids := by
  have hroot : 0 + kids.roots.length = (Graph.get g r).length := by
    have := congrArg List.length ht.shape.1
    simp only [topo, List.length_map] at this
    omega
  refine ⟨nodup_preEdges kids r 0 (by simpa [Forest.ids] using ht.nodup),
    length_preEdges kids r 0, ?_⟩
  intro v j
  constructor
  · intro hj
    obtain ⟨m1, m2⟩ := mem_preEdges g kids r 0 ht.shape.2.1 hroot
    by_cases hv : v ∈ (Forest.cons r kids Forest.nil).ids
    · simp only [Forest.ids, List.append_nil, List.mem_cons] at hv
      rcases hv with hv | hv
      · subst hv; exact m1 j (Nat.zero_le _) hj
      · exact m2 v hv j hj
    · rw [ht.cover v hv] at hj
      simp at hj
  · intro hm
    exact inBounds_preEdges g kids r 0 ht.shape.2.1 (by omega) _ hm

/-! ## Claims on the depth-first traversal -/

/-- C1: a graph that is a tree rooted at node 0 has exactly `E = kids.size` edges (they are
listed once each by a list of that length), and `dfs` from 0, started with an empty
animation and given enough fuel, returns and has appended exactly `E + 1` frames; with no
edges that is exactly one frame. -/
theorem dfs_frame_count (dfuel fuel : Nat) (g : Graph) (kids : Forest)
    (ht : IsTree g 0 kids) (hd : kids.height + 1 ≤ dfuel) (hf : kids.height + 1 ≤ fuel) :
    (∃ es : List (Int × Nat), es.Nodup ∧ es.length = kids.size
        ∧ ∀ v j, j < (Graph.get g v).length ↔ (v, j) ∈ es)
    ∧ ∃ g2 anim, dfs dfuel fuel g ⟨[], []⟩ 0 = .ok (g2, anim)
      ∧ anim.Image.length = kids.size + 1
      ∧ ((∀ v, Graph.get g v = []) → anim.Image.length = 1) := by
  obtain ⟨a2, h1, h2, _⟩ := dfs_tree dfuel fuel g ⟨[], []⟩ kids ht.shape hd hf
  have hlen : a2.Image.length = kids.size + 1 := by
    have := congrArg List.length h2
    simpa [trail_eq_range, length_preEdges] using this
  refine ⟨⟨preEdges 0 0 kids, tree_edges g 0 kids ht⟩, _, a2, h1, hlen, ?_⟩
  intro hk
  have hroots : kids.roots = [] := by
    rw [← ht.shape.1, topo, hk 0]
    rfl
  rw [hlen, roots_eq_nil kids hroots]
  rfl

theorem dfs_frame_count_witness :
    ∃ g2 anim, dfs 2 2 twoEdges ⟨[], []⟩ 0 = .ok (g2, anim) ∧ anim.Image.length = 3 := by
  obtain ⟨_, g2, anim, h1, h2, _⟩ :=
    dfs_frame_count 2 2 twoEdges twoKids isTree_twoEdges (by decide) (by decide)
  exact ⟨g2, anim, h1, h2⟩

/-- C2: for a tree rooted at node 0 with all edges Unvisited, `dfs` from 0 returns, and
frame `i` of the animation is the rendering of the graph in which the first `i` edges of the
pre-order edge sequence have been marked: in that state an edge is Visited exactly when it is
among these `i` edges; the sequence lists every edge of the graph once, so each frame has
one more Visited edge than the one before. -/
theorem dfs_frames_preorder (dfuel fuel : Nat) (g : Graph) (kids : Forest)
    (ht : IsTree g 0 kids) (hun : AllUnvisited g)
    (hd : kids.height + 1 ≤ dfuel) (hf : kids.height + 1 ≤ fuel) :
    ∃ g2 anim, dfs dfuel fuel g ⟨[], []⟩ 0 = .ok (g2, anim)
      ∧ anim.Image.map Except.ok = (List.range (kids.size + 1)).map
          (fun i => frameOf dfuel (Graph.marks g ((preEdges 0 0 kids).take i)))
      ∧ (preEdges 0 0 kids).Nodup
      ∧ (preEdges 0 0 kids).length = kids.size
      ∧ (∀ v j, j < (Graph.get g v).length ↔ (v, j) ∈ preEdges 0 0 kids)
      ∧ (∀ i v j, j < (Graph.get g v).length →
          (Graph.isVisited (Graph.marks g ((preEdges 0 0 kids).take i)) v j = true
            ↔ (v, j) ∈ (preEdges 0 0 kids).take i)) := by
  obtain ⟨a2, h1, h2, _⟩ := dfs_tree dfuel fuel g ⟨[], []⟩ kids ht.shape hd hf
  obtain ⟨e1, e2, e3⟩ := tree_edges g 0 kids ht
  refine ⟨_, a2, h1, ?_, e1, e2, e3, ?_⟩
  · rw [h2, List.map_nil, List.nil_append, frames_eq_range, length_preEdges]
  · intro i v j hj
    rw [isVisited_marks, isVisited_of_allUnvisited g hun]
    simp [hj]

theorem dfs_frames_preorder_witness :
    ∃ g2 anim, dfs 2 2 twoEdges ⟨[], []⟩ 0 = .ok (g2, anim)
      ∧ anim.Image.map Except.ok = [frameOf 2 twoEdges,
          frameOf 2 (Graph.marks twoEdges [(0, 0)]),
          frameOf 2 (Graph.marks twoEdges [(0, 0), (0, 1)])] := by
  obtain ⟨g2, anim, h1, h2, _⟩ :=
    dfs_frames_preorder 2 2 twoEdges twoKids isTree_twoEdges allUnvisited_twoEdges
      (by decide) (by decide)
  exact ⟨g2, anim, h1, by rw [h2]; rfl⟩

/-! ## Breadth-first traversal: one scan of the queue -/

theorem Graph.visited_eq (g : Graph) (v : Int) (i : Nat) (h : i < (Graph.get g v).length) :
    Graph.visited g v i = .ok (Graph.isVisited g v i) := by
  unfold Graph.visited Graph.isVisited
  cases hq : (Graph.get g v)[i]? with
  | none =>
    have := List.getElem?_eq_none_iff.mp hq
    omega
  | some l => rfl

theorem isEmpty_append_edges (a b : List (Int × Nat)) :
    (a ++ b).isEmpty = (a.isEmpty && b.isEmpty) := by
  cases a <;> rfl

theorem bfsEdges_fresh (dfuel : Nat) (x : Int) :
    ∀ (l : List GraphLine) (i : Nat) (g : Graph) (anim : GIF) (q : List Int) (done : Bool),
      Renders dfuel g → i + l.length = (Graph.get g x).length →
      (∀ j, i ≤ j → Graph.isVisited g x j = false) →
      ∃ anim2, bfsEdges dfuel x i l g anim q done
          = .ok (Graph.marks g ((List.range' i l.length).map (fun j => (x, j))), anim2,
              q ++ l.map GraphLine.Num, done && l.isEmpty)
        ∧ anim2.Image.map Except.ok = anim.Image.map Except.ok
            ++ trail dfuel g ((List.range' i l.length).map (fun j => (x, j))) := by
  intro l
  induction l with
  | nil =>
    intro i g anim q done _ _ _
    exact ⟨anim, by simp [bfsEdges, Graph.marks], by simp [trail]⟩
  | cons child rest ih =>
    intro i g anim q done hR hi hfresh
    simp only [List.length_cons] at hi
    have hT1 : SameTopo g (Graph.mark g (x, i)) := sameTopo_mark g (x, i)
    obtain ⟨img, himg⟩ := hR _ hT1
    have hfresh1 : ∀ j, i + 1 ≤ j → Graph.isVisited (Graph.mark g (x, i)) x j = false := by
      intro j hj
      rw [isVisited_mark, hfresh j (by omega)]
      have : ¬ j = i := by omega
      simp [this]
    obtain ⟨a2, h1, h2⟩ := ih (i + 1) (Graph.mark g (x, i))
      ⟨anim.Image ++ [img], anim.Delay ++ [50]⟩ (q ++ [child.Num]) false
      (renders_of_sameTopo hR hT1) (by rw [← sameTopo_length hT1 x]; omega) hfresh1
    refine ⟨a2, ?_, ?_⟩
    · rw [bfsEdges, Graph.visited_eq g x i (by omega), hfresh i (le_refl _)]
      simp only [Graph.visit_eq g x i (by omega), draw, himg]
      rw [h1]
      simp [List.range'_succ, marks_cons]
    · rw [h2]
      simp [List.range'_succ, trail, himg]

theorem bfsEdges_done (dfuel : Nat) (x : Int) :
    ∀ (l : List GraphLine) (i : Nat) (g : Graph) (anim : GIF) (q : List Int) (done : Bool),
      i + l.length = (Graph.get g x).length → Done g x →
      bfsEdges dfuel x i l g anim q done = .ok (g, anim, q, done) := by
  intro l
  induction l with
  | nil => intro i g anim q done _ _; rfl
  | cons child rest ih =>
    intro i g anim q done hi hdone
    simp only [List.length_cons] at hi
    rw [bfsEdges, Graph.visited_eq g x i (by omega), hdone i (by omega)]
    exact ih (i + 1) g anim q done (by omega) hdone

theorem bfsScan_done (dfuel : Nat) :
    ∀ (xs ys : List Int) (g : Graph) (anim : GIF) (q : List Int) (done : Bool),
      (∀ x ∈ xs, Done g x) →
      bfsScan dfuel (xs ++ ys) g anim q done = bfsScan dfuel ys g anim q done := by
  intro xs
  induction xs with
  | nil => intro ys g anim q done _; rfl
  | cons x xs ih =>
    intro ys g anim q done h
    rw [List.cons_append, bfsScan,
      bfsEdges_done dfuel x _ 0 g anim q done (by simp) (h x (List.mem_cons_self _ _))]
    exact ih ys g anim q done (fun y hy => h y (List.mem_cons_of_mem _ hy))

theorem roots_append (a b : Forest) : (Forest.append a b).roots = a.roots ++ b.roots := by
  induction a with
  | nil => rfl
  | cons v kids rest _ ih2 => simp [Forest.append, Forest.roots, ih2]

theorem mem_edgesOf (v : Int) (n : Nat) (e : Int × Nat) :
    e ∈ edgesOf v n ↔ e.1 = v ∧ e.2 < n := by
  obtain ⟨a, b⟩ := e
  simp only [edgesOf, List.mem_map, List.mem_range, Prod.mk.injEq]
  constructor
  · rintro ⟨j, hj, h1, h2⟩
    exact ⟨h1.symm, h2 ▸ hj⟩
  · rintro ⟨h1, h2⟩
    exact ⟨b, h2, h1.symm, rfl⟩

theorem bfsScan_roots (dfuel : Nat) (F : Forest) :
    ∀ (g : Graph) (anim : GIF) (q : List Int) (done : Bool),
      Renders dfuel g → Unfolds g F → F.roots.Nodup → (∀ x ∈ F.roots, Fresh g x) →
      ∃ anim2, bfsScan dfuel F.roots g anim q done
          = .ok (Graph.marks g (rootEdges F), anim2, q ++ F.next.roots,
              done && (rootEdges F).isEmpty)
        ∧ anim2.Image.map Except.ok = anim.Image.map Except.ok ++ trail dfuel g (rootEdges F) := by
  induction F with
  | nil =>
    intro g anim q done _ _ _ _
    exact ⟨anim, by simp [bfsScan, Forest.roots, rootEdges, Graph.marks, Forest.next],
      by simp [rootEdges, trail]⟩
  | cons v kids rest _ ih2 =>
    intro g anim q done hR hu hnd hfresh
    obtain ⟨hv, _, hr⟩ := hu
    simp only [Forest.roots, List.nodup_cons] at hnd
    have hlen : (Graph.get g v).length = kids.roots.length := by
      have := congrArg List.length hv
      simpa [topo] using this
    obtain ⟨a1, h1, h2⟩ := bfsEdges_fresh dfuel v (Graph.get g v) 0 g anim q done hR (by simp)
      (fun j _ => hfresh v (by simp [Forest.roots]) j)
    have hedges : (List.range' 0 (Graph.get g v).length).map (fun j => (v, j))
        = edgesOf v kids.roots.length := by
      rw [hlen, edgesOf, List.range_eq_range']
    rw [hedges] at h1 h2
    have hT1 : SameTopo g (Graph.marks g (edgesOf v kids.roots.length)) := sameTopo_marks _ _
    have hfresh1 : ∀ y ∈ rest.roots, Fresh (Graph.marks g (edgesOf v kids.roots.length)) y := by
      intro y hy j
      rw [isVisited_marks, hfresh y (by simp [Forest.roots, hy]) j]
      have : ¬ ((y, j) ∈ edgesOf v kids.roots.length) := by
        intro hm
        have := ((mem_edgesOf v _ _).mp hm).1
        simp only at this
        exact hnd.1 (this ▸ hy)
      simp [this]
    obtain ⟨a2, h3, h4⟩ := ih2 (Graph.marks g (edgesOf v kids.roots.length)) a1
      (q ++ (Graph.get g v).map GraphLine.Num) (done && (Graph.get g v).isEmpty)
      (renders_of_sameTopo hR hT1) (unfolds_of_sameTopo hT1 _ hr) hnd.2 hfresh1
    have hempty : (Graph.get g v).isEmpty = (edgesOf v kids.roots.length).isEmpty := by
      rw [← hlen]
      cases Graph.get g v <;> simp [edgesOf, List.range_succ]
    refine ⟨a2, ?_, ?_⟩
    · rw [Forest.roots, bfsScan, h1]
      simp only
      rw [h3]
      have hq : (Graph.get g v).map GraphLine.Num = kids.roots := hv
      simp only [rootEdges, marks_append, Forest.next, roots_append, hq, List.append_assoc,
        isEmpty_append_edges, hempty, Bool.and_assoc]
    · rw [h4, h2]
      simp only [rootEdges, trail_append, List.append_assoc]

/-! ## Levels of a forest -/

theorem height_append (a b : Forest) : (Forest.append a b).height = max a.height b.height := by
  induction a with
  | nil => simp [Forest.append, Forest.height]
  | cons v kids rest _ ih2 =>
    simp only [Forest.append, Forest.height, ih2]
    omega

theorem height_next (F : Forest) : F.next.height = F.height - 1 := by
  induction F with
  | nil => rfl
  | cons v kids rest _ ih2 =>
    simp only [Forest.next, Forest.height, height_append, ih2]
    omega

theorem height_eq_zero (F : Forest) (h : F.height = 0) : F = Forest.nil := by
  cases F with
  | nil => rfl
  | cons v kids rest =>
    simp only [Forest.height] at h
    omega

theorem ids_append (a b : Forest) : (Forest.append a b).ids = a.ids ++ b.ids := by
  induction a with
  | nil => rfl
  | cons v kids rest _ ih2 => simp [Forest.append, Forest.ids, ih2]

theorem size_append (a b : Forest) : (Forest.append a b).size = a.size + b.size := by
  induction a with
  | nil => simp [Forest.append, Forest.size]
  | cons v kids rest _ ih2 =>
    simp only [Forest.append, Forest.size, ih2]
    omega

theorem ids_perm (F : Forest) : F.ids.Perm (F.roots ++ F.next.ids) := by
  induction F with
  | nil => exact List.Perm.refl _
  | cons v kids rest _ ih2 =>
    simp only [Forest.ids, Forest.roots, Forest.next, ids_append, List.cons_append]
    refine List.Perm.cons v ?_
    refine (List.Perm.append_left kids.ids ih2).trans ?_
    rw [← List.append_assoc, ← List.append_assoc]
    exact List.Perm.append_right _ List.perm_append_comm

theorem unfolds_append (g : Graph) (a b : Forest) (ha : Unfolds g a) (hb : Unfolds g b) :
    Unfolds g (Forest.append a b) := by
  induction a with
  | nil => exact hb
  | cons v kids rest _ ih2 => exact ⟨ha.1, ha.2.1, ih2 ha.2.2⟩

theorem unfolds_next (g : Graph) (F : Forest) (h : Unfolds g F) : Unfolds g F.next := by
  induction F with
  | nil => trivial
  | cons v kids rest _ ih2 => exact unfolds_append g _ _ h.2.1 (ih2 h.2.2)

theorem rootEdges_of_next_nil (F : Forest) (h : F.next = Forest.nil) : rootEdges F = [] := by
  induction F with
  | nil => rfl
  | cons v kids rest _ ih2 =>
    simp only [Forest.next] at h
    have hk : kids = Forest.nil := by
      cases kids with
      | nil => rfl
      | cons a b c => simp [Forest.append] at h
    subst hk
    simp only [Forest.append] at h
    simp [rootEdges, edgesOf, Forest.roots, ih2 h]

theorem next_nil_of_rootEdges (F : Forest) (h : rootEdges F = []) : F.next = Forest.nil := by
  induction F with
  | nil => rfl
  | cons v kids rest _ ih2 =>
    simp only [rootEdges, List.append_eq_nil] at h
    have hk : kids = Forest.nil := by
      cases kids with
      | nil => rfl
      | cons a b c => simp [edgesOf, Forest.roots, List.range_succ] at h
    subst hk
    simp [Forest.next, Forest.append, ih2 h.2]

theorem levelEdges_nil (n : Nat) : levelEdges n Forest.nil = [] := by
  induction n with
  | zero => rfl
  | succ n ih => simp [levelEdges, rootEdges, Forest.next, ih]

theorem mem_rootEdges_source (F : Forest) (e : Int × Nat) (h : e ∈ rootEdges F) :
    e.1 ∈ F.roots := by
  induction F with
  | nil => simp [rootEdges] at h
  | cons v kids rest _ ih2 =>
    simp only [rootEdges, List.mem_append] at h
    simp only [Forest.roots, List.mem_cons]
    rcases h with h | h
    · left; exact ((mem_edgesOf v _ e).mp h).1
    · right; exact ih2 h

theorem mem_rootEdges (g : Graph) (F : Forest) (hu : Unfolds g F) (x : Int) (hx : x ∈ F.roots)
    (j : Nat) (hj : j < (Graph.get g x).length) : (x, j) ∈ rootEdges F := by
  induction F with
  | nil => simp [Forest.roots] at hx
  | cons v kids rest _ ih2 =>
    simp only [rootEdges, List.mem_append]
    simp only [Forest.roots, List.mem_cons] at hx
    rcases hx with hx | hx
    · left
      have := congrArg List.length hu.1
      simp only [topo, List.length_map] at this
      exact (mem_edgesOf v _ _).mpr ⟨hx, by rw [← this, ← hx]; exact hj⟩
    · right; exact ih2 hu.2.2 hx

/-! ## Breadth-first traversal: the queue-driven loop -/

theorem done_marks (g : Graph) (es : List (Int × Nat)) (x : Int) (h : Done g x) :
    Done (Graph.marks g es) x := by
  intro j hj
  rw [← sameTopo_length (sameTopo_marks es g) x] at hj
  rw [isVisited_marks, h j hj]
  rfl

theorem bfsLoop_forest (dfuel : Nat) :
    ∀ (n : Nat) (F : Forest) (P : List Int) (g : Graph) (anim : GIF),
      F.height ≤ n + 1 → Renders dfuel g → Unfolds g F → F.ids.Nodup →
      (∀ x ∈ P, Done g x) → (∀ x ∈ F.ids, Fresh g x) →
      ∃ anim2 q2, bfsLoop dfuel (n + 1) g anim (P ++ F.roots)
          = .ok (Graph.marks g (levelEdges (n + 1) F), anim2, q2)
        ∧ anim2.Image.map Except.ok
            = anim.Image.map Except.ok ++ trail dfuel g (levelEdges (n + 1) F) := by
  intro n
  induction n with
  | zero =>
    intro F P g anim hh hR hu hnd hP hF
    have hnd2 : (F.roots ++ F.next.ids).Nodup := (ids_perm F).nodup_iff.mp hnd
    have hroots : ∀ x ∈ F.roots, Fresh g x :=
      fun x hx => hF x ((ids_perm F).mem_iff.mpr (List.mem_append_left _ hx))
    obtain ⟨a1, h1, h2⟩ := bfsScan_roots dfuel F g anim (P ++ F.roots) true hR hu
      (List.nodup_append.mp hnd2).1 hroots
    have hnext : F.next = Forest.nil := height_eq_zero _ (by rw [height_next]; omega)
    have hE : rootEdges F = [] := rootEdges_of_next_nil F hnext
    refine ⟨a1, P ++ F.roots ++ F.next.roots, ?_, ?_⟩
    · rw [bfsLoop, bfsScan_done dfuel P F.roots g anim _ true hP, h1]
      simp [hE, levelEdges]
    · rw [h2]
      simp [hE, levelEdges, hnext, levelEdges_nil]
  | succ n ih =>
    intro F P g anim hh hR hu hnd hP hF
    have hnd2 : (F.roots ++ F.next.ids).Nodup := (ids_perm F).nodup_iff.mp hnd
    have hroots : ∀ x ∈ F.roots, Fresh g x :=
      fun x hx => hF x ((ids_perm F).mem_iff.mpr (List.mem_append_left _ hx))
    obtain ⟨a1, h1, h2⟩ := bfsScan_roots dfuel F g anim (P ++ F.roots) true hR hu
      (List.nodup_append.mp hnd2).1 hroots
    by_cases hE : rootEdges F = []
    · have hnext : F.next = Forest.nil := next_nil_of_rootEdges F hE
      refine ⟨a1, P ++ F.roots ++ F.next.roots, ?_, ?_⟩
      · rw [bfsLoop, bfsScan_done dfuel P F.roots g anim _ true hP, h1]
        simp [hE, levelEdges, hnext, levelEdges_nil, rootEdges, Forest.next]
      · rw [h2]
        simp [hE, levelEdges, hnext, levelEdges_nil, rootEdges, Forest.next]
    · have hT1 : SameTopo g (Graph.marks g (rootEdges F)) := sameTopo_marks _ _
      have hP1 : ∀ x ∈ P ++ F.roots, Done (Graph.marks g (rootEdges F)) x := by
        intro x hx
        rcases List.mem_append.mp hx with hx | hx
        · exact done_marks g _ x (hP x hx)
        · intro j hj
          rw [← sameTopo_length hT1 x] at hj
          rw [isVisited_marks]
          simp [mem_rootEdges g F hu x hx j hj, hj]
      have hF1 : ∀ x ∈ F.next.ids, Fresh (Graph.marks g (rootEdges F)) x := by
        intro x hx j
        rw [isVisited_marks, hF x ((ids_perm F).mem_iff.mpr (List.mem_append_right _ hx)) j]
        have : ¬ ((x, j) ∈ rootEdges F) := by
          intro hm
          exact (List.nodup_append.mp hnd2).2.2 (mem_rootEdges_source F _ hm) hx
        simp [this]
      obtain ⟨a2, q2, h3, h4⟩ := ih F.next (P ++ F.roots) (Graph.marks g (rootEdges F)) a1
        (by rw [height_next]; omega) (renders_of_sameTopo hR hT1)
        (unfolds_of_sameTopo hT1 _ (unfolds_next g F hu)) (List.nodup_append.mp hnd2).2.1 hP1 hF1
      refine ⟨a2, q2, ?_, ?_⟩
      · rw [bfsLoop, bfsScan_done dfuel P F.roots g anim _ true hP, h1]
        have hne : (rootEdges F).isEmpty = false := by
          cases hq : rootEdges F with
          | nil => exact absurd hq hE
          | cons a b => rfl
        simp only [hne, Bool.and_false, Bool.false_eq_true, if_false]
        rw [h3, show levelEdges (n + 1 + 1) F = rootEdges F ++ levelEdges (n + 1) F.next from rfl,
          marks_append]
      · rw [h4, h2, show levelEdges (n + 1 + 1) F = rootEdges F ++ levelEdges (n + 1) F.next from rfl,
          trail_append, List.append_assoc]

/-! ## The level-order edge sequence -/

theorem levelEdges_eq_flatMap (n : Nat) :
    ∀ F : Forest, levelEdges n F
      = (List.range n).flatMap (fun d => rootEdges (Forest.level d F)) := by
  induction n with
  | zero => intro F; rfl
  | succ n ih =>
    intro F
    rw [levelEdges, ih, List.range_succ_eq_map, List.flatMap_cons, List.flatMap_map]
    rfl

theorem levelEdges_of_height_le (n : Nat) :
    ∀ F : Forest, F.height ≤ n → levelEdges n F = levelEdges F.height F := by
  induction n with
  | zero =>
    intro F h
    rw [Nat.le_zero.mp h]
  | succ n ih =>
    intro F h
    cases hF : F.height with
    | zero =>
      rw [height_eq_zero F hF, levelEdges_nil]
      rfl
    | succ m =>
      have hn : F.next.height = m := by rw [height_next, hF]; rfl
      rw [levelEdges, levelEdges, ih F.next (by omega), hn]

theorem levelOrder_eq (n : Nat) (F : Forest) (h : F.height ≤ n) : levelEdges n F = levelOrder F := by
  rw [levelEdges_of_height_le n F h, levelEdges_eq_flatMap]
  rfl

theorem size_next (F : Forest) : F.size = F.roots.length + F.next.size := by
  induction F with
  | nil => rfl
  | cons v kids rest _ ih2 =>
    simp only [Forest.size, Forest.roots, Forest.next, size_append, List.length_cons, ih2]
    omega

theorem length_rootEdges (F : Forest) : (rootEdges F).length = F.next.roots.length := by
  induction F with
  | nil => rfl
  | cons v kids rest _ ih2 =>
    simp [rootEdges, edgesOf, Forest.next, roots_append, ih2]

theorem roots_length_le_size (F : Forest) : F.roots.length ≤ F.size := by
  rw [size_next]
  omega

theorem length_levelEdges (n : Nat) :
    ∀ F : Forest, F.height ≤ n → (levelEdges n F).length + F.roots.length = F.size := by
  induction n with
  | zero =>
    intro F h
    rw [height_eq_zero F (Nat.le_zero.mp h)]
    rfl
  | succ n ih =>
    intro F h
    have h1 := ih F.next (by rw [height_next]; omega)
    rw [levelEdges, List.length_append, length_rootEdges, size_next F]
    omega

theorem nodup_edgesOf (v : Int) (n : Nat) : (edgesOf v n).Nodup := by
  unfold edgesOf
  refine List.Nodup.map ?_ (List.nodup_range n)
  intro a b h
  exact (Prod.mk.injEq _ _ _ _ ▸ h).2

theorem nodup_rootEdges (F : Forest) (h : F.roots.Nodup) : (rootEdges F).Nodup := by
  induction F with
  | nil => simp [rootEdges]
  | cons v kids rest _ ih2 =>
    simp only [Forest.roots, List.nodup_cons] at h
    simp only [rootEdges, List.nodup_append]
    refine ⟨nodup_edgesOf v _, ih2 h.2, ?_⟩
    intro e h1 h2
    have a := ((mem_edgesOf v _ e).mp h1).1
    have b := mem_rootEdges_source rest e h2
    exact h.1 (a ▸ b)

theorem mem_levelEdges_source (n : Nat) :
    ∀ (F : Forest) (e : Int × Nat), e ∈ levelEdges n F → e.1 ∈ F.ids := by
  induction n with
  | zero => intro F e h; simp [levelEdges] at h
  | succ n ih =>
    intro F e h
    rw [levelEdges, List.mem_append] at h
    rw [(ids_perm F).mem_iff, List.mem_append]
    rcases h with h | h
    · left; exact mem_rootEdges_source F e h
    · right; exact ih F.next e h

theorem nodup_levelEdges (n : Nat) :
    ∀ F : Forest, F.ids.Nodup → (levelEdges n F).Nodup := by
  induction n with
  | zero => intro F _; simp [levelEdges]
  | succ n ih =>
    intro F h
    have h2 : (F.roots ++ F.next.ids).Nodup := (ids_perm F).nodup_iff.mp h
    obtain ⟨a, b, c⟩ := List.nodup_append.mp h2
    rw [levelEdges, List.nodup_append]
    refine ⟨nodup_rootEdges F a, ih F.next b, ?_⟩
    intro e h3 h4
    exact c (mem_rootEdges_source F e h3) (mem_levelEdges_source n F.next e h4)

theorem mem_levelEdges (g : Graph) (n : Nat) :
    ∀ F : Forest, Unfolds g F → F.height ≤ n → ∀ x ∈ F.ids, ∀ j, j < (Graph.get g x).length →
      (x, j) ∈ levelEdges n F := by
  induction n with
  | zero =>
    intro F _ h x hx
    rw [height_eq_zero F (Nat.le_zero.mp h)] at hx
    simp [Forest.ids] at hx
  | succ n ih =>
    intro F hu h x hx j hj
    rw [(ids_perm F).mem_iff, List.mem_append] at hx
    rw [levelEdges, List.mem_append]
    rcases hx with hx | hx
    · left; exact mem_rootEdges g F hu x hx j hj
    · right
      exact ih F.next (unfolds_next g F hu) (by rw [height_next]; omega) x hx j hj

theorem inBounds_rootEdges (g : Graph) (F : Forest) (hu : Unfolds g F) (e : Int × Nat)
    (h : e ∈ rootEdges F) : e.2 < (Graph.get g e.1).length := by
  induction F with
  | nil => simp [rootEdges] at h
  | cons v kids rest _ ih2 =>
    simp only [rootEdges, List.mem_append] at h
    rcases h with h | h
    · obtain ⟨a, b⟩ := (mem_edgesOf v _ e).mp h
      have := congrArg List.length hu.1
      simp only [topo, List.length_map] at this
      rw [a, this]
      exact b
    · exact ih2 hu.2.2 h

theorem inBounds_levelEdges (g : Graph) (n : Nat) :
    ∀ F : Forest, Unfolds g F → ∀ e ∈ levelEdges n F, e.2 < (Graph.get g e.1).length := by
  induction n with
  | zero => intro F _ e h; simp [levelEdges] at h
  | succ n ih =>
    intro F hu e h
    rw [levelEdges, List.mem_append] at h
    rcases h with h | h
    · exact inBounds_rootEdges g F hu e h
    · exact ih F.next (unfolds_next g F hu) e h

/-! ## Rendering a tree with any root, and marking an edge twice -/

theorem subtree_unfolds (g : Graph) (F : Forest) (hu : Unfolds g F) :
    ∀ w ∈ F.ids, ∃ K, Unfolds g K ∧ topo g w = K.roots ∧ K.height + 1 ≤ F.height := by
  induction F with
  | nil => intro w hw; simp [Forest.ids] at hw
  | cons v kids rest ih1 ih2 =>
    intro w hw
    simp only [Forest.ids, List.mem_cons, List.mem_append] at hw
    simp only [Forest.height]
    rcases hw with hw | hw | hw
    · exact ⟨kids, hu.2.1, hw ▸ hu.1, by omega⟩
    · obtain ⟨K, a, b, c⟩ := ih1 hu.2.1 w hw
      exact ⟨K, a, b, by omega⟩
    · obtain ⟨K, a, b, c⟩ := ih2 hu.2.2 w hw
      exact ⟨K, a, b, by omega⟩

theorem renders_of_isTree (g : Graph) (r : Int) (kids : Forest) (dfuel : Nat)
    (ht : IsTree g r kids) (hd : kids.height + 1 ≤ dfuel) : Renders dfuel g := by
  by_cases h0 : (0 : Int) ∈ (Forest.cons r kids Forest.nil).ids
  · obtain ⟨K, a, b, c⟩ := subtree_unfolds g _ ht.shape 0 h0
    simp only [Forest.height] at c
    exact renders_of_unfolds g K dfuel ⟨b, a, trivial⟩ (by omega)
  · have hg : Graph.get g 0 = [] := ht.cover 0 h0
    exact renders_of_unfolds g Forest.nil dfuel ⟨by simp [topo, hg, Forest.roots], trivial, trivial⟩
      (by simp only [Forest.height]; omega)

theorem Graph.set_get (g : Graph) (v : Int) (h : Graph.get g v ≠ []) :
    Graph.set g v (Graph.get g v) = g := by
  induction g with
  | nil => simp [Graph.get] at h
  | cons p rest ih =>
    obtain ⟨k, l0⟩ := p
    by_cases hk : k = v
    · simp [Graph.set, Graph.get, hk]
    · simp only [Graph.get, hk, if_false] at h
      simp [Graph.set, Graph.get, hk, ih h]

theorem Graph.mark_self (g : Graph) (v : Int) (i : Nat) (h : Graph.isVisited g v i = true) :
    Graph.mark g (v, i) = g := by
  unfold Graph.isVisited at h
  cases hq : (Graph.get g v)[i]? with
  | none => simp [hq] at h
  | some l0 =>
    simp only [hq] at h
    have hlt : i < (Graph.get g v).length := (List.getElem?_eq_some_iff.mp hq).1
    have hl0 : GraphLine.Visit l0 = l0 := by
      cases l0 with
      | mk num col =>
        simp only [GraphLine.Visited, beq_iff_eq] at h
        simp [GraphLine.Visit, h]
    have hm : (Graph.get g v).modify GraphLine.Visit i = Graph.get g v := by
      apply List.ext_getElem?
      intro m
      rw [List.getElem?_modify]
      by_cases hm : i = m
      · subst hm; simp [hq, hl0]
      · cases (Graph.get g v)[m]? <;> simp [hm]
    have hne : Graph.get g v ≠ [] := by
      intro h0
      rw [h0] at hlt
      simp at hlt
    simp only [Graph.mark, hlt, if_true, hm]
    exact Graph.set_get g v hne

theorem remark_done (dfuel : Nat) (v : Int) (img : Image) :
    ∀ (l : List GraphLine) (i : Nat) (g : Graph) (anim : GIF),
      frameOf dfuel g = .ok img → Done g v → i + l.length = (Graph.get g v).length →
      remark dfuel v i l g anim
        = .ok (g, ⟨anim.Image ++ List.replicate l.length img,
            anim.Delay ++ List.replicate l.length 50⟩) := by
  intro l
  induction l with
  | nil => intro i g anim _ _ _; simp [remark]
  | cons c rest ih =>
    intro i g anim himg hdone hi
    simp only [List.length_cons] at hi
    have hself : Graph.mark g (v, i) = g := Graph.mark_self g v i (hdone i (by omega))
    rw [remark, Graph.visit_eq g v i (by omega), hself]
    simp only [draw, himg]
    rw [ih (i + 1) g _ himg hdone (by omega)]
    simp only [List.length_cons, List.replicate_succ, List.append_assoc, List.singleton_append]

theorem remarkChilds_done (dfuel : Nat) (img : Image) (g : Graph)
    (himg : frameOf dfuel g = .ok img) (hdone : ∀ v, Done g v) :
    ∀ (cs : List GraphLine) (anim : GIF),
      remarkChilds dfuel cs g anim
        = .ok (g, ⟨anim.Image ++ List.replicate
              ((cs.map (fun c => (Graph.get g c.Num).length)).sum) img,
            anim.Delay ++ List.replicate
              ((cs.map (fun c => (Graph.get g c.Num).length)).sum) 50⟩) := by
  intro cs
  induction cs with
  | nil => intro anim; simp [remarkChilds]
  | cons c rest ih =>
    intro anim
    rw [remarkChilds, remark_done dfuel c.Num img _ 0 g anim himg (hdone c.Num) (by simp)]
    simp only
    rw [ih]
    simp only [List.map_cons, List.sum_cons, List.replicate_add, List.append_assoc]

theorem allVisited_of_done (g : Graph) (h : ∀ v, Done g v) : AllVisited g := by
  intro v l hl
  obtain ⟨j, hj⟩ := List.mem_iff_getElem?.mp hl
  have hlt : j < (Graph.get g v).length := (List.getElem?_eq_some_iff.mp hj).1
  have := h v j hlt
  simpa [Graph.isVisited, hj] using this

theorem getLast_frames (dfuel : Nat) (es : List (Int × Nat)) :
    ∀ g : Graph, (frameOf dfuel g :: trail dfuel g es).getLast?
      = some (frameOf dfuel (Graph.marks g es)) := by
  induction es with
  | nil => intro g; rfl
  | cons e es ih =>
    intro g
    rw [trail, List.getLast?_cons_cons, ih, marks_cons]

/-! ## Breadth-first traversal of a tree-shaped graph -/

theorem bfsQueue_tree (dfuel fuel : Nat) (g : Graph) (anim : GIF) (r : Int) (kids : Forest)
    (ht : IsTree g r kids) (hun : AllUnvisited g)
    (hd : kids.height + 1 ≤ dfuel) (hf : kids.height + 1 ≤ fuel) :
    ∃ anim2 q2, bfsQueue dfuel fuel g anim r
        = .ok (Graph.marks g (levelOrder (Forest.cons r kids Forest.nil)), anim2, q2)
      ∧ anim2.Image.map Except.ok = anim.Image.map Except.ok
          ++ frameOf dfuel g :: trail dfuel g (levelOrder (Forest.cons r kids Forest.nil)) := by
  have hR := renders_of_isTree g r kids dfuel ht hd
  obtain ⟨img, himg⟩ := hR g (sameTopo_refl g)
  cases fuel with
  | zero => omega
  | succ n =>
    have hh : (Forest.cons r kids Forest.nil).height ≤ n + 1 := by
      simp only [Forest.height]; omega
    obtain ⟨a2, q2, h1, h2⟩ := bfsLoop_forest dfuel n (Forest.cons r kids Forest.nil) [] g
      ⟨anim.Image ++ [img], anim.Delay ++ [50]⟩ hh hR ht.shape ht.nodup
      (fun x hx => by simp at hx) (fun x _ j => isVisited_of_allUnvisited g hun x j)
    rw [levelOrder_eq (n + 1) _ hh] at h1 h2
    refine ⟨a2, q2, ?_, ?_⟩
    · unfold bfsQueue
      simp only [draw, himg]
      exact h1
    · rw [h2, himg]
      simp only [List.map_append, List.map_cons, List.map_nil, List.append_assoc,
        List.cons_append, List.nil_append]

theorem length_levelOrder_tree (r : Int) (kids : Forest) :
    (levelOrder (Forest.cons r kids Forest.nil)).length = kids.size := by
  have h := length_levelEdges (Forest.cons r kids Forest.nil).height
    (Forest.cons r kids Forest.nil) (le_refl _)
  rw [levelOrder_eq _ _ (le_refl _)] at h
  simp only [Forest.roots, Forest.size, List.length_cons, List.length_nil] at h
  omega

theorem mem_levelOrder_tree (g : Graph) (r : Int) (kids : Forest) (ht : IsTree g r kids)
    (v : Int) (j : Nat) :
    j < (Graph.get g v).length ↔ (v, j) ∈ levelOrder (Forest.cons r kids Forest.nil) := by
  rw [← levelOrder_eq _ _ (le_refl _)]
  constructor
  · intro hj
    by_cases hv : v ∈ (Forest.cons r kids Forest.nil).ids
    · exact mem_levelEdges g _ _ ht.shape (le_refl _) v hv j hj
    · rw [ht.cover v hv] at hj
      simp at hj
  · intro hm
    exact inBounds_levelEdges g _ _ ht.shape _ hm

theorem done_after_queue (g : Graph) (r : Int) (kids : Forest) (ht : IsTree g r kids) (v : Int) :
    Done (Graph.marks g (levelOrder (Forest.cons r kids Forest.nil))) v := by
  intro j hj
  rw [← sameTopo_length (sameTopo_marks _ g) v] at hj
  rw [isVisited_marks]
  simp [(mem_levelOrder_tree g r kids ht v j).mp hj, hj]

theorem degree_sum_sameTopo (g g2 : Graph) (h : SameTopo g g2) (v : Int) :
    ((Graph.get g2 v).map (fun c => (Graph.get g2 c.Num).length)).sum
      = ((Graph.get g v).map (fun c => (Graph.get g c.Num).length)).sum := by
  have e1 : ∀ gg : Graph, (Graph.get gg v).map (fun c => (Graph.get g c.Num).length)
      = (topo gg v).map (fun w => (Graph.get g w).length) := by
    intro gg
    simp [topo, List.map_map, Function.comp_def]
  have e2 : (Graph.get g2 v).map (fun c => (Graph.get g2 c.Num).length)
      = (Graph.get g2 v).map (fun c => (Graph.get g c.Num).length) := by
    apply List.map_congr_left
    intro c _
    exact (sameTopo_length h c.Num).symm
  rw [e2, e1 g2, e1 g, h v]

theorem bfs_tree (dfuel fuel : Nat) (g : Graph) (r : Int) (kids : Forest)
    (ht : IsTree g r kids) (hun : AllUnvisited g)
    (hd : kids.height + 1 ≤ dfuel) (hf : kids.height + 1 ≤ fuel) :
    ∃ animq q img,
      bfsQueue dfuel fuel g ⟨[], []⟩ r
        = .ok (Graph.marks g (levelOrder (Forest.cons r kids Forest.nil)), animq, q)
      ∧ animq.Image.map Except.ok
          = frameOf dfuel g :: trail dfuel g (levelOrder (Forest.cons r kids Forest.nil))
      ∧ frameOf dfuel (Graph.marks g (levelOrder (Forest.cons r kids Forest.nil))) = .ok img
      ∧ bfs dfuel fuel g ⟨[], []⟩ r
        = .ok (Graph.marks g (levelOrder (Forest.cons r kids Forest.nil)),
            ⟨animq.Image ++ List.replicate ((Graph.get g r).length
                + ((Graph.get g r).map (fun c => (Graph.get g c.Num).length)).sum) img,
             animq.Delay ++ List.replicate ((Graph.get g r).length
                + ((Graph.get g r).map (fun c => (Graph.get g c.Num).length)).sum) 50⟩) := by
  obtain ⟨aq, q, h1, h2⟩ := bfsQueue_tree dfuel fuel g ⟨[], []⟩ r kids ht hun hd hf
  have hT := sameTopo_marks (levelOrder (Forest.cons r kids Forest.nil)) g
  obtain ⟨img, himg⟩ := renders_of_isTree g r kids dfuel ht hd _ hT
  have hdone := done_after_queue g r kids ht
  refine ⟨aq, q, img, h1, by simpa using h2, himg, ?_⟩
  unfold bfs
  rw [h1]
  simp only [bfsTrailing]
  rw [remark_done dfuel r img _ 0 _ aq himg (hdone r) (by simp)]
  simp only
  rw [remarkChilds_done dfuel img _ himg hdone]
  simp only [List.append_assoc, ← List.replicate_add, degree_sum_sameTopo g _ hT r,
    ← sameTopo_length hT r]

theorem length_trail (dfuel : Nat) (es : List (Int × Nat)) (g : Graph) :
    (trail dfuel g es).length = es.length := by
  rw [trail_eq_range]
  simp

theorem isTree_empty : IsTree [] 0 Forest.nil :=
  ⟨by decide, by decide, fun _ _ => rfl⟩

theorem allUnvisited_empty : AllUnvisited [] := by
  intro v l hl
  simp [Graph.get] at hl

/-! ## Claims on the breadth-first traversal -/

/-- C3: a tree rooted at node 0 has exactly `E = kids.size` edges; when all are Unvisited,
`bfs` from 0, started with an empty animation and given enough fuel, returns and has appended
exactly `1 + E + deg(0) + (sum of deg(c) over the children c of 0)` frames. -/
theorem bfs_frame_count (dfuel fuel : Nat) (g : Graph) (kids : Forest)
    (ht : IsTree g 0 kids) (hun : AllUnvisited g)
    (hd : kids.height + 1 ≤ dfuel) (hf : kids.height + 1 ≤ fuel) :
    (∃ es : List (Int × Nat), es.Nodup ∧ es.length = kids.size
        ∧ ∀ v j, j < (Graph.get g v).length ↔ (v, j) ∈ es)
    ∧ ∃ g2 anim, bfs dfuel fuel g ⟨[], []⟩ 0 = .ok (g2, anim)
      ∧ anim.Image.length = 1 + kids.size + (Graph.get g 0).length
          + ((Graph.get g 0).map (fun c => (Graph.get g c.Num).length)).sum := by
  obtain ⟨aq, q, img, _, h2, _, h4⟩ := bfs_tree dfuel fuel g 0 kids ht hun hd hf
  refine ⟨⟨preEdges 0 0 kids, tree_edges g 0 kids ht⟩, _, _, h4, ?_⟩
  have hlen := congrArg List.length h2
  simp only [List.length_map, List.length_cons, length_trail, length_levelOrder_tree] at hlen
  simp only [List.length_append, List.length_replicate, hlen]
  omega

theorem bfs_frame_count_witness :
    (∃ g2 anim, bfs 2 2 twoEdges ⟨[], []⟩ 0 = .ok (g2, anim) ∧ anim.Image.length = 5)
    ∧ (∃ g2 anim, bfs 1 1 [] ⟨[], []⟩ 0 = .ok (g2, anim) ∧ anim.Image.length = 1) := by
  constructor
  · obtain ⟨_, g2, anim, h1, h2⟩ :=
      bfs_frame_count 2 2 twoEdges twoKids isTree_twoEdges allUnvisited_twoEdges
        (by decide) (by decide)
    exact ⟨g2, anim, h1, h2⟩
  · obtain ⟨_, g2, anim, h1, h2⟩ :=
      bfs_frame_count 1 1 [] Forest.nil isTree_empty allUnvisited_empty (by decide) (by decide)
    exact ⟨g2, anim, h1, h2⟩

/-- C4: in `bfs` on a tree rooted at the start node with all edges Unvisited, when the
queue-driven loop exits every edge is Visited; marking any edge again leaves the graph as it
is, the trailing passes return the same graph, and every frame they append is the rendering
of that graph, which is also the last frame of the queue-driven phase. -/
theorem bfs_trailing_redundant (dfuel fuel : Nat) (g : Graph) (r : Int) (kids : Forest)
    (ht : IsTree g r kids) (hun : AllUnvisited g)
    (hd : kids.height + 1 ≤ dfuel) (hf : kids.height + 1 ≤ fuel) :
    ∃ gq animq q img n, bfsQueue dfuel fuel g ⟨[], []⟩ r = .ok (gq, animq, q)
      ∧ AllVisited gq
      ∧ (∀ v i, i < (Graph.get gq v).length → Graph.visit gq v i = .ok gq)
      ∧ frameOf dfuel gq = .ok img
      ∧ animq.Image.getLast? = some img
      ∧ bfsTrailing dfuel gq animq r
          = .ok (gq, ⟨animq.Image ++ List.replicate n img, animq.Delay ++ List.replicate n 50⟩)
      ∧ bfs dfuel fuel g ⟨[], []⟩ r
          = .ok (gq, ⟨animq.Image ++ List.replicate n img, animq.Delay ++ List.replicate n 50⟩) := by
  obtain ⟨aq, q, img, h1, h2, h3, h4⟩ := bfs_tree dfuel fuel g r kids ht hun hd hf
  have hdone := done_after_queue g r kids ht
  refine ⟨_, aq, q, img, _, h1, allVisited_of_done _ hdone, ?_, h3, ?_, ?_, h4⟩
  · intro v i hi
    rw [Graph.visit_eq _ v i hi, Graph.mark_self _ v i (hdone v i hi)]
  · have hl := congrArg List.getLast? h2
    rw [getLast_frames, h3, List.getLast?_map] at hl
    cases hq : aq.Image.getLast? with
    | none => simp [hq] at hl
    | some x =>
      simp only [hq, Option.map_some', Option.some.injEq, Except.ok.injEq] at hl
      rw [hl]
  · have h5 := h4
    unfold bfs at h5
    rw [h1] at h5
    exact h5

theorem bfs_trailing_redundant_witness :
    ∃ gq animq q img n, bfsQueue 2 2 twoEdges ⟨[], []⟩ 0 = .ok (gq, animq, q)
      ∧ AllVisited gq
      ∧ bfs 2 2 twoEdges ⟨[], []⟩ 0
          = .ok (gq, ⟨animq.Image ++ List.replicate n img, animq.Delay ++ List.replicate n 50⟩) := by
  obtain ⟨gq, animq, q, img, n, h1, h2, _, _, _, _, h7⟩ :=
    bfs_trailing_redundant 2 2 twoEdges 0 twoKids isTree_twoEdges allUnvisited_twoEdges
      (by decide) (by decide)
  exact ⟨gq, animq, q, img, n, h1, h2, h7⟩

/-- C5: in the queue-driven phase of `bfs` on a tree rooted at the start node with all edges
Unvisited, frame `i` is the rendering of the graph in which the first `i` edges of the
level-order edge sequence have been marked: edges leaving depth `d` come before those
leaving depth `d + 1`, the edges of one parent are in insertion order, and the sequence
lists every edge of the graph exactly once. -/
theorem bfs_level_order (dfuel fuel : Nat) (g : Graph) (r : Int) (kids : Forest)
    (ht : IsTree g r kids) (hun : AllUnvisited g)
    (hd : kids.height + 1 ≤ dfuel) (hf : kids.height + 1 ≤ fuel) :
    ∃ gq animq q, bfsQueue dfuel fuel g ⟨[], []⟩ r = .ok (gq, animq, q)
      ∧ animq.Image.map Except.ok = (List.range (kids.size + 1)).map
          (fun i => frameOf dfuel
            (Graph.marks g ((levelOrder (Forest.cons r kids Forest.nil)).take i)))
      ∧ levelOrder (Forest.cons r kids Forest.nil)
          = (List.range (kids.height + 1)).flatMap
              (fun d => rootEdges (Forest.level d (Forest.cons r kids Forest.nil)))
      ∧ (∀ (v : Int) (n : Nat), edgesOf v n = (List.range n).map (fun j => (v, j)))
      ∧ (levelOrder (Forest.cons r kids Forest.nil)).Nodup
      ∧ (levelOrder (Forest.cons r kids Forest.nil)).length = kids.size
      ∧ (∀ v j, j < (Graph.get g v).length
          ↔ (v, j) ∈ levelOrder (Forest.cons r kids Forest.nil))
      ∧ (∀ i v j, j < (Graph.get g v).length →
          (Graph.isVisited
              (Graph.marks g ((levelOrder (Forest.cons r kids Forest.nil)).take i)) v j = true
            ↔ (v, j) ∈ (levelOrder (Forest.cons r kids Forest.nil)).take i)) := by
  obtain ⟨aq, q, h1, h2⟩ := bfsQueue_tree dfuel fuel g ⟨[], []⟩ r kids ht hun hd hf
  refine ⟨_, aq, q, h1, ?_, ?_, fun _ _ => rfl, ?_, length_levelOrder_tree r kids,
    mem_levelOrder_tree g r kids ht, ?_⟩
  · rw [h2, List.map_nil, List.nil_append, frames_eq_range, length_levelOrder_tree]
  · simp [levelOrder, Forest.height]
  · rw [← levelOrder_eq _ _ (le_refl _)]
    exact nodup_levelEdges _ _ ht.nodup
  · intro i v j hj
    rw [isVisited_marks, isVisited_of_allUnvisited g hun]
    simp [hj]

theorem bfs_level_order_witness :
    ∃ gq animq q, bfsQueue 2 2 twoEdges ⟨[], []⟩ 0 = .ok (gq, animq, q)
      ∧ animq.Image.map Except.ok = [frameOf 2 twoEdges,
          frameOf 2 (Graph.marks twoEdges [(0, 0)]),
          frameOf 2 (Graph.marks twoEdges [(0, 0), (0, 1)])] := by
  obtain ⟨gq, animq, q, h1, h2, _⟩ :=
    bfs_level_order 2 2 twoEdges 0 twoKids isTree_twoEdges allUnvisited_twoEdges
      (by decide) (by decide)
  exact ⟨gq, animq, q, h1, by rw [h2]; rfl⟩

/-! ## Layout: intervals and positions -/

theorem tdiv_two (a : Int) : a.tdiv 2 = if 0 ≤ a then a / 2 else -((-a) / 2) := by
  by_cases h : 0 ≤ a
  · simp only [h, if_true]
    exact Int.tdiv_eq_ediv h (by decide)
  · simp only [h, if_false]
    have h2 : 0 ≤ -a := by omega
    have := Int.tdiv_eq_ediv h2 (show (0 : Int) ≤ 2 by decide)
    rw [Int.neg_tdiv] at this
    omega

theorem mem_intRange (lo hi c : Int) : c ∈ intRange lo hi ↔ lo ≤ c ∧ c < hi := by
  simp only [intRange, List.mem_map, List.mem_range]
  constructor
  · rintro ⟨n, hn, rfl⟩
    omega
  · rintro ⟨h1, h2⟩
    exact ⟨(c - lo).toNat, by omega, by omega⟩

theorem mem_pointPixels (x y : Int) (p : Int × Int) :
    p ∈ pointPixels x y ↔ (x - 6 ≤ p.1 ∧ p.1 < x + 6) ∧ (y - 6 ≤ p.2 ∧ p.2 < y + 6) := by
  obtain ⟨a, b⟩ := p
  have h6 : pointSize.tdiv 2 = 6 := by decide
  simp only [pointPixels, h6, List.mem_flatMap, List.mem_map, mem_intRange, Prod.mk.injEq]
  constructor
  · rintro ⟨i, hi, j, hj, rfl, rfl⟩
    exact ⟨hi, hj⟩
  · rintro ⟨hi, hj⟩
    exact ⟨a, hi, b, hj, rfl, rfl⟩

theorem drawChilds_append
    (self : Int → Int → Int → Int → Image → Int → Int → Nat → Except Fault Image)
    (x1 step level px py : Int) :
    ∀ (a b : List GraphLine) (i : Nat) (img : Image),
      drawChilds self x1 step level px py i (a ++ b) img
        = (drawChilds self x1 step level px py i a img >>=
            fun im => drawChilds self x1 step level px py (i + a.length) b im) := by
  intro a
  induction a with
  | nil => intro b i img; rfl
  | cons c a ih =>
    intro b i img
    simp only [List.cons_append, drawChilds, List.length_cons]
    cases self c.Num (childX1 x1 step i) (childX2 x1 step i) (level + 1) img px py c.Color with
    | error e => rfl
    | ok im =>
      have h := ih b (i + 1) im
      rw [show i + 1 + a.length = i + (a.length + 1) by omega] at h
      exact h

theorem drawChilds_extends
    (self : Int → Int → Int → Int → Image → Int → Int → Nat → Except Fault Image)
    (hself : ∀ n a b lv im qx qy c im2, self n a b lv im qx qy c = .ok im2 → ∃ ops, im2 = im ++ ops)
    (x1 step level px py : Int) :
    ∀ (l : List GraphLine) (i : Nat) (img img2 : Image),
      drawChilds self x1 step level px py i l img = .ok img2 → ∃ ops, img2 = img ++ ops := by
  intro l
  induction l with
  | nil =>
    intro i img img2 h
    simp only [drawChilds, Except.ok.injEq] at h
    exact ⟨[], by simp [h]⟩
  | cons c l ih =>
    intro i img img2 h
    simp only [drawChilds] at h
    cases hq : self c.Num (childX1 x1 step i) (childX2 x1 step i) (level + 1) img px py c.Color with
    | error e => simp [hq] at h
    | ok im =>
      simp only [hq] at h
      obtain ⟨o1, h1⟩ := hself _ _ _ _ _ _ _ _ _ hq
      obtain ⟨o2, h2⟩ := ih (i + 1) im img2 h
      exact ⟨o1 ++ o2, by rw [h2, h1, List.append_assoc]⟩

theorem drawVertext_extends :
    ∀ (fuel : Nat) (g : Graph) (v x1 x2 level : Int) (img : Image) (px py : Int) (color : Nat)
      (img2 : Image), drawVertext fuel g v x1 x2 level img px py color = .ok img2 →
      ∃ ops, img2 = img ++ DrawOp.point (rootX x1 x2) (rootY level) color :: ops := by
  intro fuel
  induction fuel with
  | zero => intro g v x1 x2 level img px py color img2 h; simp [drawVertext] at h
  | succ f ih =>
    intro g v x1 x2 level img px py color img2 h
    simp only [drawVertext, drawPoint, drawLine] at h
    have hbase : ∃ o, (if px ≠ -1 then
        img ++ [DrawOp.point (rootX x1 x2) (rootY level) color]
          ++ [DrawOp.line px py (rootX x1 x2) (rootY level) color]
        else img ++ [DrawOp.point (rootX x1 x2) (rootY level) color])
        = img ++ DrawOp.point (rootX x1 x2) (rootY level) color :: o := by
      by_cases hp : px = -1
      · exact ⟨[], by simp [hp]⟩
      · exact ⟨[DrawOp.line px py (rootX x1 x2) (rootY level) color], by simp [hp]⟩
    obtain ⟨o, ho⟩ := hbase
    by_cases h0 : (Graph.get g v).length = 0
    · simp only [h0, if_true, Except.ok.injEq] at h
      exact ⟨o, by rw [← h, ho]⟩
    · simp only [h0, if_false, stepX] at h
      obtain ⟨o2, h2⟩ := drawChilds_extends (drawVertext f g)
        (fun n a b lv im qx qy c im2 hh => by
          obtain ⟨ops, hops⟩ := ih g n a b lv im qx qy c im2 hh
          exact ⟨_, hops⟩) _ _ _ _ _ _ _ _ _ h
      exact ⟨o ++ o2, by rw [h2, ho]; simp⟩

/-- C6: a node drawn with interval `[x1, x2)`, `x1 ≤ x2`, whose adjacency list is
`pre ++ vertex :: post` (so `vertex` is child number `i = pre.length` of `k >= 1` children):
`stepX` is `(x2 - x1) / k`, and after the children in `pre` the child `vertex` is rendered by
the recursive call with interval `[x1 + i * stepX, x1 + (i + 1) * stepX)`; consecutive
intervals share their end points and have width `stepX`; the last one ends at
`x1 + k * stepX <= x2`, with equality exactly when `k` divides `x2 - x1`. -/
theorem child_intervals (fuel : Nat) (g : Graph) (v x1 x2 level : Int) (img : Image)
    (px py : Int) (color : Nat) (pre post : List GraphLine) (vertex : GraphLine)
    (hc : Graph.get g v = pre ++ vertex :: post) (hx : x1 ≤ x2) :
    ∃ s : Int, stepX x1 x2 (Graph.get g v).length = .ok s
      ∧ s = (x2 - x1) / ((Graph.get g v).length : Int)
      ∧ drawVertext (fuel + 1) g v x1 x2 level img px py color
        = (drawChilds (drawVertext fuel g) x1 s level (rootX x1 x2) (rootY level) 0 pre
              (if px ≠ -1 then
                drawLine px py (rootX x1 x2) (rootY level)
                  (drawPoint (rootX x1 x2) (rootY level) img color) color
               else drawPoint (rootX x1 x2) (rootY level) img color) >>=
            fun im =>
              drawVertext fuel g vertex.Num (x1 + (pre.length : Int) * s)
                  (x1 + ((pre.length : Int) + 1) * s) (level + 1) im
                  (rootX x1 x2) (rootY level) vertex.Color >>=
              fun im2 =>
                drawChilds (drawVertext fuel g) x1 s level (rootX x1 x2) (rootY level)
                  (pre.length + 1) post im2)
      ∧ (∀ i : Nat, childX2 x1 s i = childX1 x1 s (i + 1) ∧ childX2 x1 s i - childX1 x1 s i = s)
      ∧ 0 ≤ s
      ∧ x1 + ((Graph.get g v).length : Int) * s ≤ x2
      ∧ (((Graph.get g v).length : Int) ∣ (x2 - x1)
          ↔ x1 + ((Graph.get g v).length : Int) * s = x2)
      ∧ (¬ (((Graph.get g v).length : Int) ∣ (x2 - x1))
          → x1 + ((Graph.get g v).length : Int) * s < x2) := by
  have hk : (Graph.get g v).length ≠ 0 := by rw [hc]; simp
  have hkpos : (0 : Int) < ((Graph.get g v).length : Int) := by omega
  have hW : 0 ≤ x2 - x1 := by omega
  have hs : (x2 - x1).tdiv ((Graph.get g v).length : Int)
      = (x2 - x1) / ((Graph.get g v).length : Int) := Int.tdiv_eq_ediv hW (by omega)
  have hle := Int.mul_ediv_self_le (x := x2 - x1) (k := ((Graph.get g v).length : Int))
    (by omega)
  have hiff : ((Graph.get g v).length : Int) ∣ (x2 - x1)
      ↔ x1 + ((Graph.get g v).length : Int) * ((x2 - x1) / ((Graph.get g v).length : Int)) = x2 := by
    constructor
    · intro hd
      have := Int.mul_ediv_cancel' hd
      omega
    · intro he
      exact Dvd.intro ((x2 - x1) / ((Graph.get g v).length : Int)) (by omega)
  refine ⟨(x2 - x1) / ((Graph.get g v).length : Int), ?_, rfl, ?_, ?_,
    Int.ediv_nonneg hW (by omega), by omega, hiff, ?_⟩
  · simp only [stepX, hk, if_false, hs]
  · rw [drawVertext]
    simp only [hk, if_false, stepX, hs]
    generalize (x2 - x1) / ((Graph.get g v).length : Int) = S
    rw [hc, drawChilds_append]
    congr 1
    funext im
    simp only [drawChilds, childX1, childX2, zero_add, Nat.cast_add, Nat.cast_one]
    cases drawVertext fuel g vertex.Num (x1 + (pre.length : Int) * S)
        (x1 + ((pre.length : Int) + 1) * S) (level + 1) im (rootX x1 x2) (rootY level)
        vertex.Color <;> rfl
  · intro i
    simp only [childX1, childX2, Nat.cast_add, Nat.cast_one]
    exact ⟨trivial, by ring⟩
  · intro hnd
    have hne : ¬ (x1 + ((Graph.get g v).length : Int)
        * ((x2 - x1) / ((Graph.get g v).length : Int)) = x2) := fun he => hnd (hiff.mpr he)
    omega

theorem child_intervals_witness :
    ∃ s : Int, stepX 0 401 (Graph.get twoEdges 0).length = .ok s
      ∧ 0 + ((Graph.get twoEdges 0).length : Int) * s < 401 := by
  obtain ⟨s, h1, _, _, _, _, _, _, h8⟩ :=
    child_intervals 1 twoEdges 0 0 401 0 [] (-1) (-1) 2 [⟨1, 1⟩] [] ⟨2, 1⟩
      (by decide) (by decide)
  exact ⟨s, h1, h8 (by decide)⟩

theorem mem_of_extends (fuel : Nat) (g : Graph) (v x1 x2 level : Int) (img : Image)
    (px py : Int) (color : Nat) (img2 : Image)
    (h : drawVertext fuel g v x1 x2 level img px py color = .ok img2) :
    DrawOp.point (rootX x1 x2) (rootY level) color ∈ img2 := by
  obtain ⟨ops, hops⟩ := drawVertext_extends fuel g v x1 x2 level img px py color img2 h
  rw [hops]
  simp

/-- C7, the claim as stated fails: a node with interval `[0, 10)` and one child gives the child
the interval `[0, 10)` and draws it at centre x `0 + (10 - 12) / 2 = -1`, left of the
interval. -/
theorem child_center_counterexample :
    stepX 0 (0 + 10) 1 = .ok 10
    ∧ drawVertext 2 oneEdge 0 0 (0 + 10) 0 [] (-1) (-1) 2
        = .ok [DrawOp.point (-1) 10 2, DrawOp.point (-1) 60 1]
    ∧ ¬ (childX1 0 10 0 ≤ rootX (childX1 0 10 0) (childX2 0 10 0)
          ∧ rootX (childX1 0 10 0) (childX2 0 10 0) < childX2 0 10 0) :=
  ⟨rfl, rfl, by decide⟩

/-- C7 as amended: for a node with `k >= 1` children and interval `[x1, x1 + W)`, `W >= 0`,
`stepX = W / k`, and child `i` is drawn at centre x `childX1 + (stepX - pointSize) / 2`
(truncating division); this centre is inside the child's interval
`[x1 + i * stepX, x1 + (i + 1) * stepX)` exactly when `stepX >= 11`, and left of it when
`stepX <= 10`. -/
theorem child_center_in_interval (x1 W : Int) (k i : Nat) (s : Int)
    (hk : 1 ≤ k) (hW : 0 ≤ W) (hs : stepX x1 (x1 + W) k = .ok s) :
    s = W / (k : Int)
    ∧ rootX (childX1 x1 s i) (childX2 x1 s i) = childX1 x1 s i + (s - pointSize).tdiv 2
    ∧ ((childX1 x1 s i ≤ rootX (childX1 x1 s i) (childX2 x1 s i)
          ∧ rootX (childX1 x1 s i) (childX2 x1 s i) < childX2 x1 s i) ↔ 11 ≤ s)
    ∧ (s ≤ 10 → rootX (childX1 x1 s i) (childX2 x1 s i) < childX1 x1 s i)
    ∧ (∀ (fuel : Nat) (g : Graph) (c lv : Int) (img : Image) (px py : Int) (col : Nat)
        (img2 : Image),
        drawVertext fuel g c (childX1 x1 s i) (childX2 x1 s i) lv img px py col = .ok img2 →
        DrawOp.point (rootX (childX1 x1 s i) (childX2 x1 s i)) (rootY lv) col ∈ img2) := by
  have hk0 : k ≠ 0 := by omega
  simp only [stepX, hk0, if_false, Except.ok.injEq] at hs
  have hs2 : s = W / (k : Int) := by
    rw [← hs, show x1 + W - x1 = W by ring]
    exact Int.tdiv_eq_ediv hW (by omega)
  have hw : childX2 x1 s i - childX1 x1 s i - pointSize = s - pointSize := by
    simp only [childX1, childX2]
    ring
  have hr : rootX (childX1 x1 s i) (childX2 x1 s i) = childX1 x1 s i + (s - pointSize).tdiv 2 := by
    rw [rootX, hw]
  have h2 : childX2 x1 s i = childX1 x1 s i + s := by
    simp only [childX1, childX2]
    ring
  refine ⟨hs2, hr, ?_, ?_, fun fuel g c lv img px py col img2 h =>
    mem_of_extends fuel g c _ _ lv img px py col img2 h⟩
  · rw [hr, h2, tdiv_two, pointSize]
    split_ifs <;> constructor <;> intro h <;> omega
  · intro h10
    rw [hr, tdiv_two, pointSize]
    split_ifs <;> omega

theorem child_center_in_interval_witness :
    stepX 0 (0 + 400) 2 = .ok 200
    ∧ (childX1 0 200 1 ≤ rootX (childX1 0 200 1) (childX2 0 200 1)
        ∧ rootX (childX1 0 200 1) (childX2 0 200 1) < childX2 0 200 1) := by
  have h := child_center_in_interval 0 400 2 1 200 (by decide) (by decide) rfl
  exact ⟨rfl, h.2.2.1.mpr (by decide)⟩

/-- C8, the claim as stated fails: a node with interval `[0, 16)` is drawn at x `2`, and its
square covers the columns `-4` to `7`. -/
theorem square_overhang_counterexample :
    drawVertext 1 [] 0 0 16 0 [] (-1) (-1) 2 = .ok [DrawOp.point 2 10 2]
    ∧ rootX 0 16 = 2
    ∧ ¬ (∀ p ∈ pointPixels (rootX 0 16) (rootY 0), (0 : Int) ≤ p.1 ∧ p.1 < 16) := by
  refine ⟨rfl, by decide, ?_⟩
  intro h
  have h2 := h (-4, 4) ((mem_pointPixels _ _ _).mpr (by decide))
  exact absurd h2.1 (by decide)

/-- C8 as amended: a node rendered by `drawVertext` with interval `[x1, x2)` gets a point at
`x = x1 + (x2 - x1 - pointSize) / 2`, whose square covers the columns
`x - pointSize / 2 <= c < x + pointSize / 2`; these columns all lie in `[x1, x2)` exactly
when `x2 - x1 >= 2 * pointSize = 24`, and the square ends at or before `x2` whenever
`x1 <= x2`. -/
theorem square_inside_iff (x1 x2 level : Int) :
    (∀ (fuel : Nat) (g : Graph) (v : Int) (img : Image) (px py : Int) (color : Nat)
        (img2 : Image), drawVertext fuel g v x1 x2 level img px py color = .ok img2 →
        DrawOp.point (rootX x1 x2) (rootY level) color ∈ img2)
    ∧ ((∀ p ∈ pointPixels (rootX x1 x2) (rootY level), x1 ≤ p.1 ∧ p.1 < x2)
        ↔ 2 * pointSize ≤ x2 - x1)
    ∧ (x1 ≤ x2 → ∀ p ∈ pointPixels (rootX x1 x2) (rootY level), p.1 < x2) := by
  refine ⟨fun fuel g v img px py color img2 h =>
    mem_of_extends fuel g v x1 x2 level img px py color img2 h, ?_, ?_⟩
  · constructor
    · intro h
      have h2 := (h (rootX x1 x2 - 6, rootY level) ((mem_pointPixels _ _ _).mpr
        ⟨⟨by omega, by omega⟩, by omega, by omega⟩)).1
      simp only [rootX, pointSize] at h2 ⊢
      rw [tdiv_two] at h2
      split_ifs at h2 <;> omega
    · intro h p hp
      obtain ⟨⟨a, b⟩, _⟩ := (mem_pointPixels _ _ _).mp hp
      simp only [rootX, pointSize] at a b h ⊢
      rw [tdiv_two] at a b
      split_ifs at a b <;> omega
  · intro hx p hp
    obtain ⟨⟨a, b⟩, _⟩ := (mem_pointPixels _ _ _).mp hp
    simp only [rootX, pointSize] at b ⊢
    rw [tdiv_two] at b
    split_ifs at b <;> omega

theorem square_inside_iff_witness :
    ∀ p ∈ pointPixels (rootX 0 400) (rootY 0), (0 : Int) ≤ p.1 ∧ p.1 < 400 := by
  have h := (square_inside_iff 0 400 0).2.1.mpr (by decide)
  simpa using h

/-! ## The layout does not depend on the edge states -/

theorem geometry_append (a b : Image) : geometry (a ++ b) = geometry a ++ geometry b := by
  simp [geometry]

theorem drawChilds_geometry
    (self1 self2 : Int → Int → Int → Int → Image → Int → Int → Nat → Except Fault Image)
    (hself : ∀ n a b lv im1 im2 qx qy c1 c2, geometry im1 = geometry im2 →
      (self1 n a b lv im1 qx qy c1).map geometry = (self2 n a b lv im2 qx qy c2).map geometry)
    (x1 step level px py : Int) :
    ∀ (l1 l2 : List GraphLine) (i : Nat) (im1 im2 : Image),
      l1.map GraphLine.Num = l2.map GraphLine.Num → geometry im1 = geometry im2 →
      (drawChilds self1 x1 step level px py i l1 im1).map geometry
        = (drawChilds self2 x1 step level px py i l2 im2).map geometry := by
  intro l1
  induction l1 with
  | nil =>
    intro l2 i im1 im2 hl him
    have : l2 = [] := by simpa using hl.symm
    subst this
    simp [drawChilds, Except.map, him]
  | cons c1 l1 ih =>
    intro l2 i im1 im2 hl him
    cases l2 with
    | nil => simp at hl
    | cons c2 l2 =>
      simp only [List.map_cons, List.cons.injEq] at hl
      have hs := hself c1.Num (childX1 x1 step i) (childX2 x1 step i) (level + 1) im1 im2 px py
        c1.Color c2.Color him
      simp only [drawChilds]
      rw [← hl.1]
      cases h1 : self1 c1.Num (childX1 x1 step i) (childX2 x1 step i) (level + 1) im1 px py
          c1.Color with
      | error e =>
        cases h2 : self2 c1.Num (childX1 x1 step i) (childX2 x1 step i) (level + 1) im2 px py
            c2.Color with
        | error e2 =>
          rw [h1, h2] at hs
          simpa [Except.map] using hs
        | ok b => rw [h1, h2] at hs; simp [Except.map] at hs
      | ok a =>
        cases h2 : self2 c1.Num (childX1 x1 step i) (childX2 x1 step i) (level + 1) im2 px py
            c2.Color with
        | error e2 => rw [h1, h2] at hs; simp [Except.map] at hs
        | ok b =>
          rw [h1, h2] at hs
          simp only [Except.map, Except.ok.injEq] at hs
          exact ih l2 (i + 1) a b hl.2 hs

theorem drawVertext_geometry (g1 g2 : Graph) (h : SameTopo g1 g2) :
    ∀ (fuel : Nat) (v x1 x2 level : Int) (im1 im2 : Image) (px py : Int) (c1 c2 : Nat),
      geometry im1 = geometry im2 →
      (drawVertext fuel g1 v x1 x2 level im1 px py c1).map geometry
        = (drawVertext fuel g2 v x1 x2 level im2 px py c2).map geometry := by
  intro fuel
  induction fuel with
  | zero => intro v x1 x2 level im1 im2 px py c1 c2 _; rfl
  | succ f ih =>
    intro v x1 x2 level im1 im2 px py c1 c2 him
    have hlen : (Graph.get g1 v).length = (Graph.get g2 v).length := sameTopo_length h v
    have hbase : geometry (if px ≠ -1 then
          drawLine px py (rootX x1 x2) (rootY level)
            (drawPoint (rootX x1 x2) (rootY level) im1 c1) c1
          else drawPoint (rootX x1 x2) (rootY level) im1 c1)
        = geometry (if px ≠ -1 then
          drawLine px py (rootX x1 x2) (rootY level)
            (drawPoint (rootX x1 x2) (rootY level) im2 c2) c2
          else drawPoint (rootX x1 x2) (rootY level) im2 c2) := by
      have him2 : List.map DrawOp.geometry im1 = List.map DrawOp.geometry im2 := him
      by_cases hp : px = -1
      · simp [hp, drawPoint, geometry, DrawOp.geometry, him2]
      · simp [hp, drawPoint, drawLine, geometry, DrawOp.geometry, him2]
    simp only [drawVertext]
    rw [← hlen]
    by_cases h0 : (Graph.get g1 v).length = 0
    · simp only [h0, if_true, Except.map, hbase]
    · simp only [h0, if_false, stepX]
      exact drawChilds_geometry (drawVertext f g1) (drawVertext f g2)
        (fun n a b lv i1 i2 qx qy d1 d2 hh => ih n a b lv i1 i2 qx qy d1 d2 hh)
        _ _ _ _ _ _ _ _ _ _ (h v) hbase

theorem frameOf_geometry (dfuel : Nat) (g1 g2 : Graph) (h : SameTopo g1 g2) :
    (frameOf dfuel g1).map geometry = (frameOf dfuel g2).map geometry :=
  drawVertext_geometry g1 g2 h dfuel 0 0 canvSize 0 [] [] (-1) (-1) 2 2 rfl

theorem mem_trail (dfuel : Nat) (es : List (Int × Nat)) :
    ∀ (g : Graph) (x : Except Fault Image), x ∈ trail dfuel g es →
      ∃ g2, SameTopo g g2 ∧ x = frameOf dfuel g2 := by
  induction es with
  | nil => intro g x h; simp [trail] at h
  | cons e es ih =>
    intro g x h
    simp only [trail, List.mem_cons] at h
    rcases h with h | h
    · exact ⟨_, sameTopo_mark g e, h⟩
    · obtain ⟨g2, a, b⟩ := ih _ x h
      exact ⟨g2, sameTopo_trans (sameTopo_mark g e) a, b⟩

theorem frame_layout (dfuel : Nat) (g g2 : Graph) (h : SameTopo g g2) (img0 img : Image)
    (h0 : frameOf dfuel g = .ok img0) (h2 : frameOf dfuel g2 = .ok img) :
    geometry img = geometry img0
      ∧ img.head? = some (DrawOp.point (rootX 0 canvSize) (rootY 0) 2) := by
  constructor
  · have := frameOf_geometry dfuel g g2 h
    rw [h0, h2] at this
    simp only [Except.map, Except.ok.injEq] at this
    exact this.symm
  · obtain ⟨ops, hops⟩ := drawVertext_extends dfuel g2 0 0 canvSize 0 [] (-1) (-1) 2 img h2
    rw [hops]
    rfl

theorem frames_layout (dfuel : Nat) (g : Graph) (es : List (Int × Nat)) (img0 img : Image)
    (h0 : frameOf dfuel g = .ok img0)
    (hm : Except.ok img ∈ frameOf dfuel g :: trail dfuel g es) :
    geometry img = geometry img0
      ∧ img.head? = some (DrawOp.point (rootX 0 canvSize) (rootY 0) 2) := by
  rcases List.mem_cons.mp hm with h | h
  · exact frame_layout dfuel g g (sameTopo_refl g) img0 img h0 h.symm
  · obtain ⟨g2, a, b⟩ := mem_trail dfuel es g _ h
    exact frame_layout dfuel g g2 a img0 img h0 b.symm

/-- C9: two graphs with the same targets in the same order under every key are rendered with
the same points and lines at the same positions (or both renderings fail alike), whatever
the edge states; hence in a `dfs` or `bfs` run on a tree every frame has the geometry of
the first one, and starts with the root drawn at `(194, 10)`. -/
theorem layout_state_independent (dfuel fuel : Nat) (g g2 : Graph) (h : SameTopo g g2) :
    (frameOf dfuel g).map geometry = (frameOf dfuel g2).map geometry
    ∧ rootX 0 canvSize = 194 ∧ rootY 0 = 10
    ∧ (∀ kids, IsTree g 0 kids → AllUnvisited g →
        kids.height + 1 ≤ dfuel → kids.height + 1 ≤ fuel →
        ∃ img0 gd ad gb ab, frameOf dfuel g = .ok img0
          ∧ dfs dfuel fuel g ⟨[], []⟩ 0 = .ok (gd, ad)
          ∧ bfs dfuel fuel g ⟨[], []⟩ 0 = .ok (gb, ab)
          ∧ ∀ img, img ∈ ad.Image ∨ img ∈ ab.Image →
              geometry img = geometry img0
                ∧ img.head? = some (DrawOp.point (rootX 0 canvSize) (rootY 0) 2)) := by
  refine ⟨frameOf_geometry dfuel g g2 h, by decide, by decide, ?_⟩
  intro kids ht hun hd hf
  obtain ⟨img0, h0⟩ := renders_of_isTree g 0 kids dfuel ht hd g (sameTopo_refl g)
  obtain ⟨ad, d1, d2, _⟩ := dfs_tree dfuel fuel g ⟨[], []⟩ kids ht.shape hd hf
  obtain ⟨aq, q, imgq, b1, b2, b3, b4⟩ := bfs_tree dfuel fuel g 0 kids ht hun hd hf
  refine ⟨img0, _, ad, _, _, h0, d1, b4, ?_⟩
  intro img hm
  rcases hm with hm | hm
  · have hm2 : Except.ok img ∈ ad.Image.map (Except.ok : Image → Except Fault Image) :=
      List.mem_map_of_mem _ hm
    rw [d2, List.map_nil, List.nil_append] at hm2
    exact frames_layout dfuel g _ img0 img h0 hm2
  · rcases List.mem_append.mp hm with hm | hm
    · have hm2 : Except.ok img ∈ aq.Image.map (Except.ok : Image → Except Fault Image) :=
        List.mem_map_of_mem _ hm
      rw [b2] at hm2
      exact frames_layout dfuel g _ img0 img h0 hm2
    · have he : img = imgq := (List.mem_replicate.mp hm).2
      rw [he]
      exact frame_layout dfuel g _ (sameTopo_marks _ g) img0 imgq h0 b3

theorem layout_state_independent_witness :
    (frameOf 2 twoEdges).map geometry
        = (frameOf 2 (Graph.marks twoEdges [(0, 0)])).map geometry
    ∧ ∃ img0 gd ad gb ab, frameOf 2 twoEdges = .ok img0
          ∧ dfs 2 2 twoEdges ⟨[], []⟩ 0 = .ok (gd, ad)
          ∧ bfs 2 2 twoEdges ⟨[], []⟩ 0 = .ok (gb, ab)
          ∧ ∀ img, img ∈ ad.Image ∨ img ∈ ab.Image →
              geometry img = geometry img0
                ∧ img.head? = some (DrawOp.point (rootX 0 canvSize) (rootY 0) 2) := by
  have h := layout_state_independent 2 2 twoEdges (Graph.marks twoEdges [(0, 0)])
    (sameTopo_marks _ _)
  exact ⟨h.1, h.2.2.2 twoKids isTree_twoEdges allUnvisited_twoEdges (by decide) (by decide)⟩

/-! ## The colours of a frame -/

theorem colour_of_state (g : Graph) (hc : ColourOK g) (v : Int) (i : Nat) (vertex : GraphLine)
    (h : (Graph.get g v)[i]? = some vertex) :
    vertex.Color = stateColour (Graph.isVisited g v i) := by
  have hm : vertex ∈ Graph.get g v := List.mem_iff_getElem?.mpr ⟨i, h⟩
  simp only [Graph.isVisited, h, GraphLine.Visited, stateColour]
  rcases hc v vertex hm with h1 | h2
  · simp [h1]
  · simp [h2]

theorem drawChilds_spec (g : Graph) (hc : ColourOK g) (F : Forest) :
    ∀ (fuel : Nat), Unfolds g F → F.height ≤ fuel →
    ∀ (l : List GraphLine) (v : Int) (i : Nat), l.map GraphLine.Num = F.roots →
      (Graph.get g v).drop i = l →
    ∀ (x1 step level px py : Int) (img : Image),
      (F ≠ Forest.nil → px ≠ -1) → OffSentinel x1 step i F →
      drawChilds (drawVertext fuel g) x1 step level px py i l img
        = .ok (img ++ specKids g v x1 step level px py i F) := by
  induction F with
  | nil =>
    intro fuel _ _ l v i hl _ x1 step level px py img _ _
    have : l = [] := by simpa [Forest.roots] using hl
    subst this
    simp [drawChilds, specKids]
  | cons c kids rest ih1 ih2 =>
    intro fuel hu hh l v i hl hdrop x1 step level px py img hpx hoff
    obtain ⟨hv, hk, hr⟩ := hu
    obtain ⟨ho1, ho2, ho3⟩ := hoff
    have hp : ¬ px = -1 := hpx (by simp)
    simp only [Forest.height] at hh
    cases l with
    | nil => simp [Forest.roots] at hl
    | cons vertex l2 =>
      simp only [List.map_cons, Forest.roots, List.cons.injEq] at hl
      obtain ⟨hn, hl2⟩ := hl
      have hget : (Graph.get g v)[i]? = some vertex := by
        rw [← List.head?_drop, hdrop]
        rfl
      have hdrop2 : (Graph.get g v).drop (i + 1) = l2 := by
        rw [← List.drop_drop, hdrop]
        rfl
      have hcol := colour_of_state g hc v i vertex hget
      cases fuel with
      | zero => omega
      | succ f =>
        have hlen : (Graph.get g c).length = kids.roots.length := by
          have := congrArg List.length hv
          simpa [topo] using this
        have hself : ∀ (im : Image),
            drawVertext (f + 1) g vertex.Num (childX1 x1 step i) (childX2 x1 step i) (level + 1)
                im px py vertex.Color
              = .ok ((im ++ [DrawOp.point (rootX (childX1 x1 step i) (childX2 x1 step i))
                    (rootY (level + 1)) (stateColour (Graph.isVisited g v i)),
                  DrawOp.line px py (rootX (childX1 x1 step i) (childX2 x1 step i))
                    (rootY (level + 1)) (stateColour (Graph.isVisited g v i))])
                ++ specKids g c (childX1 x1 step i)
                    ((childX2 x1 step i - childX1 x1 step i).tdiv kids.roots.length) (level + 1)
                    (rootX (childX1 x1 step i) (childX2 x1 step i)) (rootY (level + 1)) 0
                    kids) := by
          intro im
          rw [hn, hcol, drawVertext]
          by_cases h0 : (Graph.get g c).length = 0
          · have hkn : kids = Forest.nil := roots_eq_nil kids (by
              rw [h0] at hlen
              exact List.length_eq_zero.mp hlen.symm)
            subst hkn
            simp [h0, hp, drawPoint, drawLine, specKids]
          · have h0k : ¬ kids.roots.length = 0 := by rw [← hlen]; exact h0
            simp only [hlen, h0k, if_false, stepX]
            rw [ih1 f hk (by omega) (Graph.get g c) c 0 hv (by simp) _ _ _ _ _ _ ho1 ho2]
            simp [hp, drawPoint, drawLine]
        rw [drawChilds, hself img]
        simp only
        rw [ih2 (f + 1) hr (by omega) l2 v (i + 1) hl2 hdrop2 x1 step level px py _
          (fun _ => hp) ho3]
        simp [specKids, List.append_assoc]

theorem colourOK_mark (g : Graph) (e : Int × Nat) (hc : ColourOK g) :
    ColourOK (Graph.mark g e) := by
  intro v l hl
  rw [Graph.get_mark] at hl
  by_cases hv : v = e.1
  · simp only [hv, if_true] at hl
    obtain ⟨m, hm⟩ := List.mem_iff_getElem?.mp hl
    rw [List.getElem?_modify] at hm
    cases hq : (Graph.get g e.1)[m]? with
    | none => simp [hq] at hm
    | some l0 =>
      simp only [hq, Option.map_some', Option.some.injEq] at hm
      by_cases hi : e.2 = m
      · simp only [hi, if_true, Option.map_eq_map, Option.map_some', Option.some.injEq] at hm
        right
        rw [← hm]
        rfl
      · simp only [hi, if_false, Option.map_eq_map, Option.map_some', Option.some.injEq] at hm
        rw [← hm]
        exact hc e.1 l0 (List.mem_iff_getElem?.mpr ⟨m, hq⟩)
  · simp only [hv, if_false] at hl
    exact hc v l hl

theorem colourOK_marks (es : List (Int × Nat)) :
    ∀ g : Graph, ColourOK g → ColourOK (Graph.marks g es) := by
  induction es with
  | nil => intro g h; exact h
  | cons e es ih => intro g h; exact ih _ (colourOK_mark g e h)

theorem colourOK_twoEdges : ColourOK twoEdges := by
  intro v l hl
  by_cases h0 : (0 : Int) = v
  · subst h0
    simp [twoEdges, Graph.append, Graph.find, Graph.set, Graph.get] at hl
    rcases hl with h | h <;> subst h <;> simp
  · simp [twoEdges, Graph.append, Graph.find, Graph.set, Graph.get, h0] at hl

theorem frame_of_tree_off_sentinel (dfuel : Nat) (g : Graph) (kids : Forest)
    (ht : IsTree g 0 kids) (hc : ColourOK g) (hd : kids.height + 1 ≤ dfuel)
    (hoff : OffSentinel 0 ((canvSize - 0).tdiv kids.roots.length) 0 kids)
    (es : List (Int × Nat)) :
    frameOf dfuel (Graph.marks g es) = .ok (specFrame (Graph.marks g es) kids) := by
  have hT := sameTopo_marks es g
  have hu := unfolds_of_sameTopo hT _ ht.shape
  have hc2 := colourOK_marks es g hc
  generalize Graph.marks g es = g2 at hu hc2
  obtain ⟨hv, hk, _⟩ := hu
  have hlen : (Graph.get g2 0).length = kids.roots.length := by
    have := congrArg List.length hv
    simpa [topo] using this
  cases dfuel with
  | zero => omega
  | succ f =>
    unfold frameOf
    rw [drawVertext]
    by_cases h0 : (Graph.get g2 0).length = 0
    · have hkn : kids = Forest.nil := roots_eq_nil kids (by
        rw [h0] at hlen
        exact List.length_eq_zero.mp hlen.symm)
      subst hkn
      simp [h0, drawPoint, specFrame, specKids]
    · have h0k : ¬ kids.roots.length = 0 := by rw [← hlen]; exact h0
      simp only [hlen, h0k, if_false, stepX]
      rw [drawChilds_spec g2 hc2 kids f hk (by omega) (Graph.get g2 0) 0 0 hv (by simp)
        _ _ _ _ _ _ (fun _ => by decide) hoff]
      simp [drawPoint, specFrame]

/-! ## Building the graph -/

theorem get_eq_find (g : Graph) (v : Int) : Graph.get g v = (Graph.find g v).getD [] := by
  induction g with
  | nil => rfl
  | cons p rest ih =>
    obtain ⟨k, l⟩ := p
    by_cases hk : k = v
    · simp [Graph.get, Graph.find, hk]
    · simp [Graph.get, Graph.find, hk, ih]

theorem get_append (g : Graph) (src dst w : Int) :
    Graph.get (Graph.append g src dst) w
      = if w = src then Graph.get g src ++ [⟨dst, 1⟩] else Graph.get g w := by
  unfold Graph.append
  cases hf : Graph.find g src with
  | none =>
    simp only [Graph.get_set]
    have : Graph.get g src = [] := by rw [get_eq_find, hf]; rfl
    rw [this]
    rfl
  | some val =>
    simp only [Graph.get_set]
    have : Graph.get g src = val := by rw [get_eq_find, hf]; rfl
    rw [this]

theorem get_build (es : List (Int × Int)) (w : Int) :
    ∀ g : Graph, (∀ e ∈ es, e.1 ≠ w) →
      Graph.get (es.foldl (fun g e => Graph.append g e.1 e.2) g) w = Graph.get g w := by
  induction es with
  | nil => intro g _; rfl
  | cons e es ih =>
    intro g h
    rw [List.foldl_cons, ih _ (fun e2 he2 => h e2 (List.mem_cons_of_mem _ he2)), get_append]
    have : ¬ w = e.1 := fun hw => h e (List.mem_cons_self _ _) hw.symm
    simp [this]

theorem keys_set (g : Graph) (v : Int) (l : List GraphLine) :
    Graph.keys (Graph.set g v l) = if v ∈ Graph.keys g then Graph.keys g else Graph.keys g ++ [v] := by
  induction g with
  | nil => simp [Graph.set, Graph.keys]
  | cons p rest ih =>
    obtain ⟨k, l0⟩ := p
    by_cases hk : k = v
    · simp [Graph.set, Graph.keys, hk]
    · have hk2 : ¬ v = k := fun h => hk h.symm
      simp only [Graph.keys] at ih
      simp only [Graph.set, hk, if_false, Graph.keys, List.map_cons, List.mem_cons, hk2,
        false_or, ih]
      split_ifs <;> simp

/-- C14: after `g.append(src, dst)` the adjacency list of `src` is its previous list (empty
when `src` was absent) followed by one new Unvisited edge (colour 1) to `dst`; every other
adjacency list, and every existing edge, is unchanged; nothing is validated, so the same
edge can be added twice and an edge back to an ancestor (or a self loop) is stored like
any other; a key is added only when `src` was absent; and a node that was never a source
of an `append` has the empty adjacency list. -/
theorem append_spec (g : Graph) (src dst : Int) :
    Graph.get (Graph.append g src dst) src = Graph.get g src ++ [⟨dst, 1⟩]
    ∧ (Graph.find g src = none → Graph.get g src = [])
    ∧ (GraphLine.mk dst 1).Visited = false
    ∧ (∀ w, w ≠ src → Graph.get (Graph.append g src dst) w = Graph.get g w)
    ∧ (∀ (j : Nat) (l : GraphLine), (Graph.get g src)[j]? = some l →
        (Graph.get (Graph.append g src dst) src)[j]? = some l)
    ∧ Graph.keys (Graph.append g src dst)
        = (if src ∈ Graph.keys g then Graph.keys g else Graph.keys g ++ [src])
    ∧ Graph.get (Graph.append (Graph.append g src dst) src dst) src
        = Graph.get g src ++ [⟨dst, 1⟩, ⟨dst, 1⟩]
    ∧ Graph.get (Graph.append (Graph.append g src dst) dst src) dst
        = (if dst = src then Graph.get g src ++ [⟨dst, 1⟩, ⟨src, 1⟩]
           else Graph.get g dst ++ [⟨src, 1⟩])
    ∧ (∀ (es : List (Int × Int)) (w : Int), (∀ e ∈ es, e.1 ≠ w) → Graph.get (build es) w = []) := by
  refine ⟨by simp [get_append], ?_, rfl, ?_, ?_, ?_, ?_, ?_, ?_⟩
  · intro h
    rw [get_eq_find, h]
    rfl
  · intro w hw
    simp [get_append, hw]
  · intro j l h
    rw [get_append, if_pos rfl, List.getElem?_append_left (List.getElem?_eq_some_iff.mp h).1]
    exact h
  · unfold Graph.append
    cases Graph.find g src <;> exact keys_set _ _ _
  · simp [get_append]
  · by_cases h : dst = src
    · subst h
      simp [get_append]
    · simp [get_append, h]
  · intro es w h
    exact get_build es w [] h

theorem append_spec_witness :
    Graph.get (Graph.append [] 0 1) 0 = Graph.get [] 0 ++ [⟨1, 1⟩] :=
  (append_spec [] 0 1).1

/-! ## Runs on arbitrary graphs: no fault, and only marks followed by draws -/

theorem traces_refl (dfuel : Nat) (g : Graph) (anim : GIF) : Traces dfuel g anim g anim :=
  ⟨[], by simp, rfl, by simp [trail], by simp⟩

theorem traces_trans {dfuel : Nat} {g g1 g2 : Graph} {a a1 a2 : GIF}
    (h1 : Traces dfuel g a g1 a1) (h2 : Traces dfuel g1 a1 g2 a2) : Traces dfuel g a g2 a2 := by
  obtain ⟨es1, b1, c1, d1, e1⟩ := h1
  obtain ⟨es2, b2, c2, d2, e2⟩ := h2
  refine ⟨es1 ++ es2, ?_, ?_, ?_, ?_⟩
  · intro e he
    rcases List.mem_append.mp he with he | he
    · exact b1 e he
    · have := b2 e he
      rw [c1, ← sameTopo_length (sameTopo_marks es1 g) e.1] at this
      exact this
  · rw [c2, c1, marks_append]
  · rw [d2, d1, trail_append, c1, List.append_assoc]
  · rw [e2, e1, List.length_append, List.replicate_add, List.append_assoc]

theorem traces_step (dfuel : Nat) (g : Graph) (anim : GIF) (v : Int) (i : Nat) (img : Image)
    (hi : i < (Graph.get g v).length) (himg : frameOf dfuel (Graph.mark g (v, i)) = .ok img) :
    Traces dfuel g anim (Graph.mark g (v, i)) ⟨anim.Image ++ [img], anim.Delay ++ [50]⟩ :=
  ⟨[(v, i)], by simpa using hi, rfl, by simp [trail, himg], by simp⟩

theorem traces_sameTopo {dfuel : Nat} {g g2 : Graph} {a a2 : GIF}
    (h : Traces dfuel g a g2 a2) : SameTopo g g2 := by
  obtain ⟨es, _, c, _, _⟩ := h
  rw [c]
  exact sameTopo_marks es g

theorem drawChilds_noFault
    (self : Int → Int → Int → Int → Image → Int → Int → Nat → Except Fault Image)
    (hself : ∀ n a b lv im qx qy c, NoFault (self n a b lv im qx qy c))
    (x1 step level px py : Int) :
    ∀ (l : List GraphLine) (i : Nat) (img : Image),
      NoFault (drawChilds self x1 step level px py i l img) := by
  intro l
  induction l with
  | nil => intro i img e h; simp [drawChilds] at h
  | cons c l ih =>
    intro i img e h
    simp only [drawChilds] at h
    cases hq : self c.Num (childX1 x1 step i) (childX2 x1 step i) (level + 1) img px py c.Color with
    | error e2 =>
      simp only [hq, Except.error.injEq] at h
      rw [← h]
      exact hself _ _ _ _ _ _ _ _ e2 hq
    | ok im =>
      simp only [hq] at h
      exact ih (i + 1) im e h

theorem drawVertext_noFault :
    ∀ (fuel : Nat) (g : Graph) (v x1 x2 level : Int) (img : Image) (px py : Int) (color : Nat),
      NoFault (drawVertext fuel g v x1 x2 level img px py color) := by
  intro fuel
  induction fuel with
  | zero =>
    intro g v x1 x2 level img px py color e h
    simp only [drawVertext, Except.error.injEq] at h
    exact h.symm
  | succ f ih =>
    intro g v x1 x2 level img px py color e h
    simp only [drawVertext] at h
    by_cases h0 : (Graph.get g v).length = 0
    · simp [h0] at h
    · simp only [h0, if_false, stepX] at h
      exact drawChilds_noFault (drawVertext f g) (fun n a b lv im qx qy c => ih g n a b lv im qx qy c)
        _ _ _ _ _ _ _ _ e h

theorem draw_cases (dfuel : Nat) (g : Graph) (anim : GIF) :
    (∃ img, frameOf dfuel g = .ok img
        ∧ draw dfuel g anim = .ok ⟨anim.Image ++ [img], anim.Delay ++ [50]⟩)
    ∨ (frameOf dfuel g = .error Fault.outOfFuel
        ∧ draw dfuel g anim = .error Fault.outOfFuel) := by
  unfold draw
  cases hq : frameOf dfuel g with
  | ok img => left; exact ⟨img, rfl, rfl⟩
  | error e =>
    right
    have := drawVertext_noFault dfuel g 0 0 canvSize 0 [] (-1) (-1) 2 e hq
    subst this
    exact ⟨rfl, rfl⟩

theorem loopOutcome_of_traces {dfuel : Nat} {g g1 : Graph} {a a1 : GIF}
    {r : Except Fault (Graph × GIF)} (h : Traces dfuel g a g1 a1)
    (hr : LoopOutcome dfuel g1 a1 r) : LoopOutcome dfuel g a r := by
  cases r with
  | error e => exact hr
  | ok p =>
    obtain ⟨g2, a2⟩ := p
    exact traces_trans h hr

theorem dfsChilds_outcome (dfuel : Nat)
    (self : Graph → GIF → Int → Except Fault (Graph × GIF))
    (hself : ∀ g anim v, RunOutcome dfuel g anim (self g anim v)) (v : Int) :
    ∀ (l : List GraphLine) (i : Nat) (g : Graph) (anim : GIF),
      i + l.length = (Graph.get g v).length →
      LoopOutcome dfuel g anim (dfsChilds self v i l g anim) := by
  intro l
  induction l with
  | nil => intro i g anim _; exact traces_refl dfuel g anim
  | cons c l ih =>
    intro i g anim hi
    simp only [List.length_cons] at hi
    rw [dfsChilds, Graph.visit_eq g v i (by omega)]
    simp only
    have hs := hself (Graph.mark g (v, i)) anim c.Num
    cases hq : self (Graph.mark g (v, i)) anim c.Num with
    | error e =>
      rw [hq] at hs
      exact hs
    | ok p =>
      obtain ⟨g2, a2⟩ := p
      rw [hq] at hs
      obtain ⟨img, himg, ht⟩ := hs
      simp only
      have ht2 := traces_trans (traces_step dfuel g anim v i img (by omega) himg) ht
      refine loopOutcome_of_traces ht2 (ih (i + 1) g2 a2 ?_)
      rw [← sameTopo_length (traces_sameTopo ht2) v]
      omega

theorem dfs_outcome (dfuel : Nat) :
    ∀ (fuel : Nat) (g : Graph) (anim : GIF) (v : Int),
      RunOutcome dfuel g anim (dfs dfuel fuel g anim v) := by
  intro fuel
  induction fuel with
  | zero => intro g anim v; rfl
  | succ f ih =>
    intro g anim v
    rw [dfs]
    rcases draw_cases dfuel g anim with ⟨img, h1, h2⟩ | ⟨_, h2⟩
    · rw [h2]
      simp only
      have := dfsChilds_outcome dfuel (dfs dfuel f) (fun g anim v => ih g anim v) v
        (Graph.get g v) 0 g ⟨anim.Image ++ [img], anim.Delay ++ [50]⟩ (by simp)
      cases hq : dfsChilds (dfs dfuel f) v 0 (Graph.get g v) g
          ⟨anim.Image ++ [img], anim.Delay ++ [50]⟩ with
      | error e =>
        rw [hq] at this
        exact this
      | ok p =>
        obtain ⟨g2, a2⟩ := p
        rw [hq] at this
        exact ⟨img, h1, this⟩
    · rw [h2]
      rfl

/-! ## Counting the Unvisited edges -/

theorem unvisited_set (g : Graph) (v : Int) (l2 : List GraphLine) :
    Graph.unvisited (Graph.set g v l2) + (Graph.get g v).countP (fun l => !l.Visited)
      = Graph.unvisited g + l2.countP (fun l => !l.Visited) := by
  induction g with
  | nil => simp [Graph.set, Graph.get, Graph.unvisited]
  | cons p rest ih =>
    obtain ⟨k, l0⟩ := p
    by_cases hk : k = v
    · simp only [Graph.set, Graph.get, hk, if_true, Graph.unvisited, List.map_cons, List.sum_cons]
      omega
    · simp only [Graph.unvisited] at ih
      simp only [Graph.set, Graph.get, hk, if_false, Graph.unvisited, List.map_cons,
        List.sum_cons]
      omega

theorem countP_modify_visit :
    ∀ (l : List GraphLine) (i : Nat) (a : GraphLine), l[i]? = some a → a.Visited = false →
      (l.modify GraphLine.Visit i).countP (fun l => !l.Visited) + 1
        = l.countP (fun l => !l.Visited) := by
  intro l
  induction l with
  | nil => intro i a h; simp at h
  | cons b l ih =>
    intro i a h hv
    cases i with
    | zero =>
      simp only [List.getElem?_cons_zero, Option.some.injEq] at h
      subst h
      have hc : ¬ b.Color = 2 := by simpa [GraphLine.Visited] using hv
      simp [List.modify, List.countP_cons, GraphLine.Visit, GraphLine.Visited, hc]
    | succ n =>
      simp only [List.getElem?_cons_succ] at h
      have := ih n a h hv
      simp only [List.modify_succ_cons, List.countP_cons]
      omega

theorem unvisited_mark (g : Graph) (v : Int) (i : Nat) (hi : i < (Graph.get g v).length)
    (hv : Graph.isVisited g v i = false) :
    Graph.unvisited (Graph.mark g (v, i)) + 1 = Graph.unvisited g := by
  have hq : (Graph.get g v)[i]? = some ((Graph.get g v)[i]) := List.getElem?_eq_getElem hi
  have hv2 : ((Graph.get g v)[i]).Visited = false := by
    simpa [Graph.isVisited, hq] using hv
  have h1 := countP_modify_visit (Graph.get g v) i _ hq hv2
  have h2 := unvisited_set g v ((Graph.get g v).modify GraphLine.Visit i)
  simp only [Graph.mark, hi, if_true]
  omega

/-! ## Breadth-first runs on arbitrary graphs -/

theorem not_renders_of_error (dfuel : Nat) (g g1 : Graph) (h : SameTopo g g1) (e : Fault)
    (he : frameOf dfuel g1 = .error e) : ¬ Renders dfuel g := by
  intro hR
  obtain ⟨img, himg⟩ := hR g1 h
  rw [he] at himg
  cases himg

theorem scanOutcome_trans {dfuel : Nat} {g g1 : Graph} {a a1 : GIF} {done d1 : Bool}
    {q1 : List Int} {r : Except Fault (Graph × GIF × List Int × Bool)}
    (h : ScanOutcome dfuel g a done (.ok (g1, a1, q1, d1)))
    (hr : ScanOutcome dfuel g1 a1 d1 r) : ScanOutcome dfuel g a done r := by
  obtain ⟨t1, u1, f1⟩ := h
  cases r with
  | error e =>
    exact ⟨hr.1, fun hR => hr.2 (renders_of_sameTopo hR (traces_sameTopo t1))⟩
  | ok p =>
    obtain ⟨g2, a2, q2, d2⟩ := p
    obtain ⟨t2, u2, f2⟩ := hr
    refine ⟨traces_trans t1 t2, by omega, ?_⟩
    intro hd
    rcases f2 hd with h3 | h3
    · rcases f1 h3 with h4 | h4
      · left; exact h4
      · right; omega
    · right; omega

theorem bfsEdges_outcome (dfuel : Nat) (x : Int) :
    ∀ (l : List GraphLine) (i : Nat) (g : Graph) (anim : GIF) (q : List Int) (done : Bool),
      i + l.length = (Graph.get g x).length →
      ScanOutcome dfuel g anim done (bfsEdges dfuel x i l g anim q done) := by
  intro l
  induction l with
  | nil =>
    intro i g anim q done _
    exact ⟨traces_refl dfuel g anim, le_refl _, fun h => Or.inl h⟩
  | cons c l ih =>
    intro i g anim q done hi
    simp only [List.length_cons] at hi
    rw [bfsEdges, Graph.visited_eq g x i (by omega)]
    cases hv : Graph.isVisited g x i with
    | true => exact ih (i + 1) g anim q done (by omega)
    | false =>
      simp only
      rw [Graph.visit_eq g x i (by omega)]
      simp only
      have hT := sameTopo_mark g (x, i)
      have hU := unvisited_mark g x i (by omega) hv
      rcases draw_cases dfuel (Graph.mark g (x, i)) anim with ⟨img, h1, h2⟩ | ⟨h1, h2⟩
      · rw [h2]
        simp only
        have hstep : ScanOutcome dfuel g anim done
            (.ok (Graph.mark g (x, i), ⟨anim.Image ++ [img], anim.Delay ++ [50]⟩,
              q ++ [c.Num], false)) :=
          ⟨traces_step dfuel g anim x i img (by omega) h1, by omega, fun _ => Or.inr (by omega)⟩
        exact scanOutcome_trans hstep
          (ih (i + 1) _ _ _ false (by rw [← sameTopo_length hT x]; omega))
      · rw [h2]
        exact ⟨rfl, not_renders_of_error dfuel g _ hT _ h1⟩

theorem bfsScan_outcome (dfuel : Nat) :
    ∀ (xs : List Int) (g : Graph) (anim : GIF) (q : List Int) (done : Bool),
      ScanOutcome dfuel g anim done (bfsScan dfuel xs g anim q done) := by
  intro xs
  induction xs with
  | nil =>
    intro g anim q done
    exact ⟨traces_refl dfuel g anim, le_refl _, fun h => Or.inl h⟩
  | cons x xs ih =>
    intro g anim q done
    rw [bfsScan]
    have h := bfsEdges_outcome dfuel x (Graph.get g x) 0 g anim q done (by simp)
    cases hq : bfsEdges dfuel x 0 (Graph.get g x) g anim q done with
    | error e =>
      rw [hq] at h
      exact h
    | ok p =>
      obtain ⟨g1, a1, q1, d1⟩ := p
      rw [hq] at h
      exact scanOutcome_trans h (ih g1 a1 q1 d1)

theorem bfsLoop_outcome (dfuel : Nat) :
    ∀ (fuel : Nat) (g : Graph) (anim : GIF) (queue : List Int),
      match bfsLoop dfuel fuel g anim queue with
      | .ok (g2, anim2, _) => Traces dfuel g anim g2 anim2
      | .error e => e = Fault.outOfFuel ∧ (¬ Renders dfuel g ∨ fuel ≤ Graph.unvisited g) := by
  intro fuel
  induction fuel with
  | zero =>
    intro g anim queue
    exact ⟨rfl, Or.inr (Nat.zero_le _)⟩
  | succ f ih =>
    intro g anim queue
    rw [bfsLoop]
    have h := bfsScan_outcome dfuel queue g anim queue true
    cases hq : bfsScan dfuel queue g anim queue true with
    | error e =>
      rw [hq] at h
      exact ⟨h.1, Or.inl h.2⟩
    | ok p =>
      obtain ⟨g1, a1, q1, d1⟩ := p
      rw [hq] at h
      obtain ⟨t1, u1, f1⟩ := h
      cases d1 with
      | true => exact t1
      | false =>
        simp only [Bool.false_eq_true, if_false]
        have hlt : Graph.unvisited g1 < Graph.unvisited g := by
          rcases f1 rfl with h3 | h3
          · cases h3
          · exact h3
        have h2 := ih g1 a1 q1
        cases hq2 : bfsLoop dfuel f g1 a1 q1 with
        | error e =>
          rw [hq2] at h2
          refine ⟨h2.1, ?_⟩
          rcases h2.2 with h3 | h3
          · left
            exact fun hR => h3 (renders_of_sameTopo hR (traces_sameTopo t1))
          · right; omega
        | ok p2 =>
          obtain ⟨g2, a2, q2⟩ := p2
          rw [hq2] at h2
          exact traces_trans t1 h2

theorem passOutcome_trans {dfuel : Nat} {g g1 : Graph} {a a1 : GIF}
    {r : Except Fault (Graph × GIF)} (h : Traces dfuel g a g1 a1)
    (hr : PassOutcome dfuel g1 a1 r) : PassOutcome dfuel g a r := by
  cases r with
  | error e => exact ⟨hr.1, fun hR => hr.2 (renders_of_sameTopo hR (traces_sameTopo h))⟩
  | ok p =>
    obtain ⟨g2, a2⟩ := p
    exact traces_trans h hr

theorem remark_outcome (dfuel : Nat) (v : Int) :
    ∀ (l : List GraphLine) (i : Nat) (g : Graph) (anim : GIF),
      i + l.length = (Graph.get g v).length →
      PassOutcome dfuel g anim (remark dfuel v i l g anim) := by
  intro l
  induction l with
  | nil => intro i g anim _; exact traces_refl dfuel g anim
  | cons c l ih =>
    intro i g anim hi
    simp only [List.length_cons] at hi
    rw [remark, Graph.visit_eq g v i (by omega)]
    simp only
    have hT := sameTopo_mark g (v, i)
    rcases draw_cases dfuel (Graph.mark g (v, i)) anim with ⟨img, h1, h2⟩ | ⟨h1, h2⟩
    · rw [h2]
      simp only
      exact passOutcome_trans (traces_step dfuel g anim v i img (by omega) h1)
        (ih (i + 1) _ _ (by rw [← sameTopo_length hT v]; omega))
    · rw [h2]
      exact ⟨rfl, not_renders_of_error dfuel g _ hT _ h1⟩

theorem remarkChilds_outcome (dfuel : Nat) :
    ∀ (cs : List GraphLine) (g : Graph) (anim : GIF),
      PassOutcome dfuel g anim (remarkChilds dfuel cs g anim) := by
  intro cs
  induction cs with
  | nil => intro g anim; exact traces_refl dfuel g anim
  | cons c cs ih =>
    intro g anim
    rw [remarkChilds]
    have h := remark_outcome dfuel c.Num (Graph.get g c.Num) 0 g anim (by simp)
    cases hq : remark dfuel c.Num 0 (Graph.get g c.Num) g anim with
    | error e =>
      rw [hq] at h
      exact h
    | ok p =>
      obtain ⟨g1, a1⟩ := p
      rw [hq] at h
      exact passOutcome_trans h (ih g1 a1)

theorem bfs_outcome (dfuel fuel : Nat) (g : Graph) (anim : GIF) (v : Int) :
    match bfs dfuel fuel g anim v with
    | .ok (g2, anim2) => ∃ img, frameOf dfuel g = .ok img
        ∧ Traces dfuel g ⟨anim.Image ++ [img], anim.Delay ++ [50]⟩ g2 anim2
    | .error e => e = Fault.outOfFuel ∧ (¬ Renders dfuel g ∨ fuel ≤ Graph.unvisited g) := by
  unfold bfs bfsQueue
  rcases draw_cases dfuel g anim with ⟨img, h1, h2⟩ | ⟨h1, h2⟩
  · rw [h2]
    simp only
    have hl := bfsLoop_outcome dfuel fuel g ⟨anim.Image ++ [img], anim.Delay ++ [50]⟩ [v]
    cases hq : bfsLoop dfuel fuel g ⟨anim.Image ++ [img], anim.Delay ++ [50]⟩ [v] with
    | error e =>
      rw [hq] at hl
      exact hl
    | ok p =>
      obtain ⟨g1, a1, q1⟩ := p
      rw [hq] at hl
      simp only [bfsTrailing]
      have hr := remark_outcome dfuel v (Graph.get g1 v) 0 g1 a1 (by simp)
      cases hq2 : remark dfuel v 0 (Graph.get g1 v) g1 a1 with
      | error e =>
        rw [hq2] at hr
        exact ⟨hr.1, Or.inl fun hR => hr.2 (renders_of_sameTopo hR (traces_sameTopo hl))⟩
      | ok p2 =>
        obtain ⟨g2, a2⟩ := p2
        rw [hq2] at hr
        simp only
        have hc := remarkChilds_outcome dfuel (Graph.get g1 v) g2 a2
        have ht2 := traces_trans hl hr
        cases hq3 : remarkChilds dfuel (Graph.get g1 v) g2 a2 with
        | error e =>
          rw [hq3] at hc
          exact ⟨hc.1, Or.inl fun hR => hc.2 (renders_of_sameTopo hR (traces_sameTopo ht2))⟩
        | ok p3 =>
          obtain ⟨g3, a3⟩ := p3
          rw [hq3] at hc
          exact ⟨img, h1, traces_trans ht2 hc⟩
  · rw [h2]
    exact ⟨rfl, Or.inl (not_renders_of_error dfuel g g (sameTopo_refl g) _ h1)⟩

theorem bfs_runOutcome (dfuel fuel : Nat) (g : Graph) (anim : GIF) (v : Int) :
    RunOutcome dfuel g anim (bfs dfuel fuel g anim v) := by
  have h := bfs_outcome dfuel fuel g anim v
  cases hq : bfs dfuel fuel g anim v with
  | error e =>
    rw [hq] at h
    exact h.1
  | ok p =>
    obtain ⟨g2, a2⟩ := p
    rw [hq] at h
    exact h

theorem bfs_returns (dfuel fuel : Nat) (g : Graph) (anim : GIF) (v : Int)
    (hR : Renders dfuel g) (hf : Graph.unvisited g + 1 ≤ fuel) :
    ∃ g2 anim2, bfs dfuel fuel g anim v = .ok (g2, anim2) := by
  have h := bfs_outcome dfuel fuel g anim v
  cases hq : bfs dfuel fuel g anim v with
  | error e =>
    rw [hq] at h
    rcases h.2 with h2 | h2
    · exact absurd hR h2
    · omega
  | ok p =>
    obtain ⟨g2, a2⟩ := p
    exact ⟨g2, a2, rfl⟩

/-! ## What a returned run has done -/

theorem map_ok_injective : Function.Injective (Except.ok : Image → Except Fault Image) := by
  intro a b h
  cases h
  rfl

theorem run_frames (dfuel : Nat) (g : Graph) (anim : GIF) (g2 : Graph) (anim2 : GIF)
    (h : RunOutcome dfuel g anim (.ok (g2, anim2))) :
    ∃ (imgs : List Image) (es : List (Int × Nat)),
      (∀ e ∈ es, e.2 < (Graph.get g e.1).length)
      ∧ g2 = Graph.marks g es
      ∧ anim2.Image = anim.Image ++ imgs
      ∧ anim2.Delay = anim.Delay ++ List.replicate imgs.length 50
      ∧ imgs.length = es.length + 1
      ∧ imgs.map Except.ok = (List.range (es.length + 1)).map
          (fun i => frameOf dfuel (Graph.marks g (es.take i))) := by
  obtain ⟨img, himg, es, hb, hg, hi, hd⟩ := h
  simp only [List.map_append, List.map_cons, List.map_nil, List.append_assoc,
    List.singleton_append] at hi
  obtain ⟨l1, l2, e1, e2, e3⟩ := List.map_eq_append_iff.mp hi
  have hl1 : l1 = anim.Image := (List.map_injective_iff.mpr map_ok_injective) e2
  have hlen : l2.length = es.length + 1 := by
    have := congrArg List.length e3
    simpa [length_trail] using this
  refine ⟨l2, es, hb, hg, by rw [e1, hl1], ?_, hlen, ?_⟩
  · rw [hd, hlen, List.replicate_succ]
    simp
  · rw [e3, ← himg, frames_eq_range]

/-- C13: a `draw` that returns has appended exactly one image and one delay 50 at the end
and kept every earlier entry; so a `dfs` or `bfs` run that returns has extended the
animation by the frames of its successive graph states, in that order, with one delay 50
per frame, and from an empty animation `Image` and `Delay` have equal length and every
delay is 50. -/
theorem animation_append_only (dfuel : Nat) (g : Graph) (anim : GIF) :
    (∀ anim2, draw dfuel g anim = .ok anim2 →
        ∃ img, frameOf dfuel g = .ok img
          ∧ anim2.Image = anim.Image ++ [img] ∧ anim2.Delay = anim.Delay ++ [50])
    ∧ (∀ (fuel : Nat) (v : Int) (g2 : Graph) (anim2 : GIF),
        (dfs dfuel fuel g anim v = .ok (g2, anim2) ∨ bfs dfuel fuel g anim v = .ok (g2, anim2)) →
        ∃ (imgs : List Image) (es : List (Int × Nat)),
          anim2.Image = anim.Image ++ imgs
          ∧ anim2.Delay = anim.Delay ++ List.replicate imgs.length 50
          ∧ imgs.map Except.ok = (List.range (es.length + 1)).map
              (fun i => frameOf dfuel (Graph.marks g (es.take i)))
          ∧ (anim = ⟨[], []⟩ →
              anim2.Image.length = anim2.Delay.length ∧ ∀ d ∈ anim2.Delay, d = 50)) := by
  constructor
  · intro anim2 h
    rcases draw_cases dfuel g anim with ⟨img, h1, h2⟩ | ⟨_, h2⟩
    · rw [h2] at h
      cases h
      exact ⟨img, h1, rfl, rfl⟩
    · rw [h2] at h
      cases h
  · intro fuel v g2 anim2 h
    have hrun : RunOutcome dfuel g anim (.ok (g2, anim2)) := by
      rcases h with h | h
      · rw [← h]; exact dfs_outcome dfuel fuel g anim v
      · rw [← h]; exact bfs_runOutcome dfuel fuel g anim v
    obtain ⟨imgs, es, _, _, h3, h4, _, h6⟩ := run_frames dfuel g anim g2 anim2 hrun
    refine ⟨imgs, es, h3, h4, h6, ?_⟩
    intro he
    rw [h3, h4, he]
    constructor
    · simp
    · intro d hd
      simp only [List.nil_append] at hd
      exact (List.mem_replicate.mp hd).2

theorem animation_append_only_witness :
    ∃ g2 anim2, dfs 2 2 twoEdges ⟨[], []⟩ 0 = .ok (g2, anim2)
      ∧ anim2.Image.length = anim2.Delay.length ∧ ∀ d ∈ anim2.Delay, d = 50 := by
  obtain ⟨a2, h1, _⟩ := dfs_tree 2 2 twoEdges ⟨[], []⟩ twoKids isTree_twoEdges.shape
    (by decide) (by decide)
  obtain ⟨imgs, es, _, _, _, h5⟩ :=
    (animation_append_only 2 twoEdges ⟨[], []⟩).2 2 0 _ a2 (Or.inl h1)
  exact ⟨_, a2, h1, h5 rfl⟩

/-! ## A run only turns Unvisited edges into Visited ones -/

theorem get_of_not_mem_keys (g : Graph) (v : Int) (h : v ∉ Graph.keys g) : Graph.get g v = [] := by
  induction g with
  | nil => rfl
  | cons p rest ih =>
    obtain ⟨k, l⟩ := p
    simp only [Graph.keys, List.map_cons, List.mem_cons, not_or] at h
    have hk : ¬ k = v := fun e => h.1 e.symm
    simp only [Graph.get, hk, if_false]
    exact ih h.2

theorem keys_mark (g : Graph) (e : Int × Nat) : Graph.keys (Graph.mark g e) = Graph.keys g := by
  unfold Graph.mark
  by_cases h : e.2 < (Graph.get g e.1).length
  · simp only [h, if_true, keys_set]
    have hm : e.1 ∈ Graph.keys g := by
      by_contra hn
      rw [get_of_not_mem_keys g e.1 hn] at h
      simp at h
    simp [hm]
  · simp [h]

theorem keys_marks (es : List (Int × Nat)) : ∀ g : Graph, Graph.keys (Graph.marks g es) = Graph.keys g := by
  induction es with
  | nil => intro g; rfl
  | cons e es ih => intro g; rw [marks_cons, ih, keys_mark]

theorem visit_visit (l : GraphLine) : l.Visit.Visit = l.Visit := rfl

theorem edge_after_mark (g : Graph) (e : Int × Nat) (w : Int) (j : Nat) (l2 : GraphLine)
    (h : (Graph.get (Graph.mark g e) w)[j]? = some l2) :
    ∃ l, (Graph.get g w)[j]? = some l ∧ (l2 = l ∨ l2 = l.Visit) := by
  rw [Graph.get_mark] at h
  by_cases hw : w = e.1
  · simp only [hw, if_true, List.getElem?_modify] at h
    rw [hw]
    cases hq : (Graph.get g e.1)[j]? with
    | none => simp [hq] at h
    | some l =>
      simp only [hq, Option.map_eq_map, Option.map_some', Option.some.injEq] at h
      refine ⟨l, rfl, ?_⟩
      by_cases hj : e.2 = j
      · right; simp only [hj, if_true] at h; exact h.symm
      · left; simp only [hj, if_false] at h; exact h.symm
  · simp only [hw, if_false] at h
    exact ⟨l2, h, Or.inl rfl⟩

theorem edge_after_marks (es : List (Int × Nat)) :
    ∀ (g : Graph) (w : Int) (j : Nat) (l2 : GraphLine),
      (Graph.get (Graph.marks g es) w)[j]? = some l2 →
      ∃ l, (Graph.get g w)[j]? = some l ∧ (l2 = l ∨ l2 = l.Visit) := by
  induction es with
  | nil => intro g w j l2 h; exact ⟨l2, h, Or.inl rfl⟩
  | cons e es ih =>
    intro g w j l2 h
    rw [marks_cons] at h
    obtain ⟨l1, h1, h2⟩ := ih _ w j l2 h
    obtain ⟨l, h3, h4⟩ := edge_after_mark g e w j l1 h1
    refine ⟨l, h3, ?_⟩
    rcases h2 with h2 | h2 <;> rcases h4 with h4 | h4
    · left; rw [h2, h4]
    · right; rw [h2, h4]
    · right; rw [h2, h4]
    · right; rw [h2, h4, visit_visit]

theorem visited_mono (es : List (Int × Nat)) (g : Graph) (w : Int) (j : Nat)
    (h : Graph.isVisited g w j = true) : Graph.isVisited (Graph.marks g es) w j = true := by
  rw [isVisited_marks, h]
  rfl

theorem visited_mono_take (es : List (Int × Nat)) (g : Graph) (i k : Nat) (hik : i ≤ k)
    (w : Int) (j : Nat) (h : Graph.isVisited (Graph.marks g (es.take i)) w j = true) :
    Graph.isVisited (Graph.marks g (es.take k)) w j = true := by
  have : es.take k = es.take i ++ (es.take k).drop i := by
    have h1 : (es.take k).take i = es.take i := by
      rw [List.take_take, Nat.min_eq_left hik]
    rw [← h1, List.take_append_drop]
  rw [this, marks_append]
  exact visited_mono _ _ w j h

/-- C15: a `dfs` or `bfs` run that returns has changed the graph only by `Visit` calls on
existing edges: the keys, and under every key the length, order and targets of the
adjacency list, are as before; every edge is as before or is its `Visit`, which is Visited
and has the same target; and along the graph states behind the successive frames an edge
that is Visited stays Visited. -/
theorem only_visits (dfuel fuel : Nat) (g : Graph) (anim : GIF) (v : Int) (g2 : Graph)
    (anim2 : GIF)
    (h : dfs dfuel fuel g anim v = .ok (g2, anim2) ∨ bfs dfuel fuel g anim v = .ok (g2, anim2)) :
    Graph.keys g2 = Graph.keys g
    ∧ (∀ w, (Graph.get g2 w).map GraphLine.Num = (Graph.get g w).map GraphLine.Num)
    ∧ (∀ w, (Graph.get g2 w).length = (Graph.get g w).length)
    ∧ (∀ (w : Int) (j : Nat) (l2 : GraphLine), (Graph.get g2 w)[j]? = some l2 →
        ∃ l, (Graph.get g w)[j]? = some l ∧ (l2 = l ∨ l2 = l.Visit))
    ∧ (∀ l : GraphLine, l.Visit.Visited = true ∧ l.Visit.Num = l.Num)
    ∧ (∀ w j, Graph.isVisited g w j = true → Graph.isVisited g2 w j = true)
    ∧ ∃ (imgs : List Image) (es : List (Int × Nat)),
        g2 = Graph.marks g es
        ∧ anim2.Image = anim.Image ++ imgs
        ∧ imgs.map Except.ok = (List.range (es.length + 1)).map
            (fun i => frameOf dfuel (Graph.marks g (es.take i)))
        ∧ (∀ i k, i ≤ k → ∀ w j,
            Graph.isVisited (Graph.marks g (es.take i)) w j = true →
            Graph.isVisited (Graph.marks g (es.take k)) w j = true) := by
  have hrun : RunOutcome dfuel g anim (.ok (g2, anim2)) := by
    rcases h with h | h
    · rw [← h]; exact dfs_outcome dfuel fuel g anim v
    · rw [← h]; exact bfs_runOutcome dfuel fuel g anim v
  obtain ⟨imgs, es, _, h2, h3, _, _, h6⟩ := run_frames dfuel g anim g2 anim2 hrun
  have hT := sameTopo_marks es g
  refine ⟨by rw [h2, keys_marks], fun w => by rw [h2]; exact (hT w).symm,
    fun w => by rw [h2]; exact (sameTopo_length hT w).symm, ?_, fun l => ⟨rfl, rfl⟩, ?_,
    imgs, es, h2, h3, h6, fun i k hik w j hv => visited_mono_take es g i k hik w j hv⟩
  · intro w j l2 hl
    rw [h2] at hl
    exact edge_after_marks es g w j l2 hl
  · intro w j hv
    rw [h2]
    exact visited_mono es g w j hv

theorem only_visits_witness :
    ∃ g2 anim2, bfs 2 2 twoEdges ⟨[], []⟩ 0 = .ok (g2, anim2)
      ∧ Graph.keys g2 = Graph.keys twoEdges
      ∧ ∀ w, (Graph.get g2 w).map GraphLine.Num = (Graph.get twoEdges w).map GraphLine.Num := by
  obtain ⟨aq, q, img, _, _, _, h4⟩ := bfs_tree 2 2 twoEdges 0 twoKids isTree_twoEdges
    allUnvisited_twoEdges (by decide) (by decide)
  obtain ⟨h5, h6, _⟩ := only_visits 2 2 twoEdges ⟨[], []⟩ 0 _ _ (Or.inr h4)
  exact ⟨_, _, h4, h5, h6⟩

/-! ## Termination and absence of run-time faults -/

theorem bfsQueue_ok_of_bfs (dfuel fuel : Nat) (g : Graph) (anim : GIF) (v : Int)
    (g2 : Graph) (a2 : GIF) (h : bfs dfuel fuel g anim v = .ok (g2, a2)) :
    ∃ gq aq q, bfsQueue dfuel fuel g anim v = .ok (gq, aq, q) := by
  unfold bfs at h
  cases hq : bfsQueue dfuel fuel g anim v with
  | error e => simp [hq] at h
  | ok p =>
    obtain ⟨gq, aq, q⟩ := p
    exact ⟨gq, aq, q, rfl⟩

/-- C16: for a tree rooted at node 0 there is a bound (the height of the tree for the
renderings and `dfs`, and also the number of Unvisited edges for the loop of `bfs`) such
that with at least that much fuel every rendering of a graph of this topology, `dfs` from 0,
the queue-driven loop of `bfs` and `bfs` from 0 all return. -/
theorem traversals_terminate (g : Graph) (kids : Forest) (ht : IsTree g 0 kids)
    (dfuel fuel : Nat) (hd : kids.height + 1 ≤ dfuel)
    (hf : max (kids.height + 1) (Graph.unvisited g + 1) ≤ fuel) (anim : GIF) :
    (∀ g2, SameTopo g g2 → ∃ img, frameOf dfuel g2 = .ok img)
    ∧ (∃ g2 a2, dfs dfuel fuel g anim 0 = .ok (g2, a2))
    ∧ (∃ gq aq q, bfsQueue dfuel fuel g anim 0 = .ok (gq, aq, q))
    ∧ (∃ g3 a3, bfs dfuel fuel g anim 0 = .ok (g3, a3)) := by
  have hR := renders_of_isTree g 0 kids dfuel ht hd
  obtain ⟨a2, h1, _⟩ := dfs_tree dfuel fuel g anim kids ht.shape hd (by omega)
  obtain ⟨g3, a3, h3⟩ := bfs_returns dfuel fuel g anim 0 hR (by omega)
  exact ⟨hR, ⟨_, a2, h1⟩, bfsQueue_ok_of_bfs dfuel fuel g anim 0 g3 a3 h3, ⟨g3, a3, h3⟩⟩

theorem traversals_terminate_witness :
    (∃ g2 a2, dfs 3 3 twoEdges ⟨[], []⟩ 0 = .ok (g2, a2))
    ∧ (∃ g3 a3, bfs 3 3 twoEdges ⟨[], []⟩ 0 = .ok (g3, a3)) := by
  have h := traversals_terminate twoEdges twoKids isTree_twoEdges 3 3 (by decide) (by decide)
    ⟨[], []⟩
  exact ⟨h.2.1, h.2.2.2⟩

/-- C18: no run reaches an integer run-time fault. On every graph a `dfs` or `bfs` run and
every rendering can fail only by running out of fuel, never by an index out of range or a
division by zero (which the model reports when `Visit` or `Visited` is used outside the
adjacency list, or `stepX` is taken with zero children); a node without children is drawn
and the call returns before `stepX` is computed; and on a tree rooted at node 0, with
enough fuel, `dfs` and `bfs` return. -/
theorem no_runtime_fault (g : Graph) (kids : Forest) (ht : IsTree g 0 kids) :
    (∀ (h : Graph) (dfuel fuel : Nat) (anim : GIF) (v : Int) (e : Fault),
        (dfs dfuel fuel h anim v = .error e ∨ bfs dfuel fuel h anim v = .error e) →
        e = Fault.outOfFuel)
    ∧ (∀ (h : Graph) (fuel : Nat) (v x1 x2 level : Int) (img : Image) (px py : Int)
        (color : Nat) (e : Fault),
        drawVertext fuel h v x1 x2 level img px py color = .error e → e = Fault.outOfFuel)
    ∧ (∀ (h : Graph) (fuel : Nat) (v x1 x2 level : Int) (img : Image) (px py : Int)
        (color : Nat), Graph.get h v = [] →
        drawVertext (fuel + 1) h v x1 x2 level img px py color
          = .ok (if px ≠ -1 then
              drawLine px py (rootX x1 x2) (rootY level)
                (drawPoint (rootX x1 x2) (rootY level) img color) color
             else drawPoint (rootX x1 x2) (rootY level) img color))
    ∧ (∀ (x1 x2 : Int) (n : Nat), stepX x1 x2 n = .error Fault.divideByZero ↔ n = 0)
    ∧ (∀ (h : Graph) (v : Int) (i : Nat),
        (Graph.visit h v i = .error Fault.indexOutOfRange ↔ ¬ i < (Graph.get h v).length)
        ∧ (Graph.visited h v i = .error Fault.indexOutOfRange ↔ ¬ i < (Graph.get h v).length))
    ∧ (∀ (dfuel fuel : Nat) (anim : GIF), kids.height + 1 ≤ dfuel →
        max (kids.height + 1) (Graph.unvisited g + 1) ≤ fuel →
        (∃ g2 a2, dfs dfuel fuel g anim 0 = .ok (g2, a2))
        ∧ (∃ g3 a3, bfs dfuel fuel g anim 0 = .ok (g3, a3))) := by
  refine ⟨?_, ?_, ?_, ?_, ?_, ?_⟩
  · intro h dfuel fuel anim v e he
    rcases he with he | he
    · have := dfs_outcome dfuel fuel h anim v
      rw [he] at this
      exact this
    · have := bfs_runOutcome dfuel fuel h anim v
      rw [he] at this
      exact this
  · intro h fuel v x1 x2 level img px py color e he
    exact drawVertext_noFault fuel h v x1 x2 level img px py color e he
  · intro h fuel v x1 x2 level img px py color hv
    rw [drawVertext]
    simp [hv]
  · intro x1 x2 n
    unfold stepX
    by_cases hn : n = 0
    · simp [hn]
    · simp [hn]
  · intro h v i
    constructor
    · unfold Graph.visit
      by_cases hi : i < (Graph.get h v).length
      · simp [hi]
      · simp [hi]
    · unfold Graph.visited
      cases hq : (Graph.get h v)[i]? with
      | none =>
        have := List.getElem?_eq_none_iff.mp hq
        simp
        omega
      | some l =>
        have := (List.getElem?_eq_some_iff.mp hq).1
        simp [this]
  · intro dfuel fuel anim hd hf
    have hR := renders_of_isTree g 0 kids dfuel ht hd
    obtain ⟨a2, h1, _⟩ := dfs_tree dfuel fuel g anim kids ht.shape hd (by omega)
    exact ⟨⟨_, a2, h1⟩, bfs_returns dfuel fuel g anim 0 hR (by omega)⟩

theorem no_runtime_fault_witness :
    (∃ g2 a2, dfs 3 3 twoEdges ⟨[], []⟩ 0 = .ok (g2, a2))
    ∧ (∃ g3 a3, bfs 3 3 twoEdges ⟨[], []⟩ 0 = .ok (g3, a3)) :=
  (no_runtime_fault twoEdges twoKids isTree_twoEdges).2.2.2.2.2 3 3 ⟨[], []⟩
    (by decide) (by decide)

/-! ## Order of the drawing calls, rows, and single children -/

theorem drawVertext_own_ops (fuel : Nat) (g : Graph) (v x1 x2 level : Int) (img : Image)
    (px py : Int) (color : Nat) (img2 : Image)
    (h : drawVertext fuel g v x1 x2 level img px py color = .ok img2) :
    ∃ ops, img2 = img ++ (DrawOp.point (rootX x1 x2) (rootY level) color ::
      (if px ≠ -1 then [DrawOp.line px py (rootX x1 x2) (rootY level) color] else [])) ++ ops := by
  cases fuel with
  | zero => simp [drawVertext] at h
  | succ f =>
    simp only [drawVertext, drawPoint, drawLine] at h
    have hbase : (if px ≠ -1 then
        img ++ [DrawOp.point (rootX x1 x2) (rootY level) color]
          ++ [DrawOp.line px py (rootX x1 x2) (rootY level) color]
        else img ++ [DrawOp.point (rootX x1 x2) (rootY level) color])
        = img ++ (DrawOp.point (rootX x1 x2) (rootY level) color ::
            (if px ≠ -1 then [DrawOp.line px py (rootX x1 x2) (rootY level) color] else [])) := by
      by_cases hp : px = -1
      · simp [hp]
      · simp [hp]
    rw [hbase] at h
    by_cases h0 : (Graph.get g v).length = 0
    · simp only [h0, if_true, Except.ok.injEq] at h
      exact ⟨[], by rw [← h]; simp⟩
    · simp only [h0, if_false, stepX] at h
      obtain ⟨o2, h2⟩ := drawChilds_extends (drawVertext f g)
        (fun n a b lv im qx qy c im2 hh => by
          obtain ⟨ops, hops⟩ := drawVertext_extends f g n a b lv im qx qy c im2 hh
          exact ⟨_, hops⟩) _ _ _ _ _ _ _ _ _ h
      exact ⟨o2, h2⟩

/-- C11, the claim as stated fails: in the frame of the one-edge graph the point of node 1
is drawn first and its line from node 0 after it. -/
theorem line_before_point_counterexample :
    frameOf 2 oneEdge
      = .ok [DrawOp.point 194 10 2, DrawOp.point 194 60 1, DrawOp.line 194 10 194 60 1]
    ∧ ¬ (List.indexOf (DrawOp.line 194 10 194 60 1)
            [DrawOp.point 194 10 2, DrawOp.point 194 60 1, DrawOp.line 194 10 194 60 1]
          < List.indexOf (DrawOp.point 194 60 1)
            [DrawOp.point 194 10 2, DrawOp.point 194 60 1, DrawOp.line 194 10 194 60 1]) :=
  ⟨rfl, by decide⟩

theorem linesFollow_snoc (img : Image) (op : DrawOp) (h : LinesFollowPoints img)
    (hop : ∀ (px py x y : Int) (c : Nat), op = DrawOp.line px py x y c →
      ∃ a2, img = a2 ++ [DrawOp.point x y c]) :
    LinesFollowPoints (img ++ [op]) := by
  intro a b px py x y c he
  rcases List.eq_nil_or_concat b with hb | ⟨b2, last, hb⟩
  · subst hb
    have h2 : img ++ [op] = a ++ [DrawOp.line px py x y c] := he
    obtain ⟨h3, h4⟩ := List.append_inj' h2 rfl
    simp only [List.cons.injEq, and_true] at h4
    rw [← h3]
    exact hop px py x y c h4
  · subst hb
    have h2 : img ++ [op] = (a ++ DrawOp.line px py x y c :: b2) ++ [last] := by
      rw [he]
      simp
    obtain ⟨h3, _⟩ := List.append_inj' h2 rfl
    exact h a b2 px py x y c h3

theorem linesFollow_base (img : Image) (x y px py : Int) (c : Nat) (h : LinesFollowPoints img) :
    LinesFollowPoints (if px ≠ -1 then drawLine px py x y (drawPoint x y img c) c
      else drawPoint x y img c) := by
  have h1 : LinesFollowPoints (drawPoint x y img c) :=
    linesFollow_snoc img _ h (fun _ _ _ _ _ he => by cases he)
  by_cases hp : px = -1
  · simpa [hp] using h1
  · simp only [ne_eq, hp, not_false_eq_true, if_true]
    refine linesFollow_snoc _ _ h1 ?_
    intro qx qy x2 y2 c2 he
    simp only [DrawOp.line.injEq] at he
    obtain ⟨_, _, e3, e4, e5⟩ := he
    exact ⟨img, by rw [drawPoint, e3, e4, e5]⟩

theorem drawChilds_linesFollow
    (self : Int → Int → Int → Int → Image → Int → Int → Nat → Except Fault Image)
    (hself : ∀ n a b lv im qx qy c im2, LinesFollowPoints im →
      self n a b lv im qx qy c = .ok im2 → LinesFollowPoints im2)
    (x1 step level px py : Int) :
    ∀ (l : List GraphLine) (i : Nat) (img img2 : Image), LinesFollowPoints img →
      drawChilds self x1 step level px py i l img = .ok img2 → LinesFollowPoints img2 := by
  intro l
  induction l with
  | nil =>
    intro i img img2 himg h
    simp only [drawChilds, Except.ok.injEq] at h
    rw [← h]
    exact himg
  | cons c l ih =>
    intro i img img2 himg h
    simp only [drawChilds] at h
    cases hq : self c.Num (childX1 x1 step i) (childX2 x1 step i) (level + 1) img px py c.Color with
    | error e => simp [hq] at h
    | ok im =>
      simp only [hq] at h
      exact ih (i + 1) im img2 (hself _ _ _ _ _ _ _ _ _ himg hq) h

theorem drawVertext_linesFollow :
    ∀ (fuel : Nat) (g : Graph) (v x1 x2 level : Int) (img : Image) (px py : Int) (color : Nat)
      (img2 : Image), LinesFollowPoints img →
      drawVertext fuel g v x1 x2 level img px py color = .ok img2 → LinesFollowPoints img2 := by
  intro fuel
  induction fuel with
  | zero => intro g v x1 x2 level img px py color img2 _ h; simp [drawVertext] at h
  | succ f ih =>
    intro g v x1 x2 level img px py color img2 himg h
    simp only [drawVertext] at h
    have hbase := linesFollow_base img (rootX x1 x2) (rootY level) px py color himg
    by_cases h0 : (Graph.get g v).length = 0
    · simp only [h0, if_true, Except.ok.injEq] at h
      rw [← h]
      exact hbase
    · simp only [h0, if_false, stepX] at h
      exact drawChilds_linesFollow (drawVertext f g)
        (fun n a b lv im qx qy c im2 him hh => ih g n a b lv im qx qy c im2 him hh)
        _ _ _ _ _ _ _ _ _ hbase h

/-- C11 as amended: a `drawVertext` call draws the point of its node before anything else,
and in the image it returns every line directly follows the point drawn at the line's end
in the line's colour, which is the point of the node the line leads to; so in every frame
a connecting line is drawn after its node's point, and its pixels are written after the
point's. -/
theorem point_before_line (fuel : Nat) (g : Graph) (v x1 x2 level : Int) (img : Image)
    (px py : Int) (color : Nat) (img2 : Image) (himg : LinesFollowPoints img)
    (h : drawVertext fuel g v x1 x2 level img px py color = .ok img2) :
    (∃ ops, img2 = img ++ DrawOp.point (rootX x1 x2) (rootY level) color :: ops)
    ∧ LinesFollowPoints img2
    ∧ (∀ (dfuel : Nat) (g2 : Graph) (frame : Image), frameOf dfuel g2 = .ok frame →
        LinesFollowPoints frame) := by
  refine ⟨drawVertext_extends fuel g v x1 x2 level img px py color img2 h,
    drawVertext_linesFollow fuel g v x1 x2 level img px py color img2 himg h, ?_⟩
  intro dfuel g2 frame hf
  refine drawVertext_linesFollow dfuel g2 0 0 canvSize 0 [] (-1) (-1) 2 frame ?_ hf
  intro a b px py x y c he
  cases a <;> simp at he

theorem point_before_line_witness :
    LinesFollowPoints
      [DrawOp.point 194 10 2, DrawOp.point 194 60 1, DrawOp.line 194 10 194 60 1] :=
  (point_before_line 2 oneEdge 0 0 canvSize 0 [] (-1) (-1) 2 _
    (fun a b px py x y c he => by cases a <;> simp at he) rfl).2.1

/-- C19: a node with exactly one child has `stepX = x2 - x1` and hands the child its own
interval `[x1, x2)`; the child is therefore drawn at the parent's x, and the line it passes
to `drawLine` (when the parent's x is not `-1`) has equal x-coordinates, so the divisor
`x2 - x1` of the slope in `drawLine` is zero. -/
theorem single_child_vertical (fuel : Nat) (g : Graph) (v x1 x2 level : Int) (img : Image)
    (px py : Int) (color : Nat) (vertex : GraphLine) (hc : Graph.get g v = [vertex]) :
    stepX x1 x2 (Graph.get g v).length = .ok (x2 - x1)
    ∧ childX1 x1 (x2 - x1) 0 = x1 ∧ childX2 x1 (x2 - x1) 0 = x2
    ∧ drawVertext (fuel + 1) g v x1 x2 level img px py color
        = drawVertext fuel g vertex.Num x1 x2 (level + 1)
            (if px ≠ -1 then
              drawLine px py (rootX x1 x2) (rootY level)
                (drawPoint (rootX x1 x2) (rootY level) img color) color
             else drawPoint (rootX x1 x2) (rootY level) img color)
            (rootX x1 x2) (rootY level) vertex.Color
    ∧ (∀ (f2 : Nat) (im im2 : Image),
        drawVertext f2 g vertex.Num x1 x2 (level + 1) im (rootX x1 x2) (rootY level)
            vertex.Color = .ok im2 →
        DrawOp.point (rootX x1 x2) (rootY (level + 1)) vertex.Color ∈ im2
        ∧ (rootX x1 x2 ≠ -1 →
            DrawOp.line (rootX x1 x2) (rootY level) (rootX x1 x2) (rootY (level + 1))
              vertex.Color ∈ im2))
    ∧ rootX x1 x2 - rootX x1 x2 = 0 := by
  have hs : (x2 - x1).tdiv ((1 : Nat) : Int) = x2 - x1 := by simp
  refine ⟨by simp [stepX, hc], by simp [childX1], by simp [childX2], ?_, ?_, by omega⟩
  · rw [drawVertext]
    simp only [hc, List.length_singleton, one_ne_zero, if_false, stepX, hs, drawChilds,
      childX1, childX2]
    simp only [Nat.cast_zero, zero_mul, add_zero, zero_add, one_mul, add_sub_cancel]
    cases drawVertext fuel g vertex.Num x1 x2 (level + 1)
        (if px ≠ -1 then
          drawLine px py (rootX x1 x2) (rootY level)
            (drawPoint (rootX x1 x2) (rootY level) img color) color
         else drawPoint (rootX x1 x2) (rootY level) img color)
        (rootX x1 x2) (rootY level) vertex.Color <;> rfl
  · intro f2 im im2 h
    obtain ⟨ops, hops⟩ := drawVertext_own_ops f2 g vertex.Num x1 x2 (level + 1) im
      (rootX x1 x2) (rootY level) vertex.Color im2 h
    constructor
    · rw [hops]; simp
    · intro hne
      rw [hops]
      simp [hne]

theorem single_child_vertical_witness :
    drawVertext 2 oneEdge 0 0 400 0 [] (-1) (-1) 2
      = drawVertext 1 oneEdge 1 0 400 (0 + 1) (drawPoint (rootX 0 400) (rootY 0) [] 2)
          (rootX 0 400) (rootY 0) 1 := by
  have h := (single_child_vertical 1 oneEdge 0 0 400 0 [] (-1) (-1) 2 ⟨1, 1⟩ rfl).2.2.2.1
  exact h

theorem drawChilds_grid
    (self : Int → Int → Int → Int → Image → Int → Int → Nat → Except Fault Image)
    (x1 step level px py : Int)
    (hself : ∀ (c a b : Int) (im : Image) (col : Nat) (im2 : Image),
      (∀ op ∈ im, DrawOp.onGrid op) → self c a b (level + 1) im px py col = .ok im2 →
      ∀ op ∈ im2, DrawOp.onGrid op) :
    ∀ (l : List GraphLine) (i : Nat) (img img2 : Image), (∀ op ∈ img, DrawOp.onGrid op) →
      drawChilds self x1 step level px py i l img = .ok img2 → ∀ op ∈ img2, DrawOp.onGrid op := by
  intro l
  induction l with
  | nil =>
    intro i img img2 himg h
    simp only [drawChilds, Except.ok.injEq] at h
    rw [← h]
    exact himg
  | cons c l ih =>
    intro i img img2 himg h
    simp only [drawChilds] at h
    cases hq : self c.Num (childX1 x1 step i) (childX2 x1 step i) (level + 1) img px py c.Color with
    | error e => simp [hq] at h
    | ok im =>
      simp only [hq] at h
      exact ih (i + 1) im img2 (hself _ _ _ _ _ _ himg hq) h

theorem drawVertext_grid :
    ∀ (fuel : Nat) (g : Graph) (v x1 x2 : Int) (n : Nat) (img : Image) (px py : Int)
      (color : Nat) (img2 : Image),
      (px ≠ -1 → ∃ m : Nat, n = m + 1 ∧ py = rootY m) → (∀ op ∈ img, DrawOp.onGrid op) →
      drawVertext fuel g v x1 x2 (n : Int) img px py color = .ok img2 →
      ∀ op ∈ img2, DrawOp.onGrid op := by
  intro fuel
  induction fuel with
  | zero => intro g v x1 x2 n img px py color img2 _ _ h; simp [drawVertext] at h
  | succ f ih =>
    intro g v x1 x2 n img px py color img2 hpar himg h
    simp only [drawVertext, drawPoint, drawLine] at h
    have hbase : ∀ op ∈ (if px ≠ -1 then
        img ++ [DrawOp.point (rootX x1 x2) (rootY n) color]
          ++ [DrawOp.line px py (rootX x1 x2) (rootY n) color]
        else img ++ [DrawOp.point (rootX x1 x2) (rootY n) color]), DrawOp.onGrid op := by
      intro op hop
      by_cases hp : px = -1
      · simp only [hp, ne_eq, not_true_eq_false, if_false, List.mem_append,
          List.mem_singleton] at hop
        rcases hop with hop | hop
        · exact himg op hop
        · rw [hop]; exact ⟨n, rfl⟩
      · simp only [ne_eq, hp, not_false_eq_true, if_true, List.mem_append,
          List.mem_singleton] at hop
        rcases hop with (hop | hop) | hop
        · exact himg op hop
        · rw [hop]; exact ⟨n, rfl⟩
        · obtain ⟨m, hm1, hm2⟩ := hpar hp
          rw [hop]
          refine ⟨m, hm2, ?_⟩
          rw [hm1]
          push_cast
          rfl
    by_cases h0 : (Graph.get g v).length = 0
    · simp only [h0, if_true, Except.ok.injEq] at h
      rw [← h]
      exact hbase
    · simp only [h0, if_false, stepX] at h
      refine drawChilds_grid (drawVertext f g) _ _ _ _ _ ?_ _ _ _ _ hbase h
      intro c a b im col im2 him hcall
      have hcast : ((n : Int) + 1) = ((n + 1 : Nat) : Int) := by push_cast; rfl
      rw [hcast] at hcall
      exact ih g c a b (n + 1) im _ _ col im2 (fun _ => ⟨n, rfl, rfl⟩) him hcall

theorem pointYs_append (a b : Image) : pointYs (a ++ b) = pointYs a ++ pointYs b := by
  simp [pointYs, List.filterMap_append]

theorem pointYs_base (img : Image) (x y : Int) (px py : Int) (c : Nat) :
    pointYs (if px ≠ -1 then drawLine px py x y (drawPoint x y img c) c else drawPoint x y img c)
      = pointYs img ++ [y] := by
  by_cases hp : px = -1
  · simp [hp, drawPoint, pointYs, List.filterMap_append]
  · simp [hp, drawPoint, drawLine, pointYs, List.filterMap_append]

theorem drawChilds_ys (g : Graph) (F : Forest) :
    ∀ (fuel : Nat), Unfolds g F → F.height ≤ fuel →
    ∀ (l : List GraphLine), l.map GraphLine.Num = F.roots →
    ∀ (x1 step level px py : Int) (i : Nat) (img : Image),
      ∃ img2, drawChilds (drawVertext fuel g) x1 step level px py i l img = .ok img2
        ∧ pointYs img2 = pointYs img ++ Forest.ys (level + 1) F := by
  induction F with
  | nil =>
    intro fuel _ _ l hl x1 step level px py i img
    have : l = [] := by simpa [Forest.roots] using hl
    subst this
    exact ⟨img, rfl, by simp [Forest.ys]⟩
  | cons v kids rest ih1 ih2 =>
    intro fuel hu hh l hl x1 step level px py i img
    obtain ⟨hv, hk, hr⟩ := hu
    simp only [Forest.height] at hh
    cases l with
    | nil => simp [Forest.roots] at hl
    | cons vertex l2 =>
      simp only [List.map_cons, Forest.roots, List.cons.injEq] at hl
      obtain ⟨hn, hl2⟩ := hl
      cases fuel with
      | zero => omega
      | succ f =>
        have hself : ∀ (a b : Int) (im : Image) (qx qy : Int) (c : Nat),
            ∃ im2, drawVertext (f + 1) g vertex.Num a b (level + 1) im qx qy c = .ok im2
              ∧ pointYs im2 = pointYs im ++ rootY (level + 1) :: Forest.ys (level + 1 + 1) kids := by
          intro a b im qx qy c
          rw [hn]
          simp only [drawVertext]
          by_cases h0 : (Graph.get g v).length = 0
          · have hkn : kids = Forest.nil := roots_eq_nil kids (by
              have := congrArg List.length hv
              simp only [topo, List.length_map, h0] at this
              exact List.length_eq_zero.mp this.symm)
            subst hkn
            simp only [h0, if_true]
            exact ⟨_, rfl, by rw [pointYs_base]; simp [Forest.ys]⟩
          · simp only [h0, if_false, stepX]
            obtain ⟨im2, h1, h2⟩ := ih1 f hk (by omega) (Graph.get g v) hv a
              ((b - a).tdiv ((Graph.get g v).length : Int)) (level + 1) (rootX a b)
              (rootY (level + 1)) 0
              (if qx ≠ -1 then
                drawLine qx qy (rootX a b) (rootY (level + 1))
                  (drawPoint (rootX a b) (rootY (level + 1)) im c) c
               else drawPoint (rootX a b) (rootY (level + 1)) im c)
            exact ⟨im2, h1, by rw [h2, pointYs_base]; simp⟩
        obtain ⟨im2, him2, hy2⟩ := hself (childX1 x1 step i) (childX2 x1 step i) img px py
          vertex.Color
        obtain ⟨im3, him3, hy3⟩ := ih2 (f + 1) hr (by omega) l2 hl2 x1 step level px py (i + 1) im2
        refine ⟨im3, ?_, ?_⟩
        · simp only [drawChilds, him2, him3]
        · rw [hy3, hy2]
          simp [Forest.ys]

theorem frameOf_grid (df : Nat) (h : Graph) (img : Image) (hf : frameOf df h = .ok img) :
    ∀ op ∈ img, DrawOp.onGrid op := by
  have := drawVertext_grid df h 0 0 canvSize 0 [] (-1) (-1) 2 img
    (fun hp => absurd rfl hp) (fun op hop => by simp at hop)
  exact this hf

theorem frameOf_ys (g : Graph) (kids : Forest) (dfuel : Nat)
    (hu : Unfolds g (Forest.cons 0 kids Forest.nil)) (hd : kids.height + 1 ≤ dfuel) :
    ∃ img, frameOf dfuel g = .ok img ∧ pointYs img = rootY 0 :: Forest.ys 1 kids := by
  obtain ⟨img, h1, h2⟩ := drawChilds_ys g (Forest.cons 0 kids Forest.nil) dfuel hu
    (by simp [Forest.height]; omega) [⟨0, 2⟩] (by simp [Forest.roots])
    0 canvSize (-1) (-1) (-1) 0 []
  have e1 : childX1 0 canvSize 0 = 0 := by decide
  have e2 : childX2 0 canvSize 0 = canvSize := by decide
  simp only [drawChilds, e1, e2, neg_add_cancel] at h1
  refine ⟨img, ?_, ?_⟩
  · unfold frameOf
    cases hq : drawVertext dfuel g 0 0 canvSize 0 [] (-1) (-1) 2 with
    | error e => simp [hq] at h1
    | ok im =>
      simp only [hq, Except.ok.injEq] at h1
      rw [h1]
  · rw [h2]
    simp [Forest.ys, pointYs]

/-- C17: `rootY level = 10 + 50 * level`; in the frame of a tree rooted at node 0 the nodes,
in pre-order, are drawn at the rows of their depths (the root at `y = 10`); and in every
frame of any graph every line handed to `drawLine` goes from the row of some depth to the
row of the next depth, so `y2 - y1 = 50` and no segment is horizontal. -/
theorem rows_and_segments (dfuel : Nat) (g : Graph) (kids : Forest)
    (ht : IsTree g 0 kids) (hd : kids.height + 1 ≤ dfuel) :
    (∀ level : Int, rootY level = 10 + 50 * level)
    ∧ rootY 0 = 10
    ∧ (∃ img, frameOf dfuel g = .ok img ∧ pointYs img = rootY 0 :: Forest.ys 1 kids)
    ∧ (∀ (h : Graph) (df : Nat) (img : Image), frameOf df h = .ok img →
        (∀ op ∈ img, DrawOp.onGrid op)
        ∧ ∀ (a y1 b y2 : Int) (c : Nat), DrawOp.line a y1 b y2 c ∈ img →
            y2 - y1 = 50 ∧ y1 ≠ y2) := by
  refine ⟨fun _ => rfl, rfl, frameOf_ys g kids dfuel ht.shape hd, ?_⟩
  intro h df img hf
  have hg := frameOf_grid df h img hf
  refine ⟨hg, ?_⟩
  intro a y1 b y2 c hm
  obtain ⟨n, h1, h2⟩ := hg _ hm
  rw [h1, h2]
  simp only [rootY]
  constructor <;> omega

theorem rows_and_segments_witness :
    ∃ img, frameOf 2 twoEdges = .ok img ∧ pointYs img = [10, 60, 60] := by
  obtain ⟨img, h1, h2⟩ :=
    (rows_and_segments 2 twoEdges twoKids isTree_twoEdges (by decide)).2.2.1
  exact ⟨img, h1, by rw [h2]; rfl⟩

/-! ## The built-in graph -/

theorem mem_of_get (g : Graph) (v : Int) (l : GraphLine) (h : l ∈ Graph.get g v) :
    ∃ p ∈ g, l ∈ p.2 := by
  induction g with
  | nil => simp [Graph.get] at h
  | cons q rest ih =>
    obtain ⟨k, l0⟩ := q
    by_cases hk : k = v
    · simp only [Graph.get, hk, if_true] at h
      exact ⟨(k, l0), List.mem_cons_self _ _, h⟩
    · simp only [Graph.get, hk, if_false] at h
      obtain ⟨p, hp, hl⟩ := ih h
      exact ⟨p, List.mem_cons_of_mem _ hp, hl⟩

theorem isTree_makeGraph : IsTree makeGraph 0 makeKids := by
  refine ⟨by decide, by decide, ?_⟩
  intro v hv
  apply get_of_not_mem_keys
  intro hk
  have hsub : ∀ k ∈ Graph.keys makeGraph, k ∈ (Forest.cons 0 makeKids Forest.nil).ids := by
    decide
  exact hv (hsub v hk)

theorem allUnvisited_makeGraph : AllUnvisited makeGraph := by
  intro v l hl
  obtain ⟨p, hp, hl2⟩ := mem_of_get makeGraph v l hl
  have hall : ∀ p ∈ makeGraph, ∀ l ∈ p.2, l.Visited = false := by decide
  exact hall p hp l hl2

theorem dfs_length (dfuel fuel : Nat) (g : Graph) (kids : Forest) (ht : IsTree g 0 kids)
    (hd : kids.height + 1 ≤ dfuel) (hf : kids.height + 1 ≤ fuel) :
    ∃ g2 anim, dfs dfuel fuel g ⟨[], []⟩ 0 = .ok (g2, anim)
      ∧ anim.Image.length = kids.size + 1 := by
  obtain ⟨a2, h1, h2, _⟩ := dfs_tree dfuel fuel g ⟨[], []⟩ kids ht.shape hd hf
  refine ⟨_, a2, h1, ?_⟩
  have := congrArg List.length h2
  simpa [trail_eq_range, length_preEdges] using this

theorem bfs_length (dfuel fuel : Nat) (g : Graph) (kids : Forest) (ht : IsTree g 0 kids)
    (hun : AllUnvisited g) (hd : kids.height + 1 ≤ dfuel) (hf : kids.height + 1 ≤ fuel) :
    ∃ g2 anim, bfs dfuel fuel g ⟨[], []⟩ 0 = .ok (g2, anim)
      ∧ anim.Image.length = 1 + kids.size + (Graph.get g 0).length
          + ((Graph.get g 0).map (fun c => (Graph.get g c.Num).length)).sum := by
  obtain ⟨aq, q, img, _, h2, _, h4⟩ := bfs_tree dfuel fuel g 0 kids ht hun hd hf
  refine ⟨_, _, h4, ?_⟩
  have hlen := congrArg List.length h2
  simp only [List.length_map, List.length_cons, length_trail, length_levelOrder_tree] at hlen
  simp only [List.length_append, List.length_replicate, hlen]
  omega

/-- C20: the graph of `makeGraph` is a tree rooted at node 0: it has 24 nodes and 23 edges,
node 0 is the target of no edge and every other node of exactly one, all nodes are those of
the tree `makeKids` under 0 (each reached once), and all edges are Unvisited; so, with
fuel at least 8, `dfs` from 0 returns with exactly 24 frames and `bfs` from 0 with exactly
`1 + 23 + 2 + 3 = 29` frames. -/
theorem makeGraph_tree :
    IsTree makeGraph 0 makeKids
    ∧ AllUnvisited makeGraph
    ∧ ((Graph.keys makeGraph ++ Graph.targets makeGraph).dedup).length = 24
    ∧ (∀ v ∈ Graph.keys makeGraph ++ Graph.targets makeGraph,
        v ∈ (Forest.cons 0 makeKids Forest.nil).ids)
    ∧ (Forest.cons 0 makeKids Forest.nil).ids.length = 24
    ∧ Graph.edgeCount makeGraph = 23 ∧ makeKids.size = 23
    ∧ (Graph.targets makeGraph).count 0 = 0
    ∧ (∀ v ∈ (Graph.keys makeGraph ++ Graph.targets makeGraph).dedup,
        v ≠ 0 → (Graph.targets makeGraph).count v = 1)
    ∧ (Graph.get makeGraph 0).length = 2
    ∧ ((Graph.get makeGraph 0).map (fun c => (Graph.get makeGraph c.Num).length)).sum = 3
    ∧ (∀ dfuel fuel : Nat, 8 ≤ dfuel → 8 ≤ fuel →
        (∃ g2 anim, dfs dfuel fuel makeGraph ⟨[], []⟩ 0 = .ok (g2, anim)
          ∧ anim.Image.length = 24)
        ∧ (∃ g3 anim, bfs dfuel fuel makeGraph ⟨[], []⟩ 0 = .ok (g3, anim)
          ∧ anim.Image.length = 29)) := by
  refine ⟨isTree_makeGraph, allUnvisited_makeGraph, by decide, by decide, by decide, by decide,
    by decide, by decide, by decide, by decide, by decide, ?_⟩
  intro dfuel fuel hd hf
  have hh : makeKids.height + 1 = 8 := by decide
  constructor
  · obtain ⟨g2, anim, h1, h2⟩ := dfs_length dfuel fuel makeGraph makeKids isTree_makeGraph
      (by omega) (by omega)
    exact ⟨g2, anim, h1, by rw [h2]; rfl⟩
  · obtain ⟨g3, anim, h1, h2⟩ := bfs_length dfuel fuel makeGraph makeKids isTree_makeGraph
      allUnvisited_makeGraph (by omega) (by omega)
    exact ⟨g3, anim, h1, by rw [h2]; rfl⟩

theorem makeGraph_tree_witness :
    (∃ g2 anim, dfs 8 8 makeGraph ⟨[], []⟩ 0 = .ok (g2, anim) ∧ anim.Image.length = 24)
    ∧ (∃ g3 anim, bfs 8 8 makeGraph ⟨[], []⟩ 0 = .ok (g3, anim) ∧ anim.Image.length = 29) :=
  makeGraph_tree.2.2.2.2.2.2.2.2.2.2.2 8 8 (by decide) (by decide)

/-! ## The colours of a frame, and the line that is left out -/

theorem colourOK_of_entries (g : Graph)
    (h : ∀ p ∈ g, ∀ l ∈ p.2, l.Color = 1 ∨ l.Color = 2) : ColourOK g := by
  intro v l hl
  obtain ⟨p, hp, hl2⟩ := mem_of_get g v l hl
  exact h p hp l hl2

theorem colourOK_makeGraph : ColourOK makeGraph :=
  colourOK_of_entries makeGraph (by decide)

theorem makeGraph_frames_as_spec (dfuel : Nat) (hd : 8 ≤ dfuel) (es : List (Int × Nat)) :
    frameOf dfuel (Graph.marks makeGraph es) = .ok (specFrame (Graph.marks makeGraph es) makeKids) :=
  frame_of_tree_off_sentinel dfuel makeGraph makeKids isTree_makeGraph colourOK_makeGraph
    (by have : makeKids.height + 1 = 8 := by decide
        omega) (by decide) es

theorem isTree_starGraph : IsTree starGraph 0 starKids := by
  refine ⟨by decide, by decide, ?_⟩
  intro v hv
  apply get_of_not_mem_keys
  intro hk
  have hsub : ∀ k ∈ Graph.keys starGraph, k ∈ (Forest.cons 0 starKids Forest.nil).ids := by
    decide
  exact hv (hsub v hk)

/-- C10, a tree on which the code does not do what the claim says: in the graph with the
edges `0 -> 1, ..., 0 -> 40, 1 -> 41, 1 -> 42` node 1 has interval `[0, 10)` and is drawn at
x `-1`, the value that stands for "no parent"; the frame then has, in row 110, the squares
of the non-root nodes 41 and 42 and no line to either, where the claim asks for their
lines from `(-1, 60)` in the colour of their edges. -/
theorem line_missing_at_sentinel :
    IsTree starGraph 0 starKids
    ∧ ColourOK starGraph
    ∧ stepX 0 canvSize (Graph.get starGraph 0).length = .ok 10
    ∧ rootX (childX1 0 10 0) (childX2 0 10 0) = -1
    ∧ Except.map (rowOps 110) (frameOf 3 starGraph)
        = .ok [DrawOp.point (-3) 110 1, DrawOp.point 2 110 1]
    ∧ rowOps 110 (specFrame starGraph starKids)
        = [DrawOp.point (-3) 110 1, DrawOp.line (-1) 60 (-3) 110 1,
           DrawOp.point 2 110 1, DrawOp.line (-1) 60 2 110 1]
    ∧ frameOf 3 starGraph ≠ .ok (specFrame starGraph starKids) := by
  have h5 : Except.map (rowOps 110) (frameOf 3 starGraph)
      = .ok [DrawOp.point (-3) 110 1, DrawOp.point 2 110 1] := rfl
  have h6 : rowOps 110 (specFrame starGraph starKids)
      = [DrawOp.point (-3) 110 1, DrawOp.line (-1) 60 (-3) 110 1,
         DrawOp.point 2 110 1, DrawOp.line (-1) 60 2 110 1] := by decide
  refine ⟨isTree_starGraph, colourOK_of_entries starGraph (by decide), rfl, by decide, h5, h6, ?_⟩
  intro h
  rw [h] at h5
  simp only [Except.map, Except.ok.injEq, h6] at h5
  exact absurd h5 (by decide)

end GoGraph
